import Mathlib

/-!
# Verification of the `zwis` in-process cache library

Shallow embedding of the four cache engines of the `zwis` Go repository
(`MemoryCache`, `LRUCache`, `LFUCache`, `ARCCache`) together with the
`NewCache` factory, and proofs settling the frozen claims about them.

Modelling conventions, shared by all four engines:

* Go `string` keys are `String`; cached values (`interface{}`) are a type
  parameter `α`; a Go `nil` value is `Option.none` where the code can store
  one (the ARC ghost-hit placeholder).
* Go `time.Time` / `int64` nanosecond timestamps are `Int`.  Every operation
  that reads the clock (`time.Now()`) takes the current instant `now : Int`
  as an explicit argument.
* A Go `map` is an association list `List (κ × β)` with the helper
  operations `lookupKey` / `insertKey` / `eraseKey` below; the modelled code
  never iterates over one of these maps, so the list order is unobservable
  (the one observable map iteration in the source, LFU's `evict`, picks an
  arbitrary bucket member; the model picks the first one, see `lfuEvict`).
* A Go `container/list.List` is a `List` whose head is the front of the
  list; `PushFront` is `cons`, `Back` is `getLast?`, `Remove` of the back
  is `dropLast`.
* Operations that can dereference a nil pointer in Go (panic) return
  `Option`, with `none` modelling the panic.  Operations with no panicking
  path are total functions.
* Per-instance mutexes serialize every public operation in the source, so
  one operation is one atomic state transition; the model is the resulting
  sequential state machine.
-/

namespace Zwis

/-! ## Association-list helpers (Go `map` semantics) -/

def lookupKey [DecidableEq κ] : List (κ × β) → κ → Option β
  | [], _ => none
  | p :: l, k => if p.1 = k then some p.2 else lookupKey l k

def insertKey [DecidableEq κ] : List (κ × β) → κ → β → List (κ × β)
  | [], k, v => [(k, v)]
  | p :: l, k, v => if p.1 = k then (k, v) :: l else p :: insertKey l k v

def eraseKey [DecidableEq κ] : List (κ × β) → κ → List (κ × β)
  | [], _ => []
  | p :: l, k => if p.1 = k then eraseKey l k else p :: eraseKey l k

def keysOf (l : List (κ × β)) : List κ := l.map (·.1)

section AssocLemmas

variable [DecidableEq κ]

@[simp] theorem lookupKey_nil {k : κ} : lookupKey ([] : List (κ × β)) k = none := rfl

@[simp] theorem lookupKey_cons {p : κ × β} {l : List (κ × β)} {k : κ} :
    lookupKey (p :: l) k = if p.1 = k then some p.2 else lookupKey l k := rfl

@[simp] theorem insertKey_nil {k : κ} {v : β} :
    insertKey ([] : List (κ × β)) k v = [(k, v)] := rfl

@[simp] theorem insertKey_cons {p : κ × β} {l : List (κ × β)} {k : κ} {v : β} :
    insertKey (p :: l) k v =
      if p.1 = k then (k, v) :: l else p :: insertKey l k v := rfl

@[simp] theorem eraseKey_nil {k : κ} : eraseKey ([] : List (κ × β)) k = [] := rfl

@[simp] theorem eraseKey_cons {p : κ × β} {l : List (κ × β)} {k : κ} :
    eraseKey (p :: l) k =
      if p.1 = k then eraseKey l k else p :: eraseKey l k := rfl

@[simp] theorem lookupKey_insertKey_self {l : List (κ × β)} {k : κ} {v : β} :
    lookupKey (insertKey l k v) k = some v := by
  induction l with
  | nil => simp
  | cons p l ih =>
    by_cases h : p.1 = k <;> simp [h, ih]

theorem lookupKey_insertKey_ne {l : List (κ × β)} {k k' : κ} {v : β} (h : k ≠ k') :
    lookupKey (insertKey l k v) k' = lookupKey l k' := by
  induction l with
  | nil => simp [h]
  | cons p l ih =>
    by_cases hp : p.1 = k
    · subst hp; simp [h, Ne.symm h]
    · by_cases hp' : p.1 = k'
      · subst hp'; simp [hp]
      · simp [hp, hp', ih]

@[simp] theorem lookupKey_eraseKey_self {l : List (κ × β)} {k : κ} :
    lookupKey (eraseKey l k) k = none := by
  induction l with
  | nil => simp
  | cons p l ih =>
    by_cases h : p.1 = k <;> simp [h, ih]

theorem lookupKey_eraseKey_ne {l : List (κ × β)} {k k' : κ} (h : k ≠ k') :
    lookupKey (eraseKey l k) k' = lookupKey l k' := by
  induction l with
  | nil => simp
  | cons p l ih =>
    by_cases hp : p.1 = k
    · subst hp; simp [h, ih]
    · by_cases hp' : p.1 = k'
      · subst hp'; simp [hp]
      · simp [hp, hp', ih]

theorem lookupKey_isSome_iff_mem_keys {l : List (κ × β)} {k : κ} :
    (lookupKey l k).isSome ↔ k ∈ keysOf l := by
  induction l with
  | nil => simp [keysOf]
  | cons p l ih =>
    by_cases h : p.1 = k
    · subst h; simp [keysOf]
    · simp [keysOf, h, Ne.symm h] at ih ⊢
      exact ih

theorem lookupKey_eq_none_iff_not_mem_keys {l : List (κ × β)} {k : κ} :
    lookupKey l k = none ↔ k ∉ keysOf l := by
  rw [← lookupKey_isSome_iff_mem_keys]
  cases lookupKey l k <;> simp

theorem length_insertKey_of_lookup_none {l : List (κ × β)} {k : κ} {v : β}
    (h : lookupKey l k = none) : (insertKey l k v).length = l.length + 1 := by
  induction l with
  | nil => simp
  | cons p l ih =>
    by_cases hp : p.1 = k
    · simp [hp] at h
    · simp [hp] at h ⊢
      exact ih h

theorem length_insertKey_of_lookup_some {l : List (κ × β)} {k : κ} {v w : β}
    (h : lookupKey l k = some w) : (insertKey l k v).length = l.length := by
  induction l with
  | nil => simp at h
  | cons p l ih =>
    by_cases hp : p.1 = k
    · simp [hp]
    · simp [hp] at h ⊢
      exact ih h

theorem length_eraseKey_le {l : List (κ × β)} {k : κ} :
    (eraseKey l k).length ≤ l.length := by
  induction l with
  | nil => simp
  | cons p l ih =>
    by_cases hp : p.1 = k <;> simp [hp] <;> omega

theorem length_eraseKey_lt_of_lookup_some {l : List (κ × β)} {k : κ} {v : β}
    (h : lookupKey l k = some v) : (eraseKey l k).length < l.length := by
  induction l with
  | nil => simp at h
  | cons p l ih =>
    by_cases hp : p.1 = k
    · simpa [hp] using Nat.lt_succ_of_le length_eraseKey_le
    · simp [hp] at h ⊢
      exact ih h

theorem eraseKey_of_not_mem {l : List (κ × β)} {k : κ} (h : k ∉ keysOf l) :
    eraseKey l k = l := by
  induction l with
  | nil => simp
  | cons p l ih =>
    simp only [keysOf, List.map_cons, List.mem_cons, not_or] at h
    simp [Ne.symm h.1, ih h.2]

theorem length_eraseKey_of_nodup_mem {l : List (κ × β)} {k : κ}
    (hnd : (keysOf l).Nodup) (hmem : k ∈ keysOf l) :
    (eraseKey l k).length + 1 = l.length := by
  induction l with
  | nil => simp [keysOf] at hmem
  | cons p l ih =>
    simp only [keysOf, List.map_cons, List.nodup_cons] at hnd
    rcases hnd with ⟨hp, hnd⟩
    by_cases hpk : p.1 = k
    · subst hpk
      simp [eraseKey_of_not_mem hp]
    · simp only [keysOf, List.map_cons, List.mem_cons] at hmem
      rcases hmem with h | h
      · exact absurd h.symm hpk
      · simpa [hpk] using ih hnd h

theorem keys_insertKey {l : List (κ × β)} {k : κ} {v : β} {k' : κ} :
    k' ∈ keysOf (insertKey l k v) ↔ k' = k ∨ k' ∈ keysOf l := by
  induction l with
  | nil => simp [keysOf]
  | cons p l ih =>
    by_cases hp : p.1 = k
    · subst hp; simp [keysOf]
    · simp [keysOf, hp] at ih ⊢
      tauto

theorem keys_eraseKey {l : List (κ × β)} {k k' : κ} :
    k' ∈ keysOf (eraseKey l k) ↔ k' ≠ k ∧ k' ∈ keysOf l := by
  induction l with
  | nil => simp [keysOf]
  | cons p l ih =>
    by_cases hp : p.1 = k
    · subst hp
      rw [eraseKey_cons, if_pos rfl, ih]
      simp only [keysOf, List.map_cons, List.mem_cons]
      tauto
    · rw [eraseKey_cons, if_neg hp]
      simp only [keysOf, List.map_cons, List.mem_cons] at ih ⊢
      rw [ih]
      constructor
      · rintro (h | h)
        · exact ⟨by rintro rfl; exact hp h.symm, Or.inl h⟩
        · exact ⟨h.1, Or.inr h.2⟩
      · rintro ⟨hne, h | h⟩
        · exact Or.inl h
        · exact Or.inr ⟨hne, h⟩

theorem nodup_keys_insertKey {l : List (κ × β)} {k : κ} {v : β}
    (h : (keysOf l).Nodup) : (keysOf (insertKey l k v)).Nodup := by
  induction l with
  | nil => simp [keysOf]
  | cons p l ih =>
    simp only [keysOf, List.map_cons, List.nodup_cons] at h
    by_cases hp : p.1 = k
    · subst hp; simpa [keysOf] using h
    · simp only [insertKey_cons, hp, if_false, keysOf, List.map_cons, List.nodup_cons]
      refine ⟨fun hmem => ?_, ih h.2⟩
      rcases (keys_insertKey).1 hmem with h' | h'
      · exact hp h'
      · exact h.1 h'

theorem nodup_keys_eraseKey {l : List (κ × β)} {k : κ}
    (h : (keysOf l).Nodup) : (keysOf (eraseKey l k)).Nodup := by
  induction l with
  | nil => simp [keysOf]
  | cons p l ih =>
    simp only [keysOf, List.map_cons, List.nodup_cons] at h
    by_cases hp : p.1 = k
    · simp [hp, ih h.2]
    · simp only [eraseKey_cons, hp, if_false, keysOf, List.map_cons, List.nodup_cons]
      exact ⟨fun hmem => h.1 ((keys_eraseKey).1 hmem).2, ih h.2⟩

end AssocLemmas

/-! ## The operation alphabet shared by all engines

One constructor per method of the `Cache` interface.  `set` and `get`
carry the instant `now` at which the operation runs (the value the Go code
would read from `time.Now()`); `ttl` is the duration argument of `Set`. -/

inductive CacheOp (α : Type) where
  | set (key : String) (value : α) (ttl : Int) (now : Int)
  | get (key : String) (now : Int)
  | del (key : String)
  | flush
deriving DecidableEq, Repr

/-! ## MemoryCache (`memory.go`)

`items map[string]item` with `item{value interface{}; expiration int64}`.
`Get` checks `item.expiration > 0 && item.expiration < time.Now().UnixNano()`
and reports a miss on expiry but does NOT delete the entry. -/

structure MemItem (α : Type) where
  value : α
  expiration : Int
deriving DecidableEq, Repr

structure MemoryCache (α : Type) where
  items : List (String × MemItem α)
deriving DecidableEq, Repr

def NewMemoryCache (α : Type) : MemoryCache α := ⟨[]⟩

def memGet [DecidableEq α] (c : MemoryCache α) (key : String) (now : Int) :
    (Option α × Bool) × MemoryCache α :=
  match lookupKey c.items key with
  | none => ((none, false), c)
  | some it =>
    if it.expiration > 0 ∧ it.expiration < now then ((none, false), c)
    else ((some it.value, true), c)

def memSet [DecidableEq α] (c : MemoryCache α) (key : String) (value : α)
    (ttl now : Int) : MemoryCache α :=
  let expiration : Int := if ttl > 0 then now + ttl else 0
  ⟨insertKey c.items key ⟨value, expiration⟩⟩

def memDelete [DecidableEq α] (c : MemoryCache α) (key : String) : MemoryCache α :=
  ⟨eraseKey c.items key⟩

def memFlush (c : MemoryCache α) : MemoryCache α := ⟨[]⟩

def memStep [DecidableEq α] (c : MemoryCache α) : CacheOp α → MemoryCache α
  | .set k v ttl now => memSet c k v ttl now
  | .get k now => (memGet c k now).2
  | .del k => memDelete c k
  | .flush => memFlush c

def memRun [DecidableEq α] (c : MemoryCache α) (ops : List (CacheOp α)) :
    MemoryCache α :=
  ops.foldl memStep c

/-! ## LRUCache (`lru.go`)

The source keeps `cache map[interface{}]*list.Element` and `list *list.List`
of `entry{key, value, expiration}` in lock step: the map's domain always
equals the set of keys on the list and maps each key to its list element.
The model therefore represents the state by the entry list alone (front =
most recently used); a map lookup is a search of that list.  LRU stores the
expiration as a `time.Time` whose zero value means "never"; the model uses
`Option Int` with `none` for the zero time. -/

structure LRUEntry (α : Type) where
  key : String
  value : α
  expiration : Option Int
deriving DecidableEq, Repr

structure LRUCache (α : Type) where
  capacity : Int
  entries : List (LRUEntry α)
deriving DecidableEq, Repr

def NewLRUCache (α : Type) (capacity : Int) : LRUCache α := ⟨capacity, []⟩

/-- `!entry.expiration.IsZero() && entry.expiration.Before(time.Now())`. -/
def lruExpired (exp : Option Int) (now : Int) : Bool :=
  match exp with
  | none => false
  | some t => decide (t < now)

def lruFind (c : LRUCache α) (key : String) : Option (LRUEntry α) :=
  c.entries.find? (fun e => e.key == key)

/-- Remove the (unique) entry with the given key: `removeElement`. -/
def lruRemoveKey (c : LRUCache α) (key : String) : LRUCache α :=
  { c with entries := c.entries.eraseP (fun e => e.key == key) }

def lruGet [DecidableEq α] (c : LRUCache α) (key : String) (now : Int) :
    (Option α × Bool) × LRUCache α :=
  match lruFind c key with
  | none => ((none, false), c)
  | some e =>
    if lruExpired e.expiration now then ((none, false), lruRemoveKey c key)
    else ((some e.value, true),
      { c with entries := e :: c.entries.eraseP (fun e' => e'.key == key) })

/-- `removeOldest`: drop the back of the list (no-op when empty). -/
def lruRemoveOldest (c : LRUCache α) : LRUCache α :=
  { c with entries := c.entries.dropLast }

def lruSet [DecidableEq α] (c : LRUCache α) (key : String) (value : α)
    (ttl now : Int) : LRUCache α :=
  let expiration : Option Int := if ttl > 0 then some (now + ttl) else none
  match lruFind c key with
  | some _ =>
    -- MoveToFront + in-place update of value and expiration
    { c with entries :=
        ⟨key, value, expiration⟩ :: c.entries.eraseP (fun e => e.key == key) }
  | none =>
    let c1 := if (c.entries.length : Int) ≥ c.capacity then lruRemoveOldest c else c
    { c1 with entries := ⟨key, value, expiration⟩ :: c1.entries }

def lruDelete (c : LRUCache α) (key : String) : LRUCache α :=
  lruRemoveKey c key

def lruClear (c : LRUCache α) : LRUCache α := { c with entries := [] }

def lruStep [DecidableEq α] (c : LRUCache α) : CacheOp α → LRUCache α
  | .set k v ttl now => lruSet c k v ttl now
  | .get k now => (lruGet c k now).2
  | .del k => lruDelete c k
  | .flush => lruClear c

def lruRun [DecidableEq α] (c : LRUCache α) (ops : List (CacheOp α)) : LRUCache α :=
  ops.foldl lruStep c

/-! ## LFUCache (`lfu.go`)

State: `items map[string]*lfuItem`, `freqs map[int]*freqNode`, `minFreq`.
A `freqNode` holds `freq` and a member map `items map[string]*lfuItem`; the
member pointers are the same objects as the entries of `c.items`, so a
bucket is modelled by its member-key list.  The `prev`/`next` chain links
maintained by `addFreqNode`/`removeFreqNode` are never traversed by any
code path (eviction uses the `freqs` map, removal uses `item.freqNode`),
so they are not part of the model.  `item.freqNode` is modelled by
`Option Nat` holding the freq of the bucket the item is linked into
(`none` = nil pointer, as on a freshly allocated item).

Panics: `incrementFreq` evaluates `len(c.freqs[c.minFreq].items)` and
`remove` evaluates `item.freqNode.items`; when the bucket pointer is nil
these dereference nil and panic.  The model returns `none` there. -/

structure LFUItem (α : Type) where
  value : α
  frequency : Nat
  expiration : Int
  freqNode : Option Nat
deriving DecidableEq, Repr

structure LFUCache (α : Type) where
  capacity : Int
  items : List (String × LFUItem α)
  freqs : List (Nat × List String)
  minFreq : Nat
deriving DecidableEq, Repr

def NewLFUCache (α : Type) (capacity : Int) : LFUCache α := ⟨capacity, [], [], 0⟩

/-- Detach a key from the bucket of frequency `f`, deleting the bucket when
it becomes empty (`removeFreqNode`).  When the bucket is not in `freqs` the
Go code mutates an already unlinked node, which has no observable effect. -/
def lfuDetach (c : LFUCache α) (f : Nat) (k : String) : LFUCache α :=
  match lookupKey c.freqs f with
  | none => c
  | some ms =>
    let ms' := ms.erase k
    if ms'.isEmpty then { c with freqs := eraseKey c.freqs f }
    else { c with freqs := insertKey c.freqs f ms' }

/-- Attach a key to the bucket of frequency `f`, creating the bucket when
absent (the `addFreqNode` chain bookkeeping has no observable effect). -/
def lfuAttach (c : LFUCache α) (f : Nat) (k : String) : LFUCache α :=
  match lookupKey c.freqs f with
  | none => { c with freqs := insertKey c.freqs f [k] }
  | some ms =>
    if k ∈ ms then c else { c with freqs := insertKey c.freqs f (k :: ms) }

/-- `incrementFreq`.  Returns `none` when the Go code would dereference a
nil `*freqNode` (`c.freqs[c.minFreq]` missing while `item.frequency-1 ==
c.minFreq`). -/
def lfuIncrementFreq [DecidableEq α] (c : LFUCache α) (k : String) :
    Option (LFUCache α) :=
  match lookupKey c.items k with
  | none => some c
  | some it =>
    let c1 := match it.freqNode with
      | none => c
      | some f => lfuDetach c f k
    let nf := it.frequency + 1
    let c2 := { c1 with items := insertKey c1.items k { it with frequency := nf, freqNode := some nf } }
    let c3 := lfuAttach c2 nf k
    if nf = 1 then some { c3 with minFreq := 1 }
    else if nf - 1 = c3.minFreq then
      match lookupKey c3.freqs c3.minFreq with
      | none => none
      | some ms => if ms.isEmpty then some { c3 with minFreq := c3.minFreq + 1 } else some c3
    else some c3

/-- `remove`: drop the item from `items` and from its bucket; a nil
`item.freqNode` would make `delete(item.freqNode.items, …)` panic. -/
def lfuRemove (c : LFUCache α) (k : String) (it : LFUItem α) :
    Option (LFUCache α) :=
  let c1 := { c with items := eraseKey c.items k }
  match it.freqNode with
  | none => none
  | some f => some (lfuDetach c1 f k)

/-- `evict`: remove one (arbitrary; here: the first) member of the bucket at
`minFreq`; silently a no-op when that bucket is missing.  When the member
key is (unreachably) absent from `items`, the Go code still removes the
member through its stale pointer; the model mirrors that via `lfuDetach`. -/
def lfuEvict (c : LFUCache α) : Option (LFUCache α) :=
  match lookupKey c.freqs c.minFreq with
  | none => some c
  | some ms =>
    match ms with
    | [] => some c
    | m :: _ =>
      match lookupKey c.items m with
      | some it => lfuRemove c m it
      | none => some (lfuDetach { c with items := eraseKey c.items m } c.minFreq m)

def lfuSet [DecidableEq α] (c : LFUCache α) (k : String) (v : α)
    (ttl now : Int) : Option (LFUCache α) :=
  let expiration : Int := if ttl > 0 then now + ttl else 0
  match lookupKey c.items k with
  | some it =>
    let c1 := { c with items := insertKey c.items k { it with value := v, expiration := expiration } }
    lfuIncrementFreq c1 k
  | none => do
    let c1 ← if (c.items.length : Int) ≥ c.capacity then lfuEvict c else some c
    let c2 := { c1 with items := insertKey c1.items k ⟨v, 0, expiration, none⟩ }
    lfuIncrementFreq c2 k

def lfuGet [DecidableEq α] (c : LFUCache α) (k : String) (now : Int) :
    Option ((Option α × Bool) × LFUCache α) :=
  match lookupKey c.items k with
  | some it =>
    if it.expiration > 0 ∧ it.expiration < now then
      (lfuRemove c k it).map (fun c' => ((none, false), c'))
    else
      (lfuIncrementFreq c k).map (fun c' => ((some it.value, true), c'))
  | none => some ((none, false), c)

def lfuDelete (c : LFUCache α) (k : String) : Option (LFUCache α) :=
  match lookupKey c.items k with
  | some it => lfuRemove c k it
  | none => some c

def lfuFlush (c : LFUCache α) : LFUCache α :=
  { c with items := [], freqs := [], minFreq := 0 }

def lfuStep [DecidableEq α] (c : LFUCache α) : CacheOp α → Option (LFUCache α)
  | .set k v ttl now => lfuSet c k v ttl now
  | .get k now => (lfuGet c k now).map (·.2)
  | .del k => lfuDelete c k
  | .flush => some (lfuFlush c)

def lfuRun [DecidableEq α] (c : LFUCache α) (ops : List (CacheOp α)) :
    Option (LFUCache α) :=
  ops.foldlM lfuStep c

/-! ## ARCCache (`arc.go`)

State: resident lists `t1`, `t2` of `*list.Element` holding `*arcItem`,
ghost lists `b1`, `b2` of bare keys, `cache map[string]*list.Element`, and
the adaptive target `p`.  `list.Element` identity matters (`listContains`
compares element pointers), so each allocated element gets a fresh `id`
from a counter `nextId`.  Every `*arcItem` is referenced by exactly one
live element at a time, so the item data is stored inline in the element;
the `cache` map stores the full element (id + data), which the source
keeps in sync by always re-assigning `c.cache[key]` when it re-wraps an
item in a new element.  A ghost-list entry is a bare key (`string`).

Panics: `replace` takes `c.t2.Back()` in its else-branch without a nil
check; with `t2` empty this passes nil to `list.Remove`, which dereferences
it.  The model returns `none` there. -/

structure ArcElem (α : Type) where
  id : Nat
  key : String
  /-- The stored value; `none` models the Go `nil` stored by the ghost-hit
  placeholder allocated in `request`. -/
  value : Option α
  expiration : Int
deriving DecidableEq, Repr

structure ARCCache (α : Type) where
  capacity : Int
  p : Int
  t1 : List (ArcElem α)
  t2 : List (ArcElem α)
  b1 : List String
  b2 : List String
  cache : List (String × ArcElem α)
  nextId : Nat
deriving DecidableEq, Repr

def NewARCCache (α : Type) (capacity : Int) : ARCCache α :=
  ⟨capacity, 0, [], [], [], [], [], 0⟩

/-- `listContains`: pointer-identity search, i.e. search by element id. -/
def containsId (l : List (ArcElem α)) (i : Nat) : Bool :=
  l.any (fun e => e.id == i)

/-- `list.Remove` of the element with the given id (present at most once). -/
def eraseId (l : List (ArcElem α)) (i : Nat) : List (ArcElem α) :=
  l.eraseP (fun e => e.id == i)

/-- Trim a ghost list to capacity: `if b.Len() > capacity, remove back`. -/
def arcTrim (b : List String) (capacity : Int) : List String :=
  if (b.length : Int) > capacity then b.dropLast else b

/-- `remove`: move a resident entry to the matching ghost list and drop its
`cache` mapping; a key found in neither resident list just loses its
mapping. -/
def arcRemove [DecidableEq α] (c : ARCCache α) (key : String) : ARCCache α :=
  match lookupKey c.cache key with
  | none => c
  | some e =>
    if containsId c.t1 e.id then
      { c with t1 := eraseId c.t1 e.id,
               b1 := arcTrim (key :: c.b1) c.capacity,
               cache := eraseKey c.cache key }
    else if containsId c.t2 e.id then
      { c with t2 := eraseId c.t2 e.id,
               b2 := arcTrim (key :: c.b2) c.capacity,
               cache := eraseKey c.cache key }
    else { c with cache := eraseKey c.cache key }

/-- `replace`: evict the LRU entry of `t1` or of `t2` into the matching
ghost list.  Returns `none` for the nil-dereference panic when the
else-branch runs with `t2` empty. -/
def arcReplace [DecidableEq α] (c : ARCCache α) (key : String) :
    Option (ARCCache α) :=
  if c.t1 ≠ [] ∧ ((c.t1.length : Int) > c.p ∨ (c.b2.contains key ∧ (c.t1.length : Int) = c.p)) then
    match c.t1.getLast? with
    | none => none
    | some lru => some
      { c with t1 := c.t1.dropLast,
               b1 := arcTrim (lru.key :: c.b1) c.capacity,
               cache := eraseKey c.cache lru.key }
  else
    match c.t2.getLast? with
    | none => none
    | some lru => some
      { c with t2 := c.t2.dropLast,
               b2 := arcTrim (lru.key :: c.b2) c.capacity,
               cache := eraseKey c.cache lru.key }

/-- `moveToT2`: drop the key from whichever ghost list holds it (despite its
name it only performs the ghost-list removal; the caller pushes to `t2`). -/
def arcMoveToT2 (c : ARCCache α) (key : String) : ARCCache α :=
  if c.b1.contains key then { c with b1 := c.b1.erase key }
  else if c.b2.contains key then { c with b2 := c.b2.erase key }
  else c

/-- `request`: on a ghost hit adapt `p`, drop the ghost entry and install a
value-less placeholder element at the front of `t2`, registering it in the
`cache` map. -/
def arcRequest [DecidableEq α] (c : ARCCache α) (key : String) : ARCCache α :=
  if c.b1.contains key then
    let p' := min c.capacity (c.p + max ((c.b2.length : Int) / (c.b1.length : Int)) 1)
    let c1 := arcMoveToT2 { c with p := p' } key
    let e : ArcElem α := ⟨c1.nextId, key, none, 0⟩
    { c1 with t2 := e :: c1.t2, cache := insertKey c1.cache key e,
              nextId := c1.nextId + 1 }
  else if c.b2.contains key then
    let p' := max 0 (c.p - max ((c.b1.length : Int) / (c.b2.length : Int)) 1)
    let c1 := arcMoveToT2 { c with p := p' } key
    let e : ArcElem α := ⟨c1.nextId, key, none, 0⟩
    { c1 with t2 := e :: c1.t2, cache := insertKey c1.cache key e,
              nextId := c1.nextId + 1 }
  else c

def arcGet [DecidableEq α] (c : ARCCache α) (key : String) (now : Int) :
    (Option α × Bool) × ARCCache α :=
  match lookupKey c.cache key with
  | some e =>
    if e.expiration > 0 ∧ e.expiration < now then
      ((none, false), arcRemove c key)
    else if containsId c.t1 e.id then
      -- promote: remove from t1, wrap the item in a new element on t2
      let ne := { e with id := c.nextId }
      ((e.value, true),
        { c with t1 := eraseId c.t1 e.id, t2 := ne :: c.t2,
                 cache := insertKey c.cache key ne, nextId := c.nextId + 1 })
    else if containsId c.t2 e.id then
      -- MoveToFront of the same element
      ((e.value, true), { c with t2 := e :: eraseId c.t2 e.id })
    else ((e.value, true), c)
  | none => ((none, false), arcRequest c key)

def arcSet [DecidableEq α] (c : ARCCache α) (key : String) (v : α)
    (ttl now : Int) : Option (ARCCache α) :=
  let expiration : Int := if ttl > 0 then now + ttl else 0
  match lookupKey c.cache key with
  | some e =>
    let e' := { e with value := some v, expiration := expiration }
    if containsId c.t1 e.id then
      let ne := { e' with id := c.nextId }
      some { c with t1 := eraseId c.t1 e.id, t2 := ne :: c.t2,
                    cache := insertKey c.cache key ne, nextId := c.nextId + 1 }
    else if containsId c.t2 e.id then
      some { c with t2 := e' :: eraseId c.t2 e.id,
                    cache := insertKey c.cache key e' }
    else
      -- element in neither list: the write mutates only the shared item
      some { c with cache := insertKey c.cache key e' }
  | none => do
    let c1 := arcRequest c key
    let c2 ← if (c1.t1.length + c1.t2.length : Int) ≥ c1.capacity
      then arcReplace c1 key else some c1
    let ne : ArcElem α := ⟨c2.nextId, key, some v, expiration⟩
    some { c2 with t1 := ne :: c2.t1, cache := insertKey c2.cache key ne,
                   nextId := c2.nextId + 1 }

def arcDelete [DecidableEq α] (c : ARCCache α) (key : String) : ARCCache α :=
  arcRemove c key

def arcFlush (c : ARCCache α) : ARCCache α :=
  { c with t1 := [], t2 := [], b1 := [], b2 := [], cache := [], p := 0 }

def arcStep [DecidableEq α] (c : ARCCache α) : CacheOp α → Option (ARCCache α)
  | .set k v ttl now => arcSet c k v ttl now
  | .get k now => some (arcGet c k now).2
  | .del k => some (arcDelete c k)
  | .flush => some (arcFlush c)

def arcRun [DecidableEq α] (c : ARCCache α) (ops : List (CacheOp α)) :
    Option (ARCCache α) :=
  ops.foldlM arcStep c

/-! ## `NewCache` factory (`cache.go`)

`NewCache(cacheType, capacity)` dispatches on the policy identifier and
returns `(nil, error)` only for an unrecognized identifier; the capacity
argument is passed through unchecked.  `none` models the non-nil error
return. -/

inductive CacheInstance (α : Type) where
  | memory (c : MemoryCache α)
  | lru (c : LRUCache α)
  | lfu (c : LFUCache α)
  | arc (c : ARCCache α)
deriving DecidableEq, Repr

def NewCache (α : Type) (cacheType : String) (capacity : Int) :
    Option (CacheInstance α) :=
  if cacheType = "memory" then some (.memory (NewMemoryCache α))
  else if cacheType = "lru" then some (.lru (NewLRUCache α capacity))
  else if cacheType = "lfu" then some (.lfu (NewLFUCache α capacity))
  else if cacheType = "arc" then some (.arc (NewARCCache α capacity))
  else none

/-! ## Statement vocabulary -/

/-- Does the operation set the given key? -/
def isSetOf (k : String) : CacheOp α → Bool
  | .set k' _ _ _ => k' == k
  | _ => false

/-- Does the operation delete a key? -/
def isDel : CacheOp α → Bool
  | .del _ => true
  | _ => false

/-- Does a `set` operation carry a non-positive TTL ("never expires")? -/
def ttlNonPos : CacheOp α → Bool
  | .set _ _ ttl _ => decide (ttl ≤ 0)
  | _ => true

/-- The two resident lists and the two ghost lists hold pairwise disjoint
keys, with no duplicates inside any one of them. -/
def arcKeysDisjoint (c : ARCCache α) : Prop :=
  ((c.t1 ++ c.t2).map (·.key) ++ c.b1 ++ c.b2).Nodup

/-- `arcStep` restricted to traces that never `Set` a key currently on a
ghost list (the trace condition of the amended C4); other operations are
unrestricted. -/
def arcStepNoGhostSet [DecidableEq α] (c : ARCCache α) : CacheOp α →
    Option (ARCCache α)
  | .set k v ttl now =>
    if c.b1.contains k ∨ c.b2.contains k then none else arcSet c k v ttl now
  | op => arcStep c op

def arcRunNoGhostSet [DecidableEq α] (c : ARCCache α) (ops : List (CacheOp α)) :
    Option (ARCCache α) :=
  ops.foldlM arcStepNoGhostSet c

/-! ## Structural invariants used in the inductive proofs -/

/-- Well-formedness of an `LFUCache` state, maintained by every operation
that completes without panicking. -/
structure LFUWF (c : LFUCache α) : Prop where
  itemsNodup : (keysOf c.items).Nodup
  freqsNodup : (keysOf c.freqs).Nodup
  itemPos : ∀ k it, lookupKey c.items k = some it → 1 ≤ it.frequency
  itemNode : ∀ k it, lookupKey c.items k = some it → it.freqNode = some it.frequency
  itemMem : ∀ k it, lookupKey c.items k = some it →
    ∃ ms, lookupKey c.freqs it.frequency = some ms ∧ k ∈ ms
  bucketNodup : ∀ f ms, lookupKey c.freqs f = some ms → ms.Nodup
  bucketNonempty : ∀ f ms, lookupKey c.freqs f = some ms → ms ≠ []
  bucketValid : ∀ f ms, lookupKey c.freqs f = some ms → ∀ k ∈ ms,
    ∃ it, lookupKey c.items k = some it ∧ it.frequency = f
  minLe : ∀ f, (lookupKey c.freqs f).isSome → c.minFreq ≤ f
  capLe : (c.items.length : Int) ≤ c.capacity
  atCapMin : (c.items.length : Int) = c.capacity →
    (lookupKey c.freqs c.minFreq).isSome

/-- Strengthening of `LFUWF` for traces with no `Delete` and only
non-positive TTLs: `minFreq`'s bucket exists whenever any item does, and no
item carries an expiration. -/
structure LFUWFX (c : LFUCache α) extends LFUWF c : Prop where
  noExp : ∀ k it, lookupKey c.items k = some it → it.expiration = 0
  minBucket : c.items ≠ [] → (lookupKey c.freqs c.minFreq).isSome

/-- Well-formedness of an `ARCCache` state, maintained by every completed
operation of a trace that never `Set`s a ghost-listed key. -/
structure ARCWF (c : ARCCache α) : Prop where
  disj : arcKeysDisjoint c
  idsNodup : ((c.t1 ++ c.t2).map (·.id)).Nodup
  idsLt : ∀ e ∈ c.t1 ++ c.t2, e.id < c.nextId
  cacheKeys : ∀ k e, lookupKey c.cache k = some e → e.key = k
  cacheMem : ∀ k e, lookupKey c.cache k = some e → e ∈ c.t1 ++ c.t2
  memCache : ∀ e ∈ c.t1 ++ c.t2, lookupKey c.cache e.key = some e

/-! ## Claim C1 -/

/-- C1: refuted — the claim says no validly constructed engine can fail on
any `Set`/`Get`/`Delete`/`Flush` sequence, and in particular that `Get`
after `Set` of the same key and a repeated `Set` of the same key never
fail.  The LFU engine panics (nil `*freqNode` dereference in
`incrementFreq`) on exactly those two-operation sequences, and the ARC
engine panics (nil `Element` passed to `list.Remove` by `replace`) on a
seven-operation sequence. -/
theorem c1_lfu_and_arc_panic :
    lfuRun (NewLFUCache Nat 1) [.set "a" 1 0 0, .get "a" 0] = none ∧
    lfuRun (NewLFUCache Nat 1) [.set "a" 1 0 0, .set "a" 2 0 0] = none ∧
    arcRun (NewARCCache Nat 1) [.set "a" 1 0 0, .set "b" 2 0 0, .get "b" 0,
      .get "a" 0, .set "d" 3 0 0, .del "a", .set "e" 4 0 0] = none := by
  refine ⟨by decide, by decide, by decide⟩

/-! ## Claim C9 -/

/-- C9: the round-trip property (`Set` immediately followed by `Get` of the
same key returns the value with `found = true` when nothing expired) holds
for the memory, LRU and ARC engines but fails for LFU: on a fresh LFU
cache, `Set(k); Get(k)` panics in `incrementFreq` instead of returning
`(v, true)`. -/
theorem c9_roundtrip_lfu_panics :
    (memGet (memSet (NewMemoryCache Nat) "k" 7 0 5) "k" 5).1 = (some 7, true) ∧
    (lruGet (lruSet (NewLRUCache Nat 1) "k" 7 0 5) "k" 5).1 = (some 7, true) ∧
    (arcSet (NewARCCache Nat 1) "k" 7 0 5).map (fun c => (arcGet c "k" 5).1) =
      some (some 7, true) ∧
    (lfuSet (NewLFUCache Nat 1) "k" 7 0 5).isSome = true ∧
    (lfuSet (NewLFUCache Nat 1) "k" 7 0 5).bind (fun c => lfuGet c "k" 5) = none := by
  refine ⟨by decide, by decide, by decide, by decide, by decide⟩

/-! ## Claim C2, counterexample -/

/-- C2: counterexample — after `Set a; Set b; Get a` on an ARC cache of
capacity 1, the miss on `a` hits ghost list B1 and `request` installs a
placeholder into T2 without any capacity check, so `|T1| + |T2| = 2`
exceeds the capacity. -/
theorem c2_arc_capacity_exceeded :
    (arcRun (NewARCCache Nat 1) [.set "a" 1 0 0, .set "b" 2 0 0, .get "a" 0]).map
      (fun c => (c.t1.length + c.t2.length, c.capacity)) = some (2, 1) := by
  decide

/-! ## Claim C3, counterexample -/

/-- C3: counterexample — on an ARC cache of capacity 1, key `a` is evicted
by `Set b` and never set again; `Get a` then ghost-hits B1 and caches a
value-less placeholder, and a second `Get a` finds that placeholder and
returns `(nil, true)`, contradicting "a key that was evicted and never set
again is never returned with found = true". -/
theorem c3_arc_ghost_placeholder_returned :
    (arcRun (NewARCCache Nat 1) [.set "a" 1 0 0, .set "b" 2 0 0, .get "a" 0]).map
      (fun c => (arcGet c "a" 0).1) = some (none, true) := by
  decide

/-! ## Claim C4, counterexample -/

/-- C4: counterexample — on an ARC cache of capacity 1, `Set a; Set b;
Set a` leaves key `a` simultaneously in the resident list T1 and in the
ghost list B2: the final `Set` of the ghost-listed `a` lets `request` cache
a T2 placeholder, `replace` then evicts that placeholder into B2, and the
`Set` continues by pushing `a` onto T1. -/
theorem c4_arc_key_in_two_lists :
    (arcRun (NewARCCache Nat 1) [.set "a" 1 0 0, .set "b" 2 0 0, .set "a" 3 0 0]).map
      (fun c => ((c.t1.map (·.key)).contains "a" && c.b2.contains "a")) =
      some true := by
  decide

/-! ## Claim C5, counterexample -/

/-- C5: counterexample — the memory engine's `Get` observes an expired
entry (set at instant 0 with TTL 5, read at instant 10), reports a miss,
and leaves the expired entry resident in the `items` map instead of
removing it. -/
theorem c5_memory_keeps_expired_entry :
    (memGet (memSet (NewMemoryCache Nat) "a" 7 5 0) "a" 10).1 = (none, false) ∧
    lookupKey (memGet (memSet (NewMemoryCache Nat) "a" 7 5 0) "a" 10).2.items "a" =
      some ⟨7, 5⟩ := by
  refine ⟨by decide, by decide⟩

/-! ## Claim C6, counterexample -/

/-- C6: counterexample — after `Set a; Set b; Get a; Get a; Delete b` on an
LFU cache of capacity 2 (a trace that completes without panicking), the
cache still holds item `a` in the single non-empty bucket of frequency 3,
yet `minFreq` is 1: `Delete`/`remove` never restores `minFreq`, so it is
stale while items exist. -/
theorem c6_lfu_minfreq_stale :
    (lfuRun (NewLFUCache Nat 2) [.set "a" 1 0 0, .set "b" 2 0 0, .get "a" 0,
      .get "a" 0, .del "b"]).map (fun c => (c.items.length, c.minFreq, keysOf c.freqs)) =
      some (1, 1, [3]) := by
  decide

/-! ## Claim C7 -/

/-- C7: counterexample — `NewCache` performs no capacity validation: a
recognized type with capacity 0 (and even a negative capacity) yields a
cache and a nil error instead of the configuration error the claim
requires. -/
theorem c7_newcache_accepts_invalid_capacity :
    (NewCache Nat "lru" 0).isSome = true ∧
    (NewCache Nat "arc" (-5)).isSome = true := by
  refine ⟨by decide, by decide⟩

/-- C7 (amended): `NewCache` returns a cache and a nil error for each of
the four recognized type identifiers, with any capacity (capacity is never
validated), and a non-nil error for every unrecognized identifier. -/
theorem c7_newcache_dispatch (α : Type) (capacity : Int) :
    (NewCache α "memory" capacity).isSome = true ∧
    (NewCache α "lru" capacity).isSome = true ∧
    (NewCache α "lfu" capacity).isSome = true ∧
    (NewCache α "arc" capacity).isSome = true ∧
    ∀ t : String, t ≠ "memory" → t ≠ "lru" → t ≠ "lfu" → t ≠ "arc" →
      NewCache α t capacity = none := by
  refine ⟨rfl, rfl, rfl, rfl, fun t h1 h2 h3 h4 => ?_⟩
  simp [NewCache, h1, h2, h3, h4]

/-- Witness for `c7_newcache_dispatch` at capacity 0 and the unrecognized
identifier "redis". -/
theorem c7_newcache_dispatch_witness :
    (NewCache Nat "memory" 0).isSome = true ∧ NewCache Nat "redis" 0 = none :=
  ⟨(c7_newcache_dispatch Nat 0).1,
    (c7_newcache_dispatch Nat 0).2.2.2.2 "redis" (by decide) (by decide)
      (by decide) (by decide)⟩

/-! ## Claim C10 -/

/-- C10: a `Get` of a key that occurs in no internal structure of the
engine returns `(nil, false)` and leaves the state unchanged, for all four
engines (for ARC this includes absence from both ghost lists, so `request`
adapts nothing). -/
theorem c10_get_absent_key_frame {α : Type} [DecidableEq α] (k : String) (now : Int) :
    (∀ c : MemoryCache α, lookupKey c.items k = none →
      memGet c k now = ((none, false), c)) ∧
    (∀ c : LRUCache α, (∀ e ∈ c.entries, e.key ≠ k) →
      lruGet c k now = ((none, false), c)) ∧
    (∀ c : LFUCache α, lookupKey c.items k = none →
      (∀ p ∈ c.freqs, k ∉ p.2) →
      lfuGet c k now = some ((none, false), c)) ∧
    (∀ c : ARCCache α, lookupKey c.cache k = none →
      (∀ e ∈ c.t1 ++ c.t2, e.key ≠ k) → k ∉ c.b1 → k ∉ c.b2 →
      arcGet c k now = ((none, false), c)) := by
  refine ⟨fun c h => ?_, fun c h => ?_, fun c h _ => ?_, fun c h _ hb1 hb2 => ?_⟩
  · simp [memGet, h]
  · have hf : lruFind c k = none := by
      apply List.find?_eq_none.2
      intro e he
      simpa using h e he
    simp [lruGet, hf]
  · simp [lfuGet, h]
  · simp [arcGet, h, arcRequest, hb1, hb2]

/-- Witness for `c10_get_absent_key_frame`: a populated state of each
engine queried for the absent key "z". -/
theorem c10_get_absent_key_frame_witness :
    memGet (⟨[("x", ⟨5, 0⟩)]⟩ : MemoryCache Nat) "z" 3 =
      ((none, false), ⟨[("x", ⟨5, 0⟩)]⟩) ∧
    lruGet (⟨2, [⟨"x", 5, none⟩]⟩ : LRUCache Nat) "z" 3 =
      ((none, false), ⟨2, [⟨"x", 5, none⟩]⟩) ∧
    lfuGet (⟨2, [("x", ⟨5, 1, 0, some 1⟩)], [(1, ["x"])], 1⟩ : LFUCache Nat) "z" 3 =
      some ((none, false), ⟨2, [("x", ⟨5, 1, 0, some 1⟩)], [(1, ["x"])], 1⟩) ∧
    arcGet (⟨2, 0, [⟨0, "x", some 5, 0⟩], [], ["y"], [], [("x", ⟨0, "x", some 5, 0⟩)], 1⟩ :
      ARCCache Nat) "z" 3 =
      ((none, false), ⟨2, 0, [⟨0, "x", some 5, 0⟩], [], ["y"], [], [("x", ⟨0, "x", some 5, 0⟩)], 1⟩) := by
  refine ⟨(c10_get_absent_key_frame "z" 3).1 _ (by decide),
    (c10_get_absent_key_frame "z" 3).2.1 _ (by decide),
    (c10_get_absent_key_frame "z" 3).2.2.1 _ (by decide) (by decide),
    (c10_get_absent_key_frame "z" 3).2.2.2 _ (by decide) (by decide) (by decide) (by decide)⟩

/-! ## LRU lemmas: capacity bound and eviction order -/

theorem lruStep_capacity {α : Type} [DecidableEq α] (c : LRUCache α)
    (op : CacheOp α) : (lruStep c op).capacity = c.capacity := by
  cases op with
  | set k v ttl now =>
    simp only [lruStep, lruSet]
    cases lruFind c k <;> simp [lruRemoveOldest] <;> split <;> rfl
  | get k now =>
    simp only [lruStep, lruGet]
    cases lruFind c k with
    | none => rfl
    | some e => dsimp only; split <;> rfl
  | del k => rfl
  | flush => rfl

theorem lruStep_length {α : Type} [DecidableEq α] {c : LRUCache α}
    (hcap : 1 ≤ c.capacity) (h : (c.entries.length : Int) ≤ c.capacity)
    (op : CacheOp α) : ((lruStep c op).entries.length : Int) ≤ c.capacity := by
  cases op with
  | set k v ttl now =>
    cases hf : lruFind c k with
    | some e =>
      have hmem := List.mem_of_find?_eq_some hf
      have hp := List.find?_some hf
      have hlen := List.length_eraseP_of_mem (p := fun e' => e'.key == k) hmem hp
      have hpos : 1 ≤ c.entries.length := List.length_pos.2 (by
        intro hnil; rw [hnil] at hmem; simp at hmem)
      simp only [lruStep, lruSet, hf, List.length_cons, hlen]
      push_cast
      omega
    | none =>
      by_cases hge : (c.entries.length : Int) ≥ c.capacity
      · have hpos : 1 ≤ c.entries.length := by omega
        simp only [lruStep, lruSet, hf, hge, if_true, lruRemoveOldest,
          List.length_cons, List.length_dropLast]
        push_cast
        omega
      · simp only [lruStep, lruSet, hf, hge, if_false, List.length_cons]
        push_cast at hge ⊢
        omega
  | get k now =>
    cases hf : lruFind c k with
    | none => simpa [lruStep, lruGet, hf] using h
    | some e =>
      by_cases hex : lruExpired e.expiration now = true
      · simp only [lruStep, lruGet, hf, hex, if_true, lruRemoveKey]
        calc ((c.entries.eraseP (fun e' => e'.key == k)).length : Int)
            ≤ (c.entries.length : Int) := by exact_mod_cast List.length_eraseP_le _
          _ ≤ c.capacity := h
      · have hmem := List.mem_of_find?_eq_some hf
        have hp := List.find?_some hf
        have hlen := List.length_eraseP_of_mem (p := fun e' => e'.key == k) hmem hp
        have hpos : 1 ≤ c.entries.length := List.length_pos.2 (by
          intro hnil; rw [hnil] at hmem; simp at hmem)
        simp only [lruStep, lruGet, hf]
        rw [if_neg hex]
        simp only [List.length_cons, hlen]
        omega
  | del k =>
    simp only [lruStep, lruDelete, lruRemoveKey]
    calc ((c.entries.eraseP (fun e' => e'.key == k)).length : Int)
        ≤ (c.entries.length : Int) := by exact_mod_cast List.length_eraseP_le _
      _ ≤ c.capacity := h
  | flush =>
    simp only [lruStep, lruClear, List.length_nil]
    omega

theorem lruRun_length {α : Type} [DecidableEq α] (cap : Int) (hcap : 1 ≤ cap)
    (ops : List (CacheOp α)) :
    ((lruRun (NewLRUCache α cap) ops).entries.length : Int) ≤ cap := by
  suffices h : ∀ (c : LRUCache α), c.capacity = cap →
      (c.entries.length : Int) ≤ cap → ∀ ops : List (CacheOp α),
      ((lruRun c ops).entries.length : Int) ≤ cap by
    exact h (NewLRUCache α cap) rfl (by simp [NewLRUCache]; omega) ops
  intro c hc hlen ops
  induction ops generalizing c with
  | nil => exact hlen
  | cons op ops ih =>
    have hcap' : (lruStep c op).capacity = cap := by rw [lruStep_capacity, hc]
    have hlen' : ((lruStep c op).entries.length : Int) ≤ cap := by
      have := lruStep_length (c := c) (by omega) (by omega) op
      omega
    exact ih _ hcap' hlen'

/-- The entry built by a `Set` with TTL 0 from the key/value table `f`. -/
def lruEntryOf (f : String → α) (k : String) : LRUEntry α := ⟨k, f k, none⟩

theorem lruFind_map_none {α : Type} [DecidableEq α] (cap : Int) (f : String → α)
    {ks : List String} {k : String} (hk : k ∉ ks) :
    lruFind (⟨cap, ks.map (lruEntryOf f)⟩ : LRUCache α) k = none := by
  apply List.find?_eq_none.2
  intro e he
  simp only [List.mem_map] at he
  obtain ⟨k', hk', rfl⟩ := he
  simp only [lruEntryOf, beq_iff_eq]
  rintro rfl
  exact hk hk'

theorem lruFind_map_mem {α : Type} [DecidableEq α] (cap : Int) (f : String → α)
    {ks : List String} {k : String} (hk : k ∈ ks) :
    lruFind (⟨cap, ks.map (lruEntryOf f)⟩ : LRUCache α) k = some (lruEntryOf f k) := by
  induction ks with
  | nil => simp at hk
  | cons k' ks ih =>
    by_cases hkk : k' = k
    · subst hkk
      simp [lruFind, lruEntryOf]
    · have hk' : k ∈ ks := by
        rcases List.mem_cons.1 hk with h | h
        · exact absurd h.symm hkk
        · exact h
      have : lruFind (⟨cap, ks.map (lruEntryOf f)⟩ : LRUCache α) k =
          some (lruEntryOf f k) := ih hk'
      simpa [lruFind, lruEntryOf, hkk] using this

theorem lruGet_map_mem {α : Type} [DecidableEq α] (cap : Int) (f : String → α)
    {ks : List String} {k : String} (hk : k ∈ ks) (now : Int) :
    (lruGet (⟨cap, ks.map (lruEntryOf f)⟩ : LRUCache α) k now).1 =
      (some (f k), true) := by
  simp [lruGet, lruFind_map_mem cap f hk, lruEntryOf, lruExpired]

/-- Running `Set(k, f k, ttl 0)` for a list of `cap`-many-or-fewer distinct
fresh keys from an empty LRU cache stacks their entries most-recent-first. -/
theorem lruRun_fresh_sets {α : Type} [DecidableEq α] (cap : Int) (f : String → α)
    (t : Int) :
    ∀ ks : List String, ks.Nodup → (ks.length : Int) ≤ cap →
    lruRun (NewLRUCache α cap) (ks.map (fun k => CacheOp.set k (f k) 0 t)) =
      ⟨cap, (ks.map (lruEntryOf f)).reverse⟩ := by
  intro ks
  induction ks using List.reverseRecOn with
  | nil => intro _ _; rfl
  | append_singleton ks k ih =>
    intro hnd hlen
    rw [List.nodup_append] at hnd
    obtain ⟨hnd1, -, hdisj⟩ := hnd
    have hknotin : k ∉ ks := fun hmem => hdisj hmem (List.mem_singleton_self k)
    have hlen' : (ks.length : Int) ≤ cap := by
      rw [List.length_append] at hlen
      push_cast at hlen
      omega
    have := ih hnd1 hlen'
    rw [List.map_append, lruRun, List.foldl_append]
    rw [lruRun] at this
    rw [this]
    simp only [List.map_cons, List.map_nil, List.foldl_cons, List.foldl_nil]
    show lruSet _ k (f k) 0 t = _
    rw [lruSet]
    have hfind : lruFind (⟨cap, (ks.map (lruEntryOf f)).reverse⟩ : LRUCache α) k = none := by
      have : (ks.map (lruEntryOf f)).reverse = ks.reverse.map (lruEntryOf f) := by
        rw [List.map_reverse]
      rw [this]
      exact lruFind_map_none cap f (by simpa using hknotin)
    rw [hfind]
    have hltcap : ¬ (((ks.map (lruEntryOf f)).reverse.length : Int) ≥ cap) := by
      simp only [List.length_reverse, List.length_map]
      rw [List.length_append] at hlen
      push_cast at hlen
      simp only [List.length_cons, List.length_nil] at hlen
      omega
    simp only [hltcap, if_false]
    rw [List.map_append, List.reverse_append]
    rfl

/-! ## Claim C8 -/

/-- C8: for an LRU cache of capacity N ≥ 1, N+1 `Set` calls with distinct
keys (written `k0 :: rest` with `rest` of length N), TTL 0 and no
intervening `Get` evict exactly the first-inserted key `k0`: on the final
state, `Get k0` misses and `Get k` returns `(f k, true)` for every other
key `k`. -/
theorem c8_lru_eviction_order {α : Type} [DecidableEq α] (N : Nat) (hN : 1 ≤ N)
    (k0 : String) (rest : List String) (hnd : (k0 :: rest).Nodup)
    (hlen : rest.length = N) (f : String → α) (t now : Int) :
    (lruGet (lruRun (NewLRUCache α (N : Int))
      ((k0 :: rest).map (fun k => CacheOp.set k (f k) 0 t))) k0 now).1 =
      (none, false) ∧
    ∀ k ∈ rest, (lruGet (lruRun (NewLRUCache α (N : Int))
      ((k0 :: rest).map (fun k => CacheOp.set k (f k) 0 t))) k now).1 =
      (some (f k), true) := by
  rcases List.eq_nil_or_concat rest with rfl | ⟨rest', kl, rfl⟩
  · simp at hlen; omega
  rw [List.concat_eq_append] at *
  -- the first N sets fill the cache without eviction
  have hnd0 : (k0 :: rest').Nodup ∧ kl ∉ k0 :: rest' := by
    have : (k0 :: rest') ++ [kl] = k0 :: (rest' ++ [kl]) := by simp
    rw [← this] at hnd
    rw [List.nodup_append] at hnd
    refine ⟨hnd.1, fun hmem => hnd.2.2 hmem (List.mem_singleton_self kl)⟩
  have hlen0 : ((k0 :: rest').length : Int) ≤ (N : Int) := by
    simp only [List.length_append, List.length_cons, List.length_nil] at hlen ⊢
    omega
  have hfirst := lruRun_fresh_sets (α := α) (N : Int) f t (k0 :: rest') hnd0.1 hlen0
  have hsplit : (k0 :: (rest' ++ [kl])).map (fun k => CacheOp.set k (f k) 0 t) =
      ((k0 :: rest').map (fun k => CacheOp.set k (f k) 0 t)) ++
        [CacheOp.set kl (f kl) 0 t] := by
    simp
  rw [hsplit, lruRun, List.foldl_append]
  rw [lruRun] at hfirst
  rw [hfirst]
  simp only [List.foldl_cons, List.foldl_nil]
  -- the (N+1)-st set evicts the back of the list, which is k0's entry
  have hstep : lruStep (⟨(N : Int), ((k0 :: rest').map (lruEntryOf f)).reverse⟩ : LRUCache α)
      (CacheOp.set kl (f kl) 0 t) =
      ⟨(N : Int), lruEntryOf f kl :: (rest'.map (lruEntryOf f)).reverse⟩ := by
    show lruSet _ kl (f kl) 0 t = _
    rw [lruSet]
    have hfind : lruFind (⟨(N : Int), ((k0 :: rest').map (lruEntryOf f)).reverse⟩ :
        LRUCache α) kl = none := by
      have heq : ((k0 :: rest').map (lruEntryOf f)).reverse =
          (k0 :: rest').reverse.map (lruEntryOf f) := by rw [List.map_reverse]
      rw [heq]
      exact lruFind_map_none _ f (fun hmem => hnd0.2 (List.mem_reverse.1 hmem))
    rw [hfind]
    have hcond : (((((k0 :: rest').map (lruEntryOf f)).reverse.length) : Int) ≥ (N : Int)) := by
      simp only [List.length_reverse, List.length_map, List.length_cons]
      simp only [List.length_append, List.length_cons, List.length_nil] at hlen
      omega
    rw [if_pos hcond]
    simp only [lruRemoveOldest]
    rw [List.map_cons, List.reverse_cons, List.dropLast_concat]
    rfl
  rw [hstep]
  constructor
  · have : lruFind (⟨(N : Int), lruEntryOf f kl :: (rest'.map (lruEntryOf f)).reverse⟩ :
        LRUCache α) k0 = none := by
      have heq : lruEntryOf f kl :: (rest'.map (lruEntryOf f)).reverse =
          (kl :: rest'.reverse).map (lruEntryOf f) := by
        simp [List.map_reverse]
      rw [heq]
      apply lruFind_map_none
      intro hmem
      rcases List.mem_cons.1 hmem with h | h
      · subst h
        exact hnd0.2 (List.mem_cons_self _ _)
      · rw [List.mem_reverse] at h
        have : k0 ∈ k0 :: (rest' ++ [kl]) → (k0 :: (rest' ++ [kl])).Nodup → False := by
          intro _ hn
          rw [List.nodup_cons] at hn
          exact hn.1 (List.mem_append_left _ h)
        exact this (List.mem_cons_self _ _) hnd
    simp [lruGet, this]
  · intro k hk
    have heq : lruEntryOf f kl :: (rest'.map (lruEntryOf f)).reverse =
        (kl :: rest'.reverse).map (lruEntryOf f) := by
      simp [List.map_reverse]
    rw [heq]
    apply lruGet_map_mem
    rcases List.mem_append.1 hk with h | h
    · exact List.mem_cons_of_mem _ (List.mem_reverse.2 h)
    · simp only [List.mem_singleton] at h
      subst h
      exact List.mem_cons_self _ _

/-- Witness for `c8_lru_eviction_order`: capacity 2, keys a, b, c. -/
theorem c8_lru_eviction_order_witness :
    (lruGet (lruRun (NewLRUCache Nat (2 : Nat))
      (["a", "b", "c"].map (fun k => CacheOp.set k (k.length) 0 0))) "a" 0).1 =
      (none, false) ∧
    ∀ k ∈ ["b", "c"], (lruGet (lruRun (NewLRUCache Nat (2 : Nat))
      (["a", "b", "c"].map (fun k => CacheOp.set k (k.length) 0 0))) k 0).1 =
      (some k.length, true) :=
  c8_lru_eviction_order 2 (by decide) "a" ["b", "c"] (by decide) (by decide)
    (fun k => k.length) 0 0

/-! ## LFU lemmas: well-formedness preservation -/

section LFU

variable {α : Type} [DecidableEq α]

theorem lfuDetach_items (c : LFUCache α) (f : Nat) (k : String) :
    (lfuDetach c f k).items = c.items := by
  unfold lfuDetach
  cases lookupKey c.freqs f with
  | none => rfl
  | some ms => dsimp only; split <;> rfl

theorem lfuDetach_capacity (c : LFUCache α) (f : Nat) (k : String) :
    (lfuDetach c f k).capacity = c.capacity := by
  unfold lfuDetach
  cases lookupKey c.freqs f with
  | none => rfl
  | some ms => dsimp only; split <;> rfl

theorem lfuDetach_minFreq (c : LFUCache α) (f : Nat) (k : String) :
    (lfuDetach c f k).minFreq = c.minFreq := by
  unfold lfuDetach
  cases lookupKey c.freqs f with
  | none => rfl
  | some ms => dsimp only; split <;> rfl

theorem lfuDetach_freqs_nodup {c : LFUCache α} (f : Nat) (k : String)
    (h : (keysOf c.freqs).Nodup) : (keysOf (lfuDetach c f k).freqs).Nodup := by
  unfold lfuDetach
  cases lookupKey c.freqs f with
  | none => exact h
  | some ms =>
    dsimp only
    split
    · exact nodup_keys_eraseKey h
    · exact nodup_keys_insertKey h

theorem lookup_lfuDetach_self (c : LFUCache α) (f : Nat) (k : String) :
    lookupKey (lfuDetach c f k).freqs f =
      match lookupKey c.freqs f with
      | none => none
      | some ms => if (ms.erase k).isEmpty then none else some (ms.erase k) := by
  unfold lfuDetach
  cases h : lookupKey c.freqs f with
  | none => exact h
  | some ms =>
    dsimp only
    split
    · exact lookupKey_eraseKey_self
    · exact lookupKey_insertKey_self

theorem lookup_lfuDetach_ne (c : LFUCache α) {f f' : Nat} (k : String)
    (hne : f ≠ f') :
    lookupKey (lfuDetach c f k).freqs f' = lookupKey c.freqs f' := by
  unfold lfuDetach
  cases lookupKey c.freqs f with
  | none => rfl
  | some ms =>
    dsimp only
    split
    · exact lookupKey_eraseKey_ne hne
    · exact lookupKey_insertKey_ne hne

theorem lfuAttach_items (c : LFUCache α) (f : Nat) (k : String) :
    (lfuAttach c f k).items = c.items := by
  unfold lfuAttach
  cases lookupKey c.freqs f with
  | none => rfl
  | some ms => dsimp only; split <;> rfl

theorem lfuAttach_capacity (c : LFUCache α) (f : Nat) (k : String) :
    (lfuAttach c f k).capacity = c.capacity := by
  unfold lfuAttach
  cases lookupKey c.freqs f with
  | none => rfl
  | some ms => dsimp only; split <;> rfl

theorem lfuAttach_minFreq (c : LFUCache α) (f : Nat) (k : String) :
    (lfuAttach c f k).minFreq = c.minFreq := by
  unfold lfuAttach
  cases lookupKey c.freqs f with
  | none => rfl
  | some ms => dsimp only; split <;> rfl

theorem lfuAttach_freqs_nodup {c : LFUCache α} (f : Nat) (k : String)
    (h : (keysOf c.freqs).Nodup) : (keysOf (lfuAttach c f k).freqs).Nodup := by
  unfold lfuAttach
  cases lookupKey c.freqs f with
  | none => exact nodup_keys_insertKey h
  | some ms =>
    dsimp only
    split
    · exact h
    · exact nodup_keys_insertKey h

theorem lookup_lfuAttach_self (c : LFUCache α) (f : Nat) (k : String) :
    lookupKey (lfuAttach c f k).freqs f =
      some (match lookupKey c.freqs f with
        | none => [k]
        | some ms => if k ∈ ms then ms else k :: ms) := by
  unfold lfuAttach
  cases h : lookupKey c.freqs f with
  | none => simp
  | some ms =>
    dsimp only
    split
    · next hmem => simp [h, hmem]
    · next hmem => simp [hmem]

theorem lookup_lfuAttach_ne (c : LFUCache α) {f f' : Nat} (k : String)
    (hne : f ≠ f') :
    lookupKey (lfuAttach c f k).freqs f' = lookupKey c.freqs f' := by
  unfold lfuAttach
  cases lookupKey c.freqs f with
  | none => exact lookupKey_insertKey_ne hne
  | some ms =>
    dsimp only
    split
    · rfl
    · exact lookupKey_insertKey_ne hne

/-- Bucket membership forces the member's frequency: a key can only sit in
the bucket matching its item's frequency. -/
theorem lfu_bucket_unique {c : LFUCache α} {k : String} {it : LFUItem α}
    (hWF : LFUWF c) (hit : lookupKey c.items k = some it) :
    ∀ f ms, lookupKey c.freqs f = some ms → k ∈ ms → f = it.frequency := by
  intro f ms hms hk
  obtain ⟨it2, hit2, hfreq⟩ := hWF.bucketValid f ms hms k hk
  rw [hit] at hit2
  cases hit2
  exact hfreq.symm

/-- Every non-empty bucket of a well-formed LFU cache has frequency ≥ 1. -/
theorem lfu_bucket_freq_pos {c : LFUCache α} (hWF : LFUWF c) :
    ∀ f ms, lookupKey c.freqs f = some ms → 1 ≤ f := by
  intro f ms hms
  rcases hms' : ms with _ | ⟨m, ms'⟩
  · exact absurd rfl (hms' ▸ hWF.bucketNonempty f ms hms)
  · obtain ⟨it2, _, hfreq⟩ := hWF.bucketValid f ms hms m (by rw [hms']; exact List.mem_cons_self _ _)
    have := hWF.itemPos _ _ (by assumption)
    omega

/-- `incrementFreq` on a resident item of a well-formed cache: when it does
not panic, the item moves from its bucket to the next-frequency bucket and
all invariants are preserved. -/
theorem lfuIncrementFreq_existing_wf {c : LFUCache α} {k : String} {it : LFUItem α}
    (hWF : LFUWF c) (hit : lookupKey c.items k = some it) :
    ∀ c', lfuIncrementFreq c k = some c' →
      LFUWF c' ∧
      c'.capacity = c.capacity ∧
      c'.minFreq = c.minFreq ∧
      c'.items.length = c.items.length ∧
      lookupKey c'.items k =
        some { it with frequency := it.frequency + 1, freqNode := some (it.frequency + 1) } ∧
      (∀ k', k' ≠ k → lookupKey c'.items k' = lookupKey c.items k') ∧
      ((lookupKey c.freqs c.minFreq).isSome →
        (lookupKey c'.freqs c'.minFreq).isSome) := by
  intro c' hc'
  have hpos := hWF.itemPos _ _ hit
  have hnode := hWF.itemNode _ _ hit
  obtain ⟨ms₀, hms₀, hkms₀⟩ := hWF.itemMem _ _ hit
  have huniq := lfu_bucket_unique hWF hit
  set f₀ := it.frequency with hf₀
  set it' : LFUItem α :=
    { it with frequency := f₀ + 1, freqNode := some (f₀ + 1) } with hit'
  set c3 : LFUCache α := lfuAttach
    { lfuDetach c f₀ k with items := insertKey c.items k it' } (f₀ + 1) k with hc3
  have hmin3 : c3.minFreq = c.minFreq := by
    rw [hc3, lfuAttach_minFreq]
    exact lfuDetach_minFreq c f₀ k
  -- bucket lookups of c3
  have hlookup_nf : lookupKey c3.freqs (f₀ + 1) =
      some (match lookupKey c.freqs (f₀ + 1) with
        | none => [k]
        | some ms => if k ∈ ms then ms else k :: ms) := by
    rw [hc3, lookup_lfuAttach_self]
    have heq : lookupKey { lfuDetach c f₀ k with items := insertKey c.items k it' }.freqs
        (f₀ + 1) = lookupKey c.freqs (f₀ + 1) := by
      show lookupKey (lfuDetach c f₀ k).freqs (f₀ + 1) = _
      exact lookup_lfuDetach_ne c k (by omega)
    rw [heq]
  have hlookup_f0 : lookupKey c3.freqs f₀ =
      if (ms₀.erase k).isEmpty then none else some (ms₀.erase k) := by
    rw [hc3]
    have h1 : lookupKey (lfuAttach
        { lfuDetach c f₀ k with items := insertKey c.items k it' } (f₀ + 1) k).freqs f₀ =
        lookupKey { lfuDetach c f₀ k with items := insertKey c.items k it' }.freqs f₀ :=
      lookup_lfuAttach_ne _ k (by omega)
    rw [h1]
    show lookupKey (lfuDetach c f₀ k).freqs f₀ = _
    rw [lookup_lfuDetach_self, hms₀]
  have hlookup_other : ∀ f, f ≠ f₀ + 1 → f ≠ f₀ →
      lookupKey c3.freqs f = lookupKey c.freqs f := by
    intro f hne1 hne0
    rw [hc3]
    have h1 : lookupKey (lfuAttach
        { lfuDetach c f₀ k with items := insertKey c.items k it' } (f₀ + 1) k).freqs f =
        lookupKey { lfuDetach c f₀ k with items := insertKey c.items k it' }.freqs f :=
      lookup_lfuAttach_ne _ k (Ne.symm hne1)
    rw [h1]
    show lookupKey (lfuDetach c f₀ k).freqs f = _
    exact lookup_lfuDetach_ne c k (Ne.symm hne0)
  -- reduce the call to a case split, learning c' = c3 plus the non-panic fact
  have hshape : lfuIncrementFreq c k =
      (if f₀ + 1 - 1 = c3.minFreq then
        match lookupKey c3.freqs c3.minFreq with
        | none => none
        | some ms =>
          if ms.isEmpty then some { c3 with minFreq := c3.minFreq + 1 } else some c3
      else some c3) := by
    simp only [lfuIncrementFreq, hit, hnode]
    rw [lfuDetach_items]
    rw [if_neg (show ¬ (f₀ + 1 = 1) by omega)]
  have hmain : c' = c3 ∧ (f₀ = c.minFreq → (ms₀.erase k).isEmpty = false) := by
    rw [hshape] at hc'
    have hsub : f₀ + 1 - 1 = f₀ := by omega
    rw [hsub, hmin3] at hc'
    by_cases hfmin : f₀ = c.minFreq
    · rw [if_pos hfmin] at hc'
      rw [← hfmin, hlookup_f0] at hc'
      by_cases hemp : (ms₀.erase k).isEmpty
      · rw [if_pos hemp] at hc'
        exact absurd hc' (by simp)
      · rw [if_neg hemp] at hc'
        have hempf : (ms₀.erase k).isEmpty = false := by
          exact Bool.eq_false_iff.2 hemp
        dsimp only at hc'
        rw [hempf] at hc'
        simp only [Bool.false_eq_true, if_false] at hc'
        exact ⟨(Option.some_inj.1 hc').symm, fun _ => hempf⟩
    · rw [if_neg hfmin] at hc'
      exact ⟨(Option.some_inj.1 hc').symm, fun h => absurd h hfmin⟩
  obtain ⟨rfl, hsurv⟩ := hmain
  -- basic projections
  have hitems3 : c3.items = insertKey c.items k it' := by
    rw [hc3, lfuAttach_items]
  have hcap3 : c3.capacity = c.capacity := by
    rw [hc3, lfuAttach_capacity]
    exact lfuDetach_capacity c f₀ k
  have hknotin_nf : ∀ ms, lookupKey c.freqs (f₀ + 1) = some ms → k ∉ ms := by
    intro ms hms hkms
    have := huniq _ _ hms hkms
    omega
  have hms₀_nodup := hWF.bucketNodup _ _ hms₀
  have hlen3 : c3.items.length = c.items.length := by
    rw [hitems3]
    exact length_insertKey_of_lookup_some hit
  have hlk3 : lookupKey c3.items k = some it' := by
    rw [hitems3]
    exact lookupKey_insertKey_self
  have hlother : ∀ k', k' ≠ k → lookupKey c3.items k' = lookupKey c.items k' := by
    intro k' hne
    rw [hitems3]
    exact lookupKey_insertKey_ne (Ne.symm hne)
  -- the surviving minFreq bucket
  have hminkeep : (lookupKey c.freqs c.minFreq).isSome →
      (lookupKey c3.freqs c3.minFreq).isSome := by
    intro hbefore
    rw [hmin3]
    by_cases hfmin : f₀ = c.minFreq
    · rw [← hfmin, hlookup_f0, hsurv hfmin]
      simp
    · have hne1 : c.minFreq ≠ f₀ + 1 := by
        have : c.minFreq ≤ f₀ := hWF.minLe f₀ (by rw [hms₀]; rfl)
        omega
      rw [hlookup_other _ hne1 (Ne.symm hfmin)]
      exact hbefore
  refine ⟨?_, hcap3, hmin3, hlen3, hlk3, hlother, hminkeep⟩
  -- the well-formedness of c3
  refine ⟨?_, ?_, ?_, ?_, ?_, ?_, ?_, ?_, ?_, ?_, ?_⟩
  · rw [hitems3]; exact nodup_keys_insertKey hWF.itemsNodup
  · rw [hc3]
    apply lfuAttach_freqs_nodup
    show (keysOf (lfuDetach c f₀ k).freqs).Nodup
    exact lfuDetach_freqs_nodup _ _ hWF.freqsNodup
  · -- itemPos
    intro k2 it2 hit2
    by_cases hk2 : k2 = k
    · subst hk2; rw [hlk3] at hit2; cases hit2; simp [hit']
    · rw [hlother k2 hk2] at hit2; exact hWF.itemPos _ _ hit2
  · -- itemNode
    intro k2 it2 hit2
    by_cases hk2 : k2 = k
    · subst hk2; rw [hlk3] at hit2; cases hit2; simp [hit']
    · rw [hlother k2 hk2] at hit2; exact hWF.itemNode _ _ hit2
  · -- itemMem
    intro k2 it2 hit2
    by_cases hk2 : k2 = k
    · subst hk2
      rw [hlk3] at hit2
      cases hit2
      refine ⟨_, by rw [hit']; exact hlookup_nf, ?_⟩
      cases hms : lookupKey c.freqs (f₀ + 1) with
      | none => simp
      | some ms =>
        have := hknotin_nf ms hms
        simp [this]
    · rw [hlother k2 hk2] at hit2
      obtain ⟨ms2, hms2, hk2ms2⟩ := hWF.itemMem _ _ hit2
      by_cases hf2 : it2.frequency = f₀ + 1
      · rw [hf2] at hms2 ⊢
        refine ⟨_, hlookup_nf, ?_⟩
        rw [hms2]
        dsimp only
        split
        · exact hk2ms2
        · exact List.mem_cons_of_mem _ hk2ms2
      · by_cases hf0 : it2.frequency = f₀
        · rw [hf0] at hms2 ⊢
          rw [hms₀] at hms2
          cases hms2
          have hk2mem : k2 ∈ ms₀.erase k :=
            (hms₀_nodup.mem_erase_iff).2 ⟨hk2, hk2ms2⟩
          have hne : ¬ (ms₀.erase k).isEmpty = true := by
            intro hemp
            rw [List.isEmpty_iff] at hemp
            rw [hemp] at hk2mem
            simp at hk2mem
          refine ⟨_, ?_, hk2mem⟩
          rw [hlookup_f0, if_neg hne]
        · refine ⟨ms2, ?_, hk2ms2⟩
          rw [hlookup_other _ hf2 hf0]
          exact hms2
  · -- bucketNodup
    intro f ms hms
    by_cases hf1 : f = f₀ + 1
    · subst hf1
      rw [hlookup_nf] at hms
      cases hms
      cases hms' : lookupKey c.freqs (f₀ + 1) with
      | none => simp
      | some ms2 =>
        have hnd := hWF.bucketNodup _ _ hms'
        have hkn := hknotin_nf ms2 hms'
        simp only [hms']
        split
        · exact hnd
        · exact List.nodup_cons.2 ⟨hkn, hnd⟩
    · by_cases hf0 : f = f₀
      · subst hf0
        rw [hlookup_f0] at hms
        split at hms
        · exact absurd hms (by simp)
        · cases hms
          exact hms₀_nodup.erase k
      · rw [hlookup_other _ hf1 hf0] at hms
        exact hWF.bucketNodup _ _ hms
  · -- bucketNonempty
    intro f ms hms
    by_cases hf1 : f = f₀ + 1
    · subst hf1
      rw [hlookup_nf] at hms
      cases hms
      cases hms' : lookupKey c.freqs (f₀ + 1) with
      | none => simp
      | some ms2 =>
        have hne := hWF.bucketNonempty _ _ hms'
        simp only [hms']
        split
        · exact hne
        · simp
    · by_cases hf0 : f = f₀
      · subst hf0
        rw [hlookup_f0] at hms
        split at hms
        · exact absurd hms (by simp)
        · next hemp =>
          cases hms
          intro hnil
          exact hemp (by rw [hnil]; rfl)
      · rw [hlookup_other _ hf1 hf0] at hms
        exact hWF.bucketNonempty _ _ hms
  · -- bucketValid
    intro f ms hms k2 hk2
    by_cases hf1 : f = f₀ + 1
    · subst hf1
      rw [hlookup_nf] at hms
      cases hms
      by_cases hk2k : k2 = k
      · subst hk2k
        exact ⟨it', hlk3, by simp [hit']⟩
      · cases hms' : lookupKey c.freqs (f₀ + 1) with
        | none =>
          rw [hms'] at hk2
          simp at hk2
          exact absurd hk2 hk2k
        | some ms2 =>
          rw [hms'] at hk2
          dsimp only at hk2
          have hk2ms2 : k2 ∈ ms2 := by
            revert hk2
            split
            · exact id
            · intro hk2
              rcases List.mem_cons.1 hk2 with h | h
              · exact absurd h hk2k
              · exact h
          obtain ⟨it2, hit2, hfr⟩ := hWF.bucketValid _ _ hms' k2 hk2ms2
          exact ⟨it2, by rw [hlother k2 hk2k]; exact hit2, hfr⟩
    · by_cases hf0 : f = f₀
      · subst hf0
        rw [hlookup_f0] at hms
        split at hms
        · exact absurd hms (by simp)
        · cases hms
          have hmem := (hms₀_nodup.mem_erase_iff).1 hk2
          obtain ⟨it2, hit2, hfr⟩ := hWF.bucketValid _ _ hms₀ k2 hmem.2
          exact ⟨it2, by rw [hlother k2 hmem.1]; exact hit2, hfr⟩
      · rw [hlookup_other _ hf1 hf0] at hms
        obtain ⟨it2, hit2, hfr⟩ := hWF.bucketValid _ _ hms k2 hk2
        have hk2k : k2 ≠ k := by
          intro h
          subst h
          rw [hit] at hit2
          cases hit2
          exact hf0 hfr.symm
        exact ⟨it2, by rw [hlother k2 hk2k]; exact hit2, hfr⟩
  · -- minLe
    intro f hf
    rw [hmin3]
    by_cases hf1 : f = f₀ + 1
    · have : c.minFreq ≤ f₀ := hWF.minLe f₀ (by rw [hms₀]; rfl)
      omega
    · by_cases hf0 : f = f₀
      · subst hf0
        exact hWF.minLe f₀ (by rw [hms₀]; rfl)
      · rw [hlookup_other _ hf1 hf0] at hf
        exact hWF.minLe f hf
  · -- capLe
    rw [hlen3, hcap3]
    exact hWF.capLe
  · -- atCapMin
    intro hcap
    rw [hlen3, hcap3] at hcap
    exact hminkeep (hWF.atCapMin hcap)

/-- In a well-formed cache, a key absent from `items` sits in no bucket. -/
theorem lfu_absent_not_member {c : LFUCache α} {k : String} (hWF : LFUWF c)
    (habs : lookupKey c.items k = none) :
    ∀ f ms, lookupKey c.freqs f = some ms → k ∉ ms := by
  intro f ms hms hk
  obtain ⟨it2, hit2, _⟩ := hWF.bucketValid f ms hms k hk
  rw [habs] at hit2
  exact absurd hit2 (by simp)

/-- `incrementFreq` on a freshly inserted item (frequency 0, nil bucket
pointer): it always succeeds, lands the item in bucket 1 and sets `minFreq`
to 1. -/
theorem lfuIncrementFreq_fresh_wf {c0 : LFUCache α} {k : String}
    (hWF : LFUWF c0) (habs : lookupKey c0.items k = none) (v : α) (exp : Int)
    (hlt : (c0.items.length : Int) < c0.capacity) :
    ∀ c', lfuIncrementFreq
        { c0 with items := insertKey c0.items k ⟨v, 0, exp, none⟩ } k = some c' →
      LFUWF c' ∧
      c'.capacity = c0.capacity ∧
      c'.minFreq = 1 ∧
      c'.items.length = c0.items.length + 1 ∧
      lookupKey c'.items k = some ⟨v, 1, exp, some 1⟩ ∧
      (∀ k', k' ≠ k → lookupKey c'.items k' = lookupKey c0.items k') ∧
      (lookupKey c'.freqs c'.minFreq).isSome := by
  intro c' hc'
  have hknot := lfu_absent_not_member hWF habs
  set c : LFUCache α := { c0 with items := insertKey c0.items k ⟨v, 0, exp, none⟩ }
    with hc
  set it' : LFUItem α := ⟨v, 1, exp, some 1⟩ with hit'
  set c3 : LFUCache α :=
    lfuAttach { c with items := insertKey c.items k it' } 1 k with hc3
  have hshape : lfuIncrementFreq c k = some { c3 with minFreq := 1 } := by
    have hlk : lookupKey c.items k = some ⟨v, 0, exp, none⟩ := by
      rw [hc]
      exact lookupKey_insertKey_self
    simp only [lfuIncrementFreq, hlk, Nat.zero_add, if_true]
  rw [hshape] at hc'
  have hcc : c' = { c3 with minFreq := 1 } := (Option.some_inj.1 hc').symm
  subst hcc
  -- projections
  have hitems' : ({ c3 with minFreq := 1 } : LFUCache α).items =
      insertKey c.items k it' := by
    show c3.items = _
    rw [hc3, lfuAttach_items]
  have hitems2 : ∀ k', lookupKey (insertKey c.items k it') k' =
      lookupKey (insertKey c0.items k it') k' := by
    intro k'
    by_cases hk' : k' = k
    · subst hk'
      rw [lookupKey_insertKey_self, lookupKey_insertKey_self]
    · simp only [lookupKey_insertKey_ne (Ne.symm hk')]
  have hcap' : ({ c3 with minFreq := 1 } : LFUCache α).capacity = c0.capacity := by
    show c3.capacity = _
    rw [hc3, lfuAttach_capacity]
  have hlen' : ({ c3 with minFreq := 1 } : LFUCache α).items.length =
      c0.items.length + 1 := by
    rw [hitems']
    have h1 : (insertKey c.items k it').length = c.items.length := by
      apply length_insertKey_of_lookup_some (v := it')
      rw [hc]
      exact lookupKey_insertKey_self
    rw [h1]
    show (insertKey c0.items k ⟨v, 0, exp, none⟩).length = _
    exact length_insertKey_of_lookup_none habs
  have hlk' : lookupKey ({ c3 with minFreq := 1 } : LFUCache α).items k = some it' := by
    rw [hitems']
    exact lookupKey_insertKey_self
  have hlother : ∀ k', k' ≠ k →
      lookupKey ({ c3 with minFreq := 1 } : LFUCache α).items k' =
        lookupKey c0.items k' := by
    intro k' hne
    rw [hitems', hitems2 k']
    exact lookupKey_insertKey_ne (Ne.symm hne)
  -- bucket lookups
  have hfreqsc : c.freqs = c0.freqs := rfl
  have hlookup_one : lookupKey ({ c3 with minFreq := 1 } : LFUCache α).freqs 1 =
      some (match lookupKey c0.freqs 1 with
        | none => [k]
        | some ms => if k ∈ ms then ms else k :: ms) := by
    show lookupKey c3.freqs 1 = _
    rw [hc3, lookup_lfuAttach_self]
  have hlookup_other : ∀ f, f ≠ 1 →
      lookupKey ({ c3 with minFreq := 1 } : LFUCache α).freqs f =
        lookupKey c0.freqs f := by
    intro f hne
    show lookupKey c3.freqs f = _
    rw [hc3]
    exact lookup_lfuAttach_ne _ k (Ne.symm hne)
  have hbucket1 : (lookupKey ({ c3 with minFreq := 1 } : LFUCache α).freqs 1).isSome := by
    rw [hlookup_one]; rfl
  refine ⟨?_, hcap', rfl, hlen', hlk', hlother, by exact hbucket1⟩
  refine ⟨?_, ?_, ?_, ?_, ?_, ?_, ?_, ?_, ?_, ?_, ?_⟩
  · rw [hitems']
    rw [hc]
    show (keysOf (insertKey (insertKey c0.items k ⟨v, 0, exp, none⟩) k it')).Nodup
    exact nodup_keys_insertKey (nodup_keys_insertKey hWF.itemsNodup)
  · show (keysOf c3.freqs).Nodup
    rw [hc3]
    exact lfuAttach_freqs_nodup _ _ hWF.freqsNodup
  · -- itemPos
    intro k2 it2 hit2
    by_cases hk2 : k2 = k
    · subst hk2; rw [hlk'] at hit2; cases hit2; simp [hit']
    · rw [hlother k2 hk2] at hit2; exact hWF.itemPos _ _ hit2
  · -- itemNode
    intro k2 it2 hit2
    by_cases hk2 : k2 = k
    · subst hk2; rw [hlk'] at hit2; cases hit2; simp [hit']
    · rw [hlother k2 hk2] at hit2; exact hWF.itemNode _ _ hit2
  · -- itemMem
    intro k2 it2 hit2
    by_cases hk2 : k2 = k
    · subst hk2
      rw [hlk'] at hit2
      cases hit2
      refine ⟨_, by rw [hit']; exact hlookup_one, ?_⟩
      cases hms : lookupKey c0.freqs 1 with
      | none => simp
      | some ms =>
        have := hknot 1 ms hms
        simp [this]
    · rw [hlother k2 hk2] at hit2
      obtain ⟨ms2, hms2, hk2ms2⟩ := hWF.itemMem _ _ hit2
      by_cases hf2 : it2.frequency = 1
      · rw [hf2] at hms2 ⊢
        refine ⟨_, hlookup_one, ?_⟩
        rw [hms2]
        dsimp only
        split
        · exact hk2ms2
        · exact List.mem_cons_of_mem _ hk2ms2
      · refine ⟨ms2, ?_, hk2ms2⟩
        rw [hlookup_other _ hf2]
        exact hms2
  · -- bucketNodup
    intro f ms hms
    by_cases hf1 : f = 1
    · subst hf1
      rw [hlookup_one] at hms
      cases hms
      cases hms' : lookupKey c0.freqs 1 with
      | none => simp
      | some ms2 =>
        have hnd := hWF.bucketNodup _ _ hms'
        have hkn := hknot 1 ms2 hms'
        simp only [hms']
        split
        · exact hnd
        · exact List.nodup_cons.2 ⟨hkn, hnd⟩
    · rw [hlookup_other _ hf1] at hms
      exact hWF.bucketNodup _ _ hms
  · -- bucketNonempty
    intro f ms hms
    by_cases hf1 : f = 1
    · subst hf1
      rw [hlookup_one] at hms
      cases hms
      cases hms' : lookupKey c0.freqs 1 with
      | none => simp
      | some ms2 =>
        have hne := hWF.bucketNonempty _ _ hms'
        simp only [hms']
        split
        · exact hne
        · simp
    · rw [hlookup_other _ hf1] at hms
      exact hWF.bucketNonempty _ _ hms
  · -- bucketValid
    intro f ms hms k2 hk2
    by_cases hf1 : f = 1
    · subst hf1
      rw [hlookup_one] at hms
      cases hms
      by_cases hk2k : k2 = k
      · subst hk2k
        exact ⟨it', hlk', by simp [hit']⟩
      · cases hms' : lookupKey c0.freqs 1 with
        | none =>
          rw [hms'] at hk2
          simp at hk2
          exact absurd hk2 hk2k
        | some ms2 =>
          rw [hms'] at hk2
          dsimp only at hk2
          have hk2ms2 : k2 ∈ ms2 := by
            revert hk2
            split
            · exact id
            · intro hk2
              rcases List.mem_cons.1 hk2 with h | h
              · exact absurd h hk2k
              · exact h
          obtain ⟨it2, hit2, hfr⟩ := hWF.bucketValid _ _ hms' k2 hk2ms2
          exact ⟨it2, by rw [hlother k2 hk2k]; exact hit2, hfr⟩
    · rw [hlookup_other _ hf1] at hms
      obtain ⟨it2, hit2, hfr⟩ := hWF.bucketValid _ _ hms k2 hk2
      have hk2k : k2 ≠ k := by
        intro h
        subst h
        rw [habs] at hit2
        exact absurd hit2 (by simp)
      exact ⟨it2, by rw [hlother k2 hk2k]; exact hit2, hfr⟩
  · -- minLe
    intro f hf
    show 1 ≤ f
    by_cases hf1 : f = 1
    · omega
    · rw [hlookup_other _ hf1] at hf
      obtain ⟨ms, hms⟩ := Option.isSome_iff_exists.1 hf
      have := lfu_bucket_freq_pos hWF f ms hms
      omega
  · -- capLe
    rw [hlen', hcap']
    push_cast
    omega
  · -- atCapMin
    intro _
    exact hbucket1

/-- `remove` on a resident item of a well-formed cache: always succeeds and
erases the item from the map and its bucket. -/
theorem lfuRemove_wf {c : LFUCache α} {k : String} {it : LFUItem α}
    (hWF : LFUWF c) (hit : lookupKey c.items k = some it) :
    ∃ c', lfuRemove c k it = some c' ∧
      LFUWF c' ∧
      c'.capacity = c.capacity ∧
      c'.minFreq = c.minFreq ∧
      c'.items.length + 1 = c.items.length ∧
      lookupKey c'.items k = none ∧
      (∀ k', k' ≠ k → lookupKey c'.items k' = lookupKey c.items k') := by
  have hnode := hWF.itemNode _ _ hit
  obtain ⟨ms₀, hms₀, hkms₀⟩ := hWF.itemMem _ _ hit
  have hms₀_nodup := hWF.bucketNodup _ _ hms₀
  set f₀ := it.frequency with hf₀
  set c1 : LFUCache α := { c with items := eraseKey c.items k } with hc1
  set c' : LFUCache α := lfuDetach c1 f₀ k with hc'
  refine ⟨c', ?_, ?_⟩
  · unfold lfuRemove
    rw [hnode]
  -- lookups on c'
  have hitems' : c'.items = eraseKey c.items k := by
    rw [hc', lfuDetach_items]
  have hcap' : c'.capacity = c.capacity := by
    rw [hc', lfuDetach_capacity]
  have hmin' : c'.minFreq = c.minFreq := by
    rw [hc', lfuDetach_minFreq]
  have hlkk : lookupKey c'.items k = none := by
    rw [hitems']
    exact lookupKey_eraseKey_self
  have hlother : ∀ k', k' ≠ k → lookupKey c'.items k' = lookupKey c.items k' := by
    intro k' hne
    rw [hitems']
    exact lookupKey_eraseKey_ne (Ne.symm hne)
  have hlen' : c'.items.length + 1 = c.items.length := by
    rw [hitems']
    apply length_eraseKey_of_nodup_mem hWF.itemsNodup
    rw [← lookupKey_isSome_iff_mem_keys, hit]
    rfl
  have hc1freqs : c1.freqs = c.freqs := rfl
  have hlookup_f0 : lookupKey c'.freqs f₀ =
      if (ms₀.erase k).isEmpty then none else some (ms₀.erase k) := by
    rw [hc']
    rw [lookup_lfuDetach_self]
    rw [hc1freqs, hms₀]
  have hlookup_other : ∀ f, f ≠ f₀ → lookupKey c'.freqs f = lookupKey c.freqs f := by
    intro f hne
    rw [hc']
    rw [lookup_lfuDetach_ne c1 k (Ne.symm hne), hc1freqs]
  have huniq := lfu_bucket_unique hWF hit
  refine ⟨⟨?_, ?_, ?_, ?_, ?_, ?_, ?_, ?_, ?_, ?_, ?_⟩, hcap', hmin', hlen', hlkk, hlother⟩
  · rw [hitems']; exact nodup_keys_eraseKey hWF.itemsNodup
  · rw [hc']
    apply lfuDetach_freqs_nodup
    rw [hc1freqs]
    exact hWF.freqsNodup
  · intro k2 it2 hit2
    by_cases hk2 : k2 = k
    · subst hk2; rw [hlkk] at hit2; exact absurd hit2 (by simp)
    · rw [hlother k2 hk2] at hit2; exact hWF.itemPos _ _ hit2
  · intro k2 it2 hit2
    by_cases hk2 : k2 = k
    · subst hk2; rw [hlkk] at hit2; exact absurd hit2 (by simp)
    · rw [hlother k2 hk2] at hit2; exact hWF.itemNode _ _ hit2
  · -- itemMem
    intro k2 it2 hit2
    by_cases hk2 : k2 = k
    · subst hk2; rw [hlkk] at hit2; exact absurd hit2 (by simp)
    · rw [hlother k2 hk2] at hit2
      obtain ⟨ms2, hms2, hk2ms2⟩ := hWF.itemMem _ _ hit2
      by_cases hf2 : it2.frequency = f₀
      · rw [hf2] at hms2 ⊢
        rw [hms₀] at hms2
        cases hms2
        have hk2mem : k2 ∈ ms₀.erase k :=
          (hms₀_nodup.mem_erase_iff).2 ⟨hk2, hk2ms2⟩
        have hne : ¬ (ms₀.erase k).isEmpty = true := by
          intro hemp
          rw [List.isEmpty_iff] at hemp
          rw [hemp] at hk2mem
          simp at hk2mem
        refine ⟨_, ?_, hk2mem⟩
        rw [hlookup_f0, if_neg hne]
      · refine ⟨ms2, ?_, hk2ms2⟩
        rw [hlookup_other _ hf2]
        exact hms2
  · -- bucketNodup
    intro f ms hms
    by_cases hf0 : f = f₀
    · subst hf0
      rw [hlookup_f0] at hms
      split at hms
      · exact absurd hms (by simp)
      · cases hms
        exact hms₀_nodup.erase k
    · rw [hlookup_other _ hf0] at hms
      exact hWF.bucketNodup _ _ hms
  · -- bucketNonempty
    intro f ms hms
    by_cases hf0 : f = f₀
    · subst hf0
      rw [hlookup_f0] at hms
      split at hms
      · exact absurd hms (by simp)
      · next hemp =>
        cases hms
        intro hnil
        exact hemp (by rw [hnil]; rfl)
    · rw [hlookup_other _ hf0] at hms
      exact hWF.bucketNonempty _ _ hms
  · -- bucketValid
    intro f ms hms k2 hk2
    by_cases hf0 : f = f₀
    · subst hf0
      rw [hlookup_f0] at hms
      split at hms
      · exact absurd hms (by simp)
      · cases hms
        have hmem := (hms₀_nodup.mem_erase_iff).1 hk2
        obtain ⟨it2, hit2, hfr⟩ := hWF.bucketValid _ _ hms₀ k2 hmem.2
        exact ⟨it2, by rw [hlother k2 hmem.1]; exact hit2, hfr⟩
    · rw [hlookup_other _ hf0] at hms
      obtain ⟨it2, hit2, hfr⟩ := hWF.bucketValid _ _ hms k2 hk2
      have hk2k : k2 ≠ k := by
        intro h
        subst h
        rw [hit] at hit2
        cases hit2
        exact hf0 hfr.symm
      exact ⟨it2, by rw [hlother k2 hk2k]; exact hit2, hfr⟩
  · -- minLe
    intro f hf
    rw [hmin']
    by_cases hf0 : f = f₀
    · subst hf0
      exact hWF.minLe f₀ (by rw [hms₀]; rfl)
    · rw [hlookup_other _ hf0] at hf
      exact hWF.minLe f hf
  · -- capLe
    have := hWF.capLe
    rw [hcap']
    omega
  · -- atCapMin
    intro hcap
    rw [hcap'] at hcap
    have := hWF.capLe
    omega

/-- `evict` on a full well-formed cache removes exactly one item. -/
theorem lfuEvict_wf {c : LFUCache α} (hWF : LFUWF c)
    (hfull : (c.items.length : Int) ≥ c.capacity) :
    ∃ c', lfuEvict c = some c' ∧
      LFUWF c' ∧
      c'.capacity = c.capacity ∧
      c'.items.length + 1 = c.items.length ∧
      (∀ k', lookupKey c.items k' = none → lookupKey c'.items k' = none) ∧
      (∀ k2 it2, lookupKey c'.items k2 = some it2 →
        lookupKey c.items k2 = some it2) := by
  have hcap : (c.items.length : Int) = c.capacity := le_antisymm hWF.capLe hfull
  have hsome := hWF.atCapMin hcap
  obtain ⟨ms, hms⟩ := Option.isSome_iff_exists.1 hsome
  have hne := hWF.bucketNonempty _ _ hms
  rcases hmseq : ms with _ | ⟨m, rest⟩
  · exact absurd hmseq hne
  subst hmseq
  obtain ⟨it_m, hit_m, _⟩ := hWF.bucketValid _ _ hms m (List.mem_cons_self _ _)
  obtain ⟨c', hrem, hWF', hcap', hmin', hlen', hlkm, hlother⟩ := lfuRemove_wf hWF hit_m
  refine ⟨c', ?_, hWF', hcap', hlen', ?_, ?_⟩
  · unfold lfuEvict
    rw [hms]
    dsimp only
    rw [hit_m]
    exact hrem
  · intro k' habs
    by_cases hk' : k' = m
    · subst hk'; exact hlkm
    · rw [hlother k' hk']; exact habs
  · intro k2 it2 hit2
    by_cases hk2 : k2 = m
    · subst hk2; rw [hlkm] at hit2; exact absurd hit2 (by simp)
    · rw [hlother k2 hk2] at hit2; exact hit2

/-- Overwriting the value and expiration of a resident item (the first half
of `Set` on an existing key) preserves well-formedness. -/
theorem lfu_update_value_wf {c : LFUCache α} {k : String} {it : LFUItem α}
    (hWF : LFUWF c) (hit : lookupKey c.items k = some it) (v : α) (exp : Int) :
    LFUWF { c with items := insertKey c.items k { it with value := v, expiration := exp } } := by
  set it1 : LFUItem α := { it with value := v, expiration := exp } with hit1
  have hlk : lookupKey (insertKey c.items k it1) k = some it1 :=
    lookupKey_insertKey_self
  have hlother : ∀ k', k' ≠ k →
      lookupKey (insertKey c.items k it1) k' = lookupKey c.items k' := by
    intro k' hne
    exact lookupKey_insertKey_ne (Ne.symm hne)
  refine ⟨?_, hWF.freqsNodup, ?_, ?_, ?_, hWF.bucketNodup, hWF.bucketNonempty, ?_, hWF.minLe, ?_, ?_⟩
  · exact nodup_keys_insertKey hWF.itemsNodup
  · intro k2 it2 hit2
    by_cases hk2 : k2 = k
    · subst hk2; rw [hlk] at hit2; cases hit2
      simpa [hit1] using hWF.itemPos _ _ hit
    · rw [hlother k2 hk2] at hit2; exact hWF.itemPos _ _ hit2
  · intro k2 it2 hit2
    by_cases hk2 : k2 = k
    · subst hk2; rw [hlk] at hit2; cases hit2
      simpa [hit1] using hWF.itemNode _ _ hit
    · rw [hlother k2 hk2] at hit2; exact hWF.itemNode _ _ hit2
  · intro k2 it2 hit2
    by_cases hk2 : k2 = k
    · subst hk2; rw [hlk] at hit2; cases hit2
      simpa [hit1] using hWF.itemMem _ _ hit
    · rw [hlother k2 hk2] at hit2; exact hWF.itemMem _ _ hit2
  · intro f ms hms k2 hk2
    obtain ⟨it2, hit2, hfr⟩ := hWF.bucketValid f ms hms k2 hk2
    by_cases hk2k : k2 = k
    · subst hk2k
      rw [hit] at hit2
      cases hit2
      exact ⟨it1, hlk, by simp [hit1, hfr]⟩
    · exact ⟨it2, by rw [hlother k2 hk2k]; exact hit2, hfr⟩
  · show ((insertKey c.items k it1).length : Int) ≤ c.capacity
    rw [length_insertKey_of_lookup_some hit]
    exact hWF.capLe
  · show ((insertKey c.items k it1).length : Int) = c.capacity → _
    rw [length_insertKey_of_lookup_some hit]
    exact hWF.atCapMin

/-- A well-formed LFU cache with a resident key is a non-empty map. -/
theorem lfu_nonempty_of_lookup {c : LFUCache α} {k : String} {it : LFUItem α}
    (hit : lookupKey c.items k = some it) : c.items ≠ [] := by
  intro hnil
  rw [hnil] at hit
  exact absurd hit (by simp)

/-- `Set` preserves well-formedness and the two extra invariants tracked
for the `minFreq` analysis. -/
theorem lfuSet_wf {c : LFUCache α} (hWF : LFUWF c) (k : String) (v : α)
    (ttl now : Int) :
    ∀ c', lfuSet c k v ttl now = some c' →
      LFUWF c' ∧
      c'.capacity = c.capacity ∧
      (∀ k2 it2, lookupKey c'.items k2 = some it2 →
        it2.expiration = (if ttl > 0 then now + ttl else 0) ∨
        ∃ it0, lookupKey c.items k2 = some it0 ∧ it2.expiration = it0.expiration) ∧
      ((c.items ≠ [] → (lookupKey c.freqs c.minFreq).isSome) →
        (lookupKey c'.freqs c'.minFreq).isSome) := by
  intro c' hc'
  unfold lfuSet at hc'
  cases hlk : lookupKey c.items k with
  | some it =>
    rw [hlk] at hc'
    dsimp only at hc'
    set exp : Int := if ttl > 0 then now + ttl else 0 with hexp
    set c1 : LFUCache α :=
      { c with items := insertKey c.items k { it with value := v, expiration := exp } }
      with hc1
    have hWF1 : LFUWF c1 := lfu_update_value_wf hWF hlk v exp
    have hlk1 : lookupKey c1.items k = some { it with value := v, expiration := exp } := by
      show lookupKey (insertKey c.items k _) k = _
      exact lookupKey_insertKey_self
    obtain ⟨hWF', hcap', hmin', hlen', hlkk', hlother', hkeep'⟩ :=
      lfuIncrementFreq_existing_wf hWF1 hlk1 c' hc'
    refine ⟨hWF', by rw [hcap'], ?_, ?_⟩
    · intro k2 it2 hit2
      by_cases hk2 : k2 = k
      · subst hk2
        rw [hlkk'] at hit2
        cases hit2
        exact Or.inl rfl
      · rw [hlother' k2 hk2] at hit2
        have : lookupKey c1.items k2 = lookupKey c.items k2 := by
          show lookupKey (insertKey c.items k _) k2 = _
          exact lookupKey_insertKey_ne (Ne.symm hk2)
        rw [this] at hit2
        exact Or.inr ⟨it2, hit2, rfl⟩
    · intro hminb
      apply hkeep'
      show (lookupKey c.freqs c.minFreq).isSome
      exact hminb (lfu_nonempty_of_lookup hlk)
  | none =>
    rw [hlk] at hc'
    dsimp only at hc'
    set exp : Int := if ttl > 0 then now + ttl else 0 with hexp
    by_cases hfull : (c.items.length : Int) ≥ c.capacity
    · rw [if_pos hfull] at hc'
      obtain ⟨c1, hev, hWF1, hcap1, hlen1, habs1, hsub1⟩ := lfuEvict_wf hWF hfull
      rw [hev] at hc'
      simp only [Option.bind_eq_bind, Option.some_bind] at hc'
      have habs' : lookupKey c1.items k = none := habs1 k hlk
      have hlt : (c1.items.length : Int) < c1.capacity := by
        have := hWF.capLe
        rw [hcap1]
        omega
      obtain ⟨hWF', hcap', hmin', hlen', hlkk', hlother', hsome'⟩ :=
        lfuIncrementFreq_fresh_wf hWF1 habs' v exp hlt c' hc'
      refine ⟨hWF', by rw [hcap', hcap1], ?_, fun _ => hsome'⟩
      intro k2 it2 hit2
      by_cases hk2 : k2 = k
      · subst hk2
        rw [hlkk'] at hit2
        cases hit2
        exact Or.inl rfl
      · rw [hlother' k2 hk2] at hit2
        exact Or.inr ⟨it2, hsub1 k2 it2 hit2, rfl⟩
    · rw [if_neg hfull] at hc'
      simp only [Option.bind_eq_bind, Option.some_bind] at hc'
      have hlt : (c.items.length : Int) < c.capacity := by omega
      obtain ⟨hWF', hcap', hmin', hlen', hlkk', hlother', hsome'⟩ :=
        lfuIncrementFreq_fresh_wf hWF hlk v exp hlt c' hc'
      refine ⟨hWF', hcap', ?_, fun _ => hsome'⟩
      intro k2 it2 hit2
      by_cases hk2 : k2 = k
      · subst hk2
        rw [hlkk'] at hit2
        cases hit2
        exact Or.inl rfl
      · rw [hlother' k2 hk2] at hit2
        exact Or.inr ⟨it2, hit2, rfl⟩

/-- `Get` preserves well-formedness; under the no-TTL assumption it also
preserves the `minFreq` bucket invariant. -/
theorem lfuGet_wf {c : LFUCache α} (hWF : LFUWF c) (k : String) (now : Int) :
    ∀ r, lfuGet c k now = some r →
      LFUWF r.2 ∧
      r.2.capacity = c.capacity ∧
      (∀ k2 it2, lookupKey r.2.items k2 = some it2 →
        ∃ it0, lookupKey c.items k2 = some it0 ∧ it2.expiration = it0.expiration) ∧
      ((∀ k2 it2, lookupKey c.items k2 = some it2 → it2.expiration = 0) →
        (c.items ≠ [] → (lookupKey c.freqs c.minFreq).isSome) →
        (r.2.items ≠ [] → (lookupKey r.2.freqs r.2.minFreq).isSome)) := by
  intro r hr
  unfold lfuGet at hr
  cases hlk : lookupKey c.items k with
  | none =>
    rw [hlk] at hr
    dsimp only at hr
    cases hr
    exact ⟨hWF, rfl, fun k2 it2 hit2 => ⟨it2, hit2, rfl⟩, fun _ hminb h => hminb h⟩
  | some it =>
    rw [hlk] at hr
    dsimp only at hr
    by_cases hex : it.expiration > 0 ∧ it.expiration < now
    · rw [if_pos hex] at hr
      obtain ⟨c2, hrem, hWF2, hcap2, hmin2, hlen2, hlkk2, hlother2⟩ :=
        lfuRemove_wf hWF hlk
      rw [hrem] at hr
      simp only [Option.map_some'] at hr
      cases hr
      refine ⟨hWF2, hcap2, ?_, ?_⟩
      · intro k2 it2 hit2
        by_cases hk2 : k2 = k
        · subst hk2; rw [hlkk2] at hit2; exact absurd hit2 (by simp)
        · rw [hlother2 k2 hk2] at hit2; exact ⟨it2, hit2, rfl⟩
      · intro hnoexp _ _
        exfalso
        have := hnoexp k it hlk
        omega
    · rw [if_neg hex] at hr
      cases hinc : lfuIncrementFreq c k with
      | none => rw [hinc] at hr; exact absurd hr (by simp)
      | some c2 =>
        rw [hinc] at hr
        simp only [Option.map_some'] at hr
        cases hr
        obtain ⟨hWF', hcap', hmin', hlen', hlkk', hlother', hkeep'⟩ :=
          lfuIncrementFreq_existing_wf hWF hlk c2 hinc
        refine ⟨hWF', hcap', ?_, ?_⟩
        · intro k2 it2 hit2
          by_cases hk2 : k2 = k
          · subst hk2
            rw [hlkk'] at hit2
            cases hit2
            exact ⟨it, hlk, rfl⟩
          · rw [hlother' k2 hk2] at hit2
            exact ⟨it2, hit2, rfl⟩
        · intro _ hminb _
          exact hkeep' (hminb (lfu_nonempty_of_lookup hlk))

theorem lfuFlush_wf {c : LFUCache α} (hWF : LFUWF c) : LFUWF (lfuFlush c) := by
  refine ⟨by simp [lfuFlush, keysOf], by simp [lfuFlush, keysOf], ?_, ?_, ?_, ?_, ?_, ?_, ?_, ?_, ?_⟩
  all_goals simp only [lfuFlush]
  · intro k it h; exact absurd h (by simp)
  · intro k it h; exact absurd h (by simp)
  · intro k it h; exact absurd h (by simp)
  · intro f ms h; exact absurd h (by simp)
  · intro f ms h; exact absurd h (by simp)
  · intro f ms h; exact absurd h (by simp)
  · intro f h; exact absurd h (by simp)
  · show ((0 : Nat) : Int) ≤ c.capacity
    have := hWF.capLe
    omega
  · show ((0 : Nat) : Int) = c.capacity → _
    intro h0
    exfalso
    have hcap0 : c.capacity = 0 := by omega
    have hlen0 : c.items.length = 0 := by
      have := hWF.capLe
      omega
    have hnil : c.items = [] := List.length_eq_zero.1 hlen0
    have hsome := hWF.atCapMin (by omega)
    obtain ⟨ms, hms⟩ := Option.isSome_iff_exists.1 hsome
    have hne := hWF.bucketNonempty _ _ hms
    rcases hmseq : ms with _ | ⟨m, rest⟩
    · exact absurd hmseq hne
    subst hmseq
    obtain ⟨it_m, hit_m, _⟩ := hWF.bucketValid _ _ hms m (List.mem_cons_self _ _)
    rw [hnil] at hit_m
    exact absurd hit_m (by simp)

theorem lfuDelete_wf {c : LFUCache α} (hWF : LFUWF c) (k : String) :
    ∀ c', lfuDelete c k = some c' → LFUWF c' ∧ c'.capacity = c.capacity := by
  intro c' hc'
  unfold lfuDelete at hc'
  cases hlk : lookupKey c.items k with
  | none => rw [hlk] at hc'; cases hc'; exact ⟨hWF, rfl⟩
  | some it =>
    rw [hlk] at hc'
    dsimp only at hc'
    obtain ⟨c2, hrem, hWF2, hcap2, _⟩ := lfuRemove_wf hWF hlk
    rw [hrem] at hc'
    cases hc'
    exact ⟨hWF2, hcap2⟩

theorem lfuStep_wf {c : LFUCache α} (hWF : LFUWF c) (op : CacheOp α) :
    ∀ c', lfuStep c op = some c' → LFUWF c' ∧ c'.capacity = c.capacity := by
  intro c' hc'
  cases op with
  | set k v ttl now =>
    obtain ⟨h1, h2, _⟩ := lfuSet_wf hWF k v ttl now c' hc'
    exact ⟨h1, h2⟩
  | get k now =>
    simp only [lfuStep] at hc'
    cases hg : lfuGet c k now with
    | none => rw [hg] at hc'; exact absurd hc' (by simp)
    | some r =>
      rw [hg] at hc'
      simp only [Option.map_some'] at hc'
      cases hc'
      obtain ⟨h1, h2, _⟩ := lfuGet_wf hWF k now r hg
      exact ⟨h1, h2⟩
  | del k => exact lfuDelete_wf hWF k c' hc'
  | flush =>
    simp only [lfuStep] at hc'
    cases hc'
    exact ⟨lfuFlush_wf hWF, rfl⟩

theorem lfuRun_wf {c : LFUCache α} (hWF : LFUWF c) (ops : List (CacheOp α)) :
    ∀ c', lfuRun c ops = some c' → LFUWF c' ∧ c'.capacity = c.capacity := by
  induction ops generalizing c with
  | nil =>
    intro c' hc'
    cases hc'
    exact ⟨hWF, rfl⟩
  | cons op ops ih =>
    intro c' hc'
    simp only [lfuRun, List.foldlM_cons] at hc'
    cases hstep : lfuStep c op with
    | none => rw [hstep] at hc'; exact absurd hc' (by simp)
    | some c1 =>
      rw [hstep] at hc'
      simp only [Option.bind_eq_bind, Option.some_bind] at hc'
      obtain ⟨hWF1, hcap1⟩ := lfuStep_wf hWF op c1 hstep
      obtain ⟨hWF', hcap'⟩ := ih hWF1 c' hc'
      exact ⟨hWF', by rw [hcap', hcap1]⟩

theorem lfuInit_wf {N : Int} (hN : 1 ≤ N) : LFUWF (NewLFUCache α N) := by
  refine ⟨by simp [NewLFUCache, keysOf], by simp [NewLFUCache, keysOf], ?_, ?_, ?_, ?_, ?_, ?_, ?_, ?_, ?_⟩
  · intro k it h; exact absurd h (by simp [NewLFUCache])
  · intro k it h; exact absurd h (by simp [NewLFUCache])
  · intro k it h; exact absurd h (by simp [NewLFUCache])
  · intro f ms h; exact absurd h (by simp [NewLFUCache])
  · intro f ms h; exact absurd h (by simp [NewLFUCache])
  · intro f ms h; exact absurd h (by simp [NewLFUCache])
  · intro f h; exact absurd h (by simp [NewLFUCache])
  · show ((0 : Nat) : Int) ≤ N
    omega
  · show ((0 : Nat) : Int) = N → _
    intro h
    exfalso
    omega

/-- The restricted step (no `Delete`, non-positive TTLs) preserves the
strengthened invariant. -/
theorem lfuStepX_wf {c : LFUCache α} (hX : LFUWFX c) {op : CacheOp α}
    (hdel : isDel op = false) (httl : ttlNonPos op = true) :
    ∀ c', lfuStep c op = some c' → LFUWFX c' := by
  intro c' hc'
  cases op with
  | set k v ttl now =>
    have httl' : ttl ≤ 0 := by
      simpa [ttlNonPos] using httl
    obtain ⟨hWF', hcap', hexp', hminb'⟩ := lfuSet_wf hX.toLFUWF k v ttl now c' hc'
    refine ⟨hWF', ?_, fun _ => hminb' hX.minBucket⟩
    intro k2 it2 hit2
    rcases hexp' k2 it2 hit2 with h | ⟨it0, hit0, heq⟩
    · rw [h, if_neg (by omega)]
    · rw [heq]
      exact hX.noExp k2 it0 hit0
  | get k now =>
    simp only [lfuStep] at hc'
    cases hg : lfuGet c k now with
    | none => rw [hg] at hc'; exact absurd hc' (by simp)
    | some r =>
      rw [hg] at hc'
      simp only [Option.map_some'] at hc'
      cases hc'
      obtain ⟨hWF', hcap', hexp', hminb'⟩ := lfuGet_wf hX.toLFUWF k now r hg
      refine ⟨hWF', ?_, hminb' hX.noExp hX.minBucket⟩
      intro k2 it2 hit2
      obtain ⟨it0, hit0, heq⟩ := hexp' k2 it2 hit2
      rw [heq]
      exact hX.noExp k2 it0 hit0
  | del k => simp [isDel] at hdel
  | flush =>
    simp only [lfuStep] at hc'
    cases hc'
    refine ⟨lfuFlush_wf hX.toLFUWF, ?_, ?_⟩
    · intro k it h; exact absurd h (by simp [lfuFlush])
    · intro h; simp [lfuFlush] at h

theorem lfuRunX_wf {c : LFUCache α} (hX : LFUWFX c) {ops : List (CacheOp α)}
    (hops : ∀ op ∈ ops, isDel op = false ∧ ttlNonPos op = true) :
    ∀ c', lfuRun c ops = some c' → LFUWFX c' := by
  induction ops generalizing c with
  | nil =>
    intro c' hc'
    cases hc'
    exact hX
  | cons op ops ih =>
    intro c' hc'
    simp only [lfuRun, List.foldlM_cons] at hc'
    cases hstep : lfuStep c op with
    | none => rw [hstep] at hc'; exact absurd hc' (by simp)
    | some c1 =>
      rw [hstep] at hc'
      simp only [Option.bind_eq_bind, Option.some_bind] at hc'
      have h1 := lfuStepX_wf hX (hops op (List.mem_cons_self _ _)).1
        (hops op (List.mem_cons_self _ _)).2 c1 hstep
      exact ih h1 (fun o ho => hops o (List.mem_cons_of_mem _ ho)) c' hc'

theorem lfuInitX_wf {N : Int} (hN : 1 ≤ N) : LFUWFX (NewLFUCache α N) := by
  refine ⟨lfuInit_wf hN, ?_, ?_⟩
  · intro k it h; exact absurd h (by simp [NewLFUCache])
  · intro h; simp [NewLFUCache] at h

/-! ## Claim C2 (amended) -/

/-- C2 (amended): for LRU and LFU caches of capacity N ≥ 1, any operation
sequence (LFU: any sequence that completes without panicking) leaves at
most N resident entries.  For ARC the bound fails
(`c2_arc_capacity_exceeded`). -/
theorem c2_capacity_invariant_lru_lfu {α : Type} [DecidableEq α] (N : Int)
    (hN : 1 ≤ N) (ops : List (CacheOp α)) :
    ((lruRun (NewLRUCache α N) ops).entries.length : Int) ≤ N ∧
    (∀ c', lfuRun (NewLFUCache α N) ops = some c' →
      (c'.items.length : Int) ≤ N) := by
  refine ⟨lruRun_length N hN ops, ?_⟩
  intro c' hc'
  obtain ⟨hWF', hcap'⟩ := lfuRun_wf (lfuInit_wf hN) ops c' hc'
  have := hWF'.capLe
  rw [hcap'] at this
  exact this

/-- Witness for `c2_capacity_invariant_lru_lfu`: capacity 1, three fresh
inserts, with the LFU part instantiated at the concrete final state. -/
theorem c2_capacity_invariant_lru_lfu_witness :
    ((lruRun (NewLRUCache Nat 1)
      [.set "a" 1 0 0, .set "b" 2 0 0, .set "c" 3 0 0]).entries.length : Int) ≤ 1 ∧
    (((⟨1, [("c", ⟨3, 1, 0, some 1⟩)], [(1, ["c"])], 1⟩ : LFUCache Nat)).items.length : Int) ≤ 1 :=
  ⟨(c2_capacity_invariant_lru_lfu 1 (by decide)
      [.set "a" 1 0 0, .set "b" 2 0 0, .set "c" 3 0 0]).1,
    (c2_capacity_invariant_lru_lfu 1 (by decide)
      [.set "a" 1 0 0, .set "b" 2 0 0, .set "c" 3 0 0]).2
      ⟨1, [("c", ⟨3, 1, 0, some 1⟩)], [(1, ["c"])], 1⟩ (by decide)⟩

/-! ## Claim C6 (amended) -/

/-- C6 (amended): on any trace of `Set` (non-positive TTL), `Get` and
`Flush` operations that completes without panicking, `minFreq` equals the
smallest frequency among the non-empty buckets whenever any item exists:
its bucket is non-empty and every bucket frequency is ≥ `minFreq`.
(`Delete` is excluded: it can leave `minFreq` stale while items exist, see
`c6_lfu_minfreq_stale`.) -/
theorem c6_lfu_minfreq_invariant_no_delete {α : Type} [DecidableEq α]
    (N : Int) (hN : 1 ≤ N) (ops : List (CacheOp α))
    (hops : ∀ op ∈ ops, isDel op = false ∧ ttlNonPos op = true) :
    ∀ c', lfuRun (NewLFUCache α N) ops = some c' →
      c'.items ≠ [] →
      (lookupKey c'.freqs c'.minFreq).isSome ∧
      (∀ f, (lookupKey c'.freqs f).isSome → c'.minFreq ≤ f) := by
  intro c' hc' hne
  have hX := lfuRunX_wf (lfuInitX_wf hN) hops c' hc'
  exact ⟨hX.minBucket hne, hX.toLFUWF.minLe⟩

/-- Witness for `c6_lfu_minfreq_invariant_no_delete`: the completing trace
`Set a; Set b; Get a` on capacity 2, instantiated at its concrete final
state. -/
theorem c6_lfu_minfreq_invariant_no_delete_witness :
    (lookupKey (⟨2, [("a", ⟨1, 2, 0, some 2⟩), ("b", ⟨2, 1, 0, some 1⟩)],
        [(1, ["b"]), (2, ["a"])], 1⟩ : LFUCache Nat).freqs 1).isSome ∧
    (∀ f, (lookupKey (⟨2, [("a", ⟨1, 2, 0, some 2⟩), ("b", ⟨2, 1, 0, some 1⟩)],
        [(1, ["b"]), (2, ["a"])], 1⟩ : LFUCache Nat).freqs f).isSome → 1 ≤ f) :=
  c6_lfu_minfreq_invariant_no_delete 2 (by decide)
    [.set "a" 1 0 0, .set "b" 2 0 0, .get "a" 0] (by decide)
    ⟨2, [("a", ⟨1, 2, 0, some 2⟩), ("b", ⟨2, 1, 0, some 1⟩)],
      [(1, ["b"]), (2, ["a"])], 1⟩ (by decide) (by decide)

/-! ## Absence preservation (for claim C3) -/

theorem lookupKey_eraseKey_none {l : List (String × β)} {k k2 : String}
    (h : lookupKey l k2 = none) : lookupKey (eraseKey l k) k2 = none := by
  by_cases hk : k = k2
  · subst hk; exact lookupKey_eraseKey_self
  · rw [lookupKey_eraseKey_ne hk]; exact h

theorem lfuIncrementFreq_absent {c : LFUCache α} {k2 : String}
    (h : lookupKey c.items k2 = none) (k' : String) :
    ∀ c', lfuIncrementFreq c k' = some c' → lookupKey c'.items k2 = none := by
  intro c' hc'
  unfold lfuIncrementFreq at hc'
  cases hlk : lookupKey c.items k' with
  | none =>
    rw [hlk] at hc'
    cases hc'
    exact h
  | some it =>
    have hne : k2 ≠ k' := by
      intro he; subst he; rw [h] at hlk; exact absurd hlk (by simp)
    rw [hlk] at hc'
    dsimp only at hc'
    revert hc'
    generalize hdet : (match it.freqNode with
      | none => c
      | some f => lfuDetach c f k') = c1
    intro hc'
    have hc1items : c1.items = c.items := by
      rw [← hdet]
      cases it.freqNode with
      | none => rfl
      | some f => exact lfuDetach_items c f k'
    set itn : LFUItem α :=
      { it with frequency := it.frequency + 1, freqNode := some (it.frequency + 1) }
      with hitn
    have hfin : lookupKey (lfuAttach { c1 with items := insertKey c1.items k' itn }
        (it.frequency + 1) k').items k2 = none := by
      rw [lfuAttach_items]
      show lookupKey (insertKey c1.items k' _) k2 = none
      rw [lookupKey_insertKey_ne (Ne.symm hne)]
      rw [hc1items]
      exact h
    split at hc'
    · cases hc'; exact hfin
    · split at hc'
      · split at hc'
        · exact absurd hc' (by simp)
        · split at hc'
          · cases hc'; exact hfin
          · cases hc'; exact hfin
      · cases hc'; exact hfin

theorem lfuRemove_absent {c : LFUCache α} {k2 : String}
    (h : lookupKey c.items k2 = none) (k' : String) (it : LFUItem α) :
    ∀ c', lfuRemove c k' it = some c' → lookupKey c'.items k2 = none := by
  intro c' hc'
  unfold lfuRemove at hc'
  cases hfn : it.freqNode with
  | none => rw [hfn] at hc'; exact absurd hc' (by simp)
  | some f =>
    rw [hfn] at hc'
    dsimp only at hc'
    cases hc'
    rw [lfuDetach_items]
    exact lookupKey_eraseKey_none h

theorem lfuEvict_absent {c : LFUCache α} {k2 : String}
    (h : lookupKey c.items k2 = none) :
    ∀ c', lfuEvict c = some c' → lookupKey c'.items k2 = none := by
  intro c' hc'
  unfold lfuEvict at hc'
  cases hl : lookupKey c.freqs c.minFreq with
  | none => rw [hl] at hc'; cases hc'; exact h
  | some ms =>
    rw [hl] at hc'
    dsimp only at hc'
    cases ms with
    | nil =>
      dsimp only at hc'
      cases hc'
      exact h
    | cons m rest =>
      dsimp only at hc'
      cases hlk : lookupKey c.items m with
      | some itm =>
        rw [hlk] at hc'
        exact lfuRemove_absent h m itm c' hc'
      | none =>
        rw [hlk] at hc'
        cases hc'
        rw [lfuDetach_items]
        exact lookupKey_eraseKey_none h

theorem lfuStep_absent {c : LFUCache α} {k2 : String}
    (h : lookupKey c.items k2 = none) {op : CacheOp α}
    (hop : isSetOf k2 op = false) :
    ∀ c', lfuStep c op = some c' → lookupKey c'.items k2 = none := by
  intro c' hc'
  cases op with
  | set k' v ttl now =>
    have hne : k' ≠ k2 := by
      simpa [isSetOf] using hop
    simp only [lfuStep, lfuSet] at hc'
    cases hlk : lookupKey c.items k' with
    | some it =>
      rw [hlk] at hc'
      dsimp only at hc'
      apply lfuIncrementFreq_absent _ k' c' hc'
      show lookupKey (insertKey c.items k' _) k2 = none
      rw [lookupKey_insertKey_ne hne]
      exact h
    | none =>
      rw [hlk] at hc'
      dsimp only at hc'
      by_cases hfull : (c.items.length : Int) ≥ c.capacity
      · rw [if_pos hfull] at hc'
        cases hev : lfuEvict c with
        | none => rw [hev] at hc'; exact absurd hc' (by simp)
        | some c1 =>
          rw [hev] at hc'
          simp only [Option.bind_eq_bind, Option.some_bind] at hc'
          have h1 := lfuEvict_absent h c1 hev
          apply lfuIncrementFreq_absent _ k' c' hc'
          show lookupKey (insertKey c1.items k' _) k2 = none
          rw [lookupKey_insertKey_ne hne]
          exact h1
      · rw [if_neg hfull] at hc'
        simp only [Option.bind_eq_bind, Option.some_bind] at hc'
        apply lfuIncrementFreq_absent _ k' c' hc'
        show lookupKey (insertKey c.items k' _) k2 = none
        rw [lookupKey_insertKey_ne hne]
        exact h
  | get k' now =>
    simp only [lfuStep, lfuGet] at hc'
    cases hlk : lookupKey c.items k' with
    | none =>
      rw [hlk] at hc'
      cases hc'
      exact h
    | some it =>
      rw [hlk] at hc'
      dsimp only at hc'
      split at hc'
      · cases hrem : lfuRemove c k' it with
        | none => rw [hrem] at hc'; exact absurd hc' (by simp)
        | some cr =>
          rw [hrem] at hc'
          simp only [Option.map_some'] at hc'
          cases hc'
          exact lfuRemove_absent h k' it _ hrem
      · cases hinc : lfuIncrementFreq c k' with
        | none => rw [hinc] at hc'; exact absurd hc' (by simp)
        | some ci =>
          rw [hinc] at hc'
          simp only [Option.map_some'] at hc'
          cases hc'
          exact lfuIncrementFreq_absent h k' _ hinc
  | del k' =>
    simp only [lfuStep, lfuDelete] at hc'
    cases hlk : lookupKey c.items k' with
    | none => rw [hlk] at hc'; cases hc'; exact h
    | some it =>
      rw [hlk] at hc'
      exact lfuRemove_absent h k' it c' hc'
  | flush =>
    simp only [lfuStep] at hc'
    cases hc'
    simp [lfuFlush]

theorem lfuRun_absent {c : LFUCache α} {k2 : String}
    (h : lookupKey c.items k2 = none) {ops : List (CacheOp α)}
    (hops : ∀ op ∈ ops, isSetOf k2 op = false) :
    ∀ c', lfuRun c ops = some c' → lookupKey c'.items k2 = none := by
  induction ops generalizing c with
  | nil => intro c' hc'; cases hc'; exact h
  | cons op ops ih =>
    intro c' hc'
    simp only [lfuRun, List.foldlM_cons] at hc'
    cases hstep : lfuStep c op with
    | none => rw [hstep] at hc'; exact absurd hc' (by simp)
    | some c1 =>
      rw [hstep] at hc'
      simp only [Option.bind_eq_bind, Option.some_bind] at hc'
      have h1 := lfuStep_absent h (hops op (List.mem_cons_self _ _)) c1 hstep
      exact ih h1 (fun o ho => hops o (List.mem_cons_of_mem _ ho)) c' hc'

theorem memGet_state [DecidableEq α] (c : MemoryCache α) (k : String) (now : Int) :
    (memGet c k now).2 = c := by
  unfold memGet
  cases lookupKey c.items k with
  | none => rfl
  | some it => dsimp only; split <;> rfl

theorem memStep_absent [DecidableEq α] {c : MemoryCache α} {k2 : String}
    (h : lookupKey c.items k2 = none) {op : CacheOp α}
    (hop : isSetOf k2 op = false) :
    lookupKey (memStep c op).items k2 = none := by
  cases op with
  | set k' v ttl now =>
    have hne : k' ≠ k2 := by simpa [isSetOf] using hop
    show lookupKey (insertKey c.items k' _) k2 = none
    rw [lookupKey_insertKey_ne hne]
    exact h
  | get k' now =>
    show lookupKey (memGet c k' now).2.items k2 = none
    rw [memGet_state]
    exact h
  | del k' => exact lookupKey_eraseKey_none h
  | flush => rfl

theorem memRun_absent [DecidableEq α] {c : MemoryCache α} {k2 : String}
    (h : lookupKey c.items k2 = none) {ops : List (CacheOp α)}
    (hops : ∀ op ∈ ops, isSetOf k2 op = false) :
    lookupKey (memRun c ops).items k2 = none := by
  induction ops generalizing c with
  | nil => exact h
  | cons op ops ih =>
    show lookupKey (memRun (memStep c op) ops).items k2 = none
    exact ih (memStep_absent h (hops op (List.mem_cons_self _ _)))
      (fun o ho => hops o (List.mem_cons_of_mem _ ho))

theorem lruStep_keys_absent [DecidableEq α] {c : LRUCache α} {k : String}
    (h : ∀ e ∈ c.entries, e.key ≠ k) {op : CacheOp α}
    (hop : isSetOf k op = false) :
    ∀ e ∈ (lruStep c op).entries, e.key ≠ k := by
  cases op with
  | set k' v ttl now =>
    have hne : k' ≠ k := by simpa [isSetOf] using hop
    simp only [lruStep, lruSet]
    cases lruFind c k' with
    | some e0 =>
      dsimp only
      intro e he
      rcases List.mem_cons.1 he with rfl | he
      · exact hne
      · exact h e (List.eraseP_subset _ he)
    | none =>
      dsimp only
      intro e he
      rcases List.mem_cons.1 he with rfl | he
      · exact hne
      · split at he
        · exact h e ((List.dropLast_sublist _).mem he)
        · exact h e he
  | get k' now =>
    simp only [lruStep, lruGet]
    cases hf : lruFind c k' with
    | none => exact h
    | some e0 =>
      dsimp only
      split
      · intro e he
        exact h e (List.eraseP_subset _ he)
      · intro e he
        rcases List.mem_cons.1 he with rfl | he
        · exact h e (List.mem_of_find?_eq_some hf)
        · exact h e (List.eraseP_subset _ he)
  | del k' =>
    intro e he
    exact h e (List.eraseP_subset _ he)
  | flush =>
    intro e he
    simp [lruStep, lruClear] at he

theorem lruRun_keys_absent [DecidableEq α] {c : LRUCache α} {k : String}
    (h : ∀ e ∈ c.entries, e.key ≠ k) {ops : List (CacheOp α)}
    (hops : ∀ op ∈ ops, isSetOf k op = false) :
    ∀ e ∈ (lruRun c ops).entries, e.key ≠ k := by
  induction ops generalizing c with
  | nil => exact h
  | cons op ops ih =>
    show ∀ e ∈ (lruRun (lruStep c op) ops).entries, e.key ≠ k
    exact ih (lruStep_keys_absent h (hops op (List.mem_cons_self _ _)))
      (fun o ho => hops o (List.mem_cons_of_mem _ ho))

/-! ## Claim C3 (amended) -/

/-- C3 (amended): for the memory, LRU and LFU engines, `Get(k)` returns
`found = false` exactly when `k` is absent from the resident map or its
entry has expired, it returns the stored value with `found = true`
otherwise, and a key absent from the resident map stays absent under any
operations that never `Set` it (so a key that was deleted or evicted and
never set again is never reported found).  For ARC the claim fails
(`c3_arc_ghost_placeholder_returned`). -/
theorem c3_get_semantics_mem_lru_lfu {α : Type} [DecidableEq α] (k : String)
    (now : Int) :
    (∀ c : MemoryCache α, lookupKey c.items k = none →
      (memGet c k now).1 = (none, false)) ∧
    (∀ (c : MemoryCache α) it, lookupKey c.items k = some it →
      it.expiration > 0 → it.expiration < now →
      (memGet c k now).1 = (none, false)) ∧
    (∀ (c : MemoryCache α) it, lookupKey c.items k = some it →
      ¬ (it.expiration > 0 ∧ it.expiration < now) →
      (memGet c k now).1 = (some it.value, true)) ∧
    (∀ (c : MemoryCache α) (ops : List (CacheOp α)), lookupKey c.items k = none →
      (∀ op ∈ ops, isSetOf k op = false) →
      lookupKey (memRun c ops).items k = none) ∧
    (∀ c : LRUCache α, (∀ e ∈ c.entries, e.key ≠ k) →
      (lruGet c k now).1 = (none, false)) ∧
    (∀ (c : LRUCache α) e, lruFind c k = some e →
      lruExpired e.expiration now = true → (lruGet c k now).1 = (none, false)) ∧
    (∀ (c : LRUCache α) e, lruFind c k = some e →
      lruExpired e.expiration now = false →
      (lruGet c k now).1 = (some e.value, true)) ∧
    (∀ (c : LRUCache α) (ops : List (CacheOp α)), (∀ e ∈ c.entries, e.key ≠ k) →
      (∀ op ∈ ops, isSetOf k op = false) →
      ∀ e ∈ (lruRun c ops).entries, e.key ≠ k) ∧
    (∀ c : LFUCache α, lookupKey c.items k = none →
      lfuGet c k now = some ((none, false), c)) ∧
    (∀ (c : LFUCache α) it, lookupKey c.items k = some it →
      it.expiration > 0 → it.expiration < now →
      ∀ r, lfuGet c k now = some r → r.1 = (none, false)) ∧
    (∀ (c : LFUCache α) it, lookupKey c.items k = some it →
      ¬ (it.expiration > 0 ∧ it.expiration < now) →
      ∀ r, lfuGet c k now = some r → r.1 = (some it.value, true)) ∧
    (∀ (c : LFUCache α) (ops : List (CacheOp α)), lookupKey c.items k = none →
      (∀ op ∈ ops, isSetOf k op = false) →
      ∀ c', lfuRun c ops = some c' → lookupKey c'.items k = none) := by
  refine ⟨?_, ?_, ?_, ?_, ?_, ?_, ?_, ?_, ?_, ?_, ?_, ?_⟩
  · intro c h
    simp [memGet, h]
  · intro c it h h1 h2
    simp [memGet, h, h1, h2]
  · intro c it h hnx
    rw [show (memGet c k now) = ((some it.value, true), c) from ?_]
    unfold memGet
    rw [h]
    dsimp only
    rw [if_neg hnx]
  · intro c ops h hops
    exact memRun_absent h hops
  · intro c h
    have hf : lruFind c k = none := by
      apply List.find?_eq_none.2
      intro e he
      simpa using h e he
    simp [lruGet, hf]
  · intro c e hf hex
    simp [lruGet, hf, hex]
  · intro c e hf hex
    unfold lruGet
    rw [hf]
    dsimp only
    rw [hex]
    simp
  · intro c ops h hops
    exact lruRun_keys_absent h hops
  · intro c h
    simp [lfuGet, h]
  · intro c it h h1 h2 r hr
    unfold lfuGet at hr
    rw [h] at hr
    dsimp only at hr
    rw [if_pos ⟨h1, h2⟩] at hr
    cases hrem : lfuRemove c k it with
    | none => rw [hrem] at hr; exact absurd hr (by simp)
    | some cr =>
      rw [hrem] at hr
      simp only [Option.map_some'] at hr
      cases hr
      rfl
  · intro c it h hnx r hr
    unfold lfuGet at hr
    rw [h] at hr
    dsimp only at hr
    rw [if_neg hnx] at hr
    cases hinc : lfuIncrementFreq c k with
    | none => rw [hinc] at hr; exact absurd hr (by simp)
    | some ci =>
      rw [hinc] at hr
      simp only [Option.map_some'] at hr
      cases hr
      rfl
  · intro c ops h hops c' hc'
    exact lfuRun_absent h hops c' hc'

/-- Witness for `c3_get_semantics_mem_lru_lfu`: concrete single-entry
states and a delete-then-miss trace for each of the three engines. -/
theorem c3_get_semantics_mem_lru_lfu_witness :
    (memGet (⟨[("x", ⟨5, 0⟩)]⟩ : MemoryCache Nat) "a" 3).1 = (none, false) ∧
    (memGet (⟨[("a", ⟨5, 2⟩)]⟩ : MemoryCache Nat) "a" 3).1 = (none, false) ∧
    (memGet (⟨[("a", ⟨5, 0⟩)]⟩ : MemoryCache Nat) "a" 3).1 = (some 5, true) ∧
    lookupKey (memRun (⟨[]⟩ : MemoryCache Nat)
      [.set "b" 1 0 0, .del "a", .get "a" 0]).items "a" = none ∧
    (lruGet (⟨2, [⟨"x", 5, none⟩]⟩ : LRUCache Nat) "a" 3).1 = (none, false) ∧
    (lruGet (⟨2, [⟨"a", 5, some 2⟩]⟩ : LRUCache Nat) "a" 3).1 = (none, false) ∧
    (lruGet (⟨2, [⟨"a", 5, none⟩]⟩ : LRUCache Nat) "a" 3).1 = (some 5, true) ∧
    (∀ e ∈ (lruRun (⟨2, []⟩ : LRUCache Nat)
      [.set "b" 1 0 0, .del "a", .get "a" 0]).entries, e.key ≠ "a") ∧
    lfuGet (⟨2, [("x", ⟨5, 1, 0, some 1⟩)], [(1, ["x"])], 1⟩ : LFUCache Nat) "a" 3 =
      some ((none, false), ⟨2, [("x", ⟨5, 1, 0, some 1⟩)], [(1, ["x"])], 1⟩) ∧
    (∀ r, lfuGet (⟨2, [("a", ⟨5, 1, 2, some 1⟩)], [(1, ["a"])], 1⟩ : LFUCache Nat)
      "a" 3 = some r → r.1 = (none, false)) ∧
    (∀ r, lfuGet (⟨2, [("a", ⟨5, 1, 0, some 1⟩), ("b", ⟨6, 1, 0, some 1⟩)],
      [(1, ["a", "b"])], 1⟩ : LFUCache Nat) "a" 3 = some r →
      r.1 = (some 5, true)) ∧
    (∀ c', lfuRun (⟨2, [], [], 0⟩ : LFUCache Nat)
      [.set "b" 1 0 0, .del "a", .get "a" 0] = some c' →
      lookupKey c'.items "a" = none) := by
  refine ⟨(c3_get_semantics_mem_lru_lfu "a" 3).1 _ (by decide),
    (c3_get_semantics_mem_lru_lfu "a" 3).2.1 _ ⟨5, 2⟩ (by decide) (by decide) (by decide),
    (c3_get_semantics_mem_lru_lfu "a" 3).2.2.1 _ ⟨5, 0⟩ (by decide) (by decide),
    (c3_get_semantics_mem_lru_lfu "a" 0).2.2.2.1 _ _ (by decide) (by decide),
    (c3_get_semantics_mem_lru_lfu "a" 3).2.2.2.2.1 _ (by decide),
    (c3_get_semantics_mem_lru_lfu "a" 3).2.2.2.2.2.1 _ ⟨"a", 5, some 2⟩ (by decide) (by decide),
    (c3_get_semantics_mem_lru_lfu "a" 3).2.2.2.2.2.2.1 _ ⟨"a", 5, none⟩ (by decide) (by decide),
    (c3_get_semantics_mem_lru_lfu "a" 0).2.2.2.2.2.2.2.1 _ _ (by decide) (by decide),
    (c3_get_semantics_mem_lru_lfu "a" 3).2.2.2.2.2.2.2.2.1 _ (by decide),
    (c3_get_semantics_mem_lru_lfu "a" 3).2.2.2.2.2.2.2.2.2.1 _ ⟨5, 1, 2, some 1⟩
      (by decide) (by decide) (by decide),
    (c3_get_semantics_mem_lru_lfu "a" 3).2.2.2.2.2.2.2.2.2.2.1 _ ⟨5, 1, 0, some 1⟩
      (by decide) (by decide),
    (c3_get_semantics_mem_lru_lfu "a" 0).2.2.2.2.2.2.2.2.2.2.2 _ _ (by decide) (by decide)⟩

end LFU

/-! ## Lemmas for claim C5 (lazy-expiration removal) -/

theorem lru_eraseP_no_key {α : Type} {l : List (LRUEntry α)} {k : String}
    (hnd : (l.map (·.key)).Nodup) :
    ∀ e ∈ l.eraseP (fun e' => e'.key == k), e.key ≠ k := by
  induction l with
  | nil => simp
  | cons a l ih =>
    simp only [List.map_cons, List.nodup_cons] at hnd
    by_cases ha : (a.key == k) = true
    · rw [List.eraseP_cons_of_pos (p := fun e' : LRUEntry α => e'.key == k) ha]
      intro e he heq
      apply hnd.1
      have hak : a.key = k := by simpa using ha
      rw [hak, ← heq]
      exact List.mem_map_of_mem _ he
    · rw [List.eraseP_cons_of_neg (p := fun e' : LRUEntry α => e'.key == k) ha]
      intro e he
      rcases List.mem_cons.1 he with rfl | he
      · simpa using ha
      · exact ih hnd.2 e he

theorem arc_mem_of_nodup_ids {l : List (ArcElem α)}
    (hnd : (l.map (·.id)).Nodup) {e : ArcElem α} (he : e ∈ l) :
    ∀ e', e' ∈ eraseId l e.id ↔ e' ∈ l ∧ e' ≠ e := by
  induction l with
  | nil => simp at he
  | cons a l ih =>
    simp only [List.map_cons, List.nodup_cons] at hnd
    by_cases ha : (a.id == e.id) = true
    · have haid : a.id = e.id := by simpa using ha
      have hae : a = e := by
        rcases List.mem_cons.1 he with rfl | he'
        · rfl
        · exact absurd (haid ▸ List.mem_map_of_mem (·.id) he') hnd.1
      rw [← hae]
      unfold eraseId
      rw [List.eraseP_cons_of_pos (p := fun x : ArcElem α => x.id == a.id) (by simp)]
      intro e'
      constructor
      · intro h'
        refine ⟨List.mem_cons_of_mem _ h', ?_⟩
        rintro rfl
        exact hnd.1 (List.mem_map_of_mem (·.id) h')
      · rintro ⟨h', hne⟩
        rcases List.mem_cons.1 h' with rfl | h''
        · exact absurd rfl hne
        · exact h''
    · have hane : a ≠ e := by
        intro h'
        subst h'
        simp at ha
      have he' : e ∈ l := by
        rcases List.mem_cons.1 he with rfl | h'
        · exact absurd rfl hane
        · exact h'
      unfold eraseId
      rw [List.eraseP_cons_of_neg (p := fun x : ArcElem α => x.id == e.id) ha]
      intro e'
      rw [List.mem_cons]
      constructor
      · rintro (rfl | h')
        · exact ⟨List.mem_cons_self _ _, hane⟩
        · have := (ih hnd.2 he' e').1 h'
          exact ⟨List.mem_cons_of_mem _ this.1, this.2⟩
      · rintro ⟨h', hne⟩
        rcases List.mem_cons.1 h' with rfl | h''
        · exact Or.inl rfl
        · exact Or.inr ((ih hnd.2 he' e').2 ⟨h'', hne⟩)

theorem arc_containsId_of_mem {l : List (ArcElem α)} {e : ArcElem α}
    (he : e ∈ l) : containsId l e.id = true := by
  unfold containsId
  rw [List.any_eq_true]
  exact ⟨e, he, by simp⟩

theorem arc_containsId_false_of_disjoint {l : List (ArcElem α)} {i : Nat}
    (h : ∀ x ∈ l, x.id ≠ i) : containsId l i = false := by
  unfold containsId
  rw [List.any_eq_false]
  intro x hx
  simpa using h x hx

theorem mem_arcTrim_head {b : List String} {k : String} {cap : Int}
    (hcap : 1 ≤ cap) : k ∈ arcTrim (k :: b) cap := by
  unfold arcTrim
  split
  · next hgt =>
    cases b with
    | nil => simp at hgt; omega
    | cons x xs =>
      rw [List.dropLast_cons₂]
      exact List.mem_cons_self _ _
  · exact List.mem_cons_self _ _

/-! ## Claim C5 (amended) -/

/-- C5 (amended): for the LRU and LFU engines (states whose key sets are
well-formed), a `Get` that observes an expired entry reports a miss and
removes the entry from the resident structures; for ARC (states where the
key occupies a single resident element) the element is removed from its
resident list, the `cache` mapping is dropped, and the key moves to the
matching ghost list: a T1 resident is pushed onto B1 leaving B2 untouched,
and a T2 resident is pushed onto B2 leaving B1 untouched.  The memory
engine does not remove (`c5_memory_keeps_expired_entry`). -/
theorem c5_lazy_expiration_removes_lru_lfu_arc {α : Type} [DecidableEq α]
    (k : String) (now : Int) :
    (∀ (c : LRUCache α) e, (c.entries.map (·.key)).Nodup →
      lruFind c k = some e → lruExpired e.expiration now = true →
      (lruGet c k now).1 = (none, false) ∧
      ∀ e' ∈ (lruGet c k now).2.entries, e'.key ≠ k) ∧
    (∀ (c : LFUCache α) it, lookupKey c.items k = some it →
      it.expiration > 0 → it.expiration < now → it.freqNode = some it.frequency →
      ∃ c', lfuGet c k now = some ((none, false), c') ∧
        lookupKey c'.items k = none) ∧
    (∀ (c : ARCCache α) e, lookupKey c.cache k = some e → e.key = k →
      e.expiration > 0 → e.expiration < now →
      e ∈ c.t1 ++ c.t2 → ((c.t1 ++ c.t2).map (·.id)).Nodup →
      (∀ e' ∈ c.t1 ++ c.t2, e'.key = k → e' = e) → 1 ≤ c.capacity →
      (arcGet c k now).1 = (none, false) ∧
      lookupKey (arcGet c k now).2.cache k = none ∧
      (∀ e' ∈ (arcGet c k now).2.t1 ++ (arcGet c k now).2.t2, e'.key ≠ k) ∧
      (e ∈ c.t1 → k ∈ (arcGet c k now).2.b1 ∧ (arcGet c k now).2.b2 = c.b2) ∧
      (e ∈ c.t2 → k ∈ (arcGet c k now).2.b2 ∧ (arcGet c k now).2.b1 = c.b1)) := by
  refine ⟨?_, ?_, ?_⟩
  · intro c e hnd hf hex
    constructor
    · simp [lruGet, hf, hex]
    · intro e' he'
      have : (lruGet c k now).2.entries = c.entries.eraseP (fun e' => e'.key == k) := by
        simp [lruGet, hf, hex, lruRemoveKey]
      rw [this] at he'
      exact lru_eraseP_no_key hnd e' he'
  · intro c it hit h1 h2 hnode
    unfold lfuGet
    rw [hit]
    dsimp only
    rw [if_pos ⟨h1, h2⟩]
    unfold lfuRemove
    rw [hnode]
    dsimp only
    refine ⟨_, rfl, ?_⟩
    rw [lfuDetach_items]
    exact lookupKey_eraseKey_self
  · intro c e hcache hkey h1 h2 hmem hids huniq hcap
    have hget : arcGet c k now = ((none, false), arcRemove c k) := by
      unfold arcGet
      rw [hcache]
      dsimp only
      rw [if_pos ⟨h1, h2⟩]
    rw [hget]
    refine ⟨rfl, ?_, ?_, ?_, ?_⟩
    · -- the cache mapping is gone
      unfold arcRemove
      rw [hcache]
      dsimp only
      split
      · exact lookupKey_eraseKey_self
      · split
        · exact lookupKey_eraseKey_self
        · exact lookupKey_eraseKey_self
    · -- no resident element with key k remains
      intro e' he'
      rcases List.mem_append.1 hmem with hmt1 | hmt2
      · have hc1 : containsId c.t1 e.id = true := arc_containsId_of_mem hmt1
        have harm : arcRemove c k =
            { c with t1 := eraseId c.t1 e.id,
                     b1 := arcTrim (k :: c.b1) c.capacity,
                     cache := eraseKey c.cache k } := by
          unfold arcRemove
          rw [hcache]
          dsimp only
          rw [if_pos hc1]
        rw [harm] at he'
        simp only [List.mem_append] at he'
        rcases he' with he' | he'
        · intro hk'
          have hin := ((arc_mem_of_nodup_ids
            (l := c.t1) (by
              rw [List.map_append] at hids
              exact (List.nodup_append.1 hids).1) hmt1 e').1 he')
          exact hin.2 (huniq e' (List.mem_append_left _ hin.1) hk')
        · intro hk'
          have heq := huniq e' (List.mem_append_right _ he') hk'
          subst heq
          rw [List.map_append] at hids
          exact (List.nodup_append.1 hids).2.2
            (List.mem_map_of_mem (·.id) hmt1) (List.mem_map_of_mem (·.id) he')
      · have hc1 : containsId c.t1 e.id = false := by
          apply arc_containsId_false_of_disjoint
          intro x hx hxid
          rw [List.map_append] at hids
          exact (List.nodup_append.1 hids).2.2
            (List.mem_map_of_mem (·.id) hx) (hxid ▸ List.mem_map_of_mem (·.id) hmt2)
        have hc2 : containsId c.t2 e.id = true := arc_containsId_of_mem hmt2
        have harm : arcRemove c k =
            { c with t2 := eraseId c.t2 e.id,
                     b2 := arcTrim (k :: c.b2) c.capacity,
                     cache := eraseKey c.cache k } := by
          unfold arcRemove
          rw [hcache]
          dsimp only
          rw [hc1]
          simp only [Bool.false_eq_true, if_false]
          rw [if_pos hc2]
        rw [harm] at he'
        simp only [List.mem_append] at he'
        rcases he' with he' | he'
        · intro hk'
          have heq := huniq e' (List.mem_append_left _ he') hk'
          subst heq
          rw [List.map_append] at hids
          exact (List.nodup_append.1 hids).2.2
            (List.mem_map_of_mem (·.id) he') (List.mem_map_of_mem (·.id) hmt2)
        · intro hk'
          have hin := ((arc_mem_of_nodup_ids
            (l := c.t2) (by
              rw [List.map_append] at hids
              exact (List.nodup_append.1 hids).2.1) hmt2 e').1 he')
          exact hin.2 (huniq e' (List.mem_append_right _ hin.1) hk')
    · -- a T1 resident is pushed onto B1 and B2 is untouched
      intro hmt1
      have hc1 : containsId c.t1 e.id = true := arc_containsId_of_mem hmt1
      have harm : arcRemove c k =
          { c with t1 := eraseId c.t1 e.id,
                   b1 := arcTrim (k :: c.b1) c.capacity,
                   cache := eraseKey c.cache k } := by
        unfold arcRemove
        rw [hcache]
        dsimp only
        rw [if_pos hc1]
      rw [harm]
      exact ⟨mem_arcTrim_head hcap, rfl⟩
    · -- a T2 resident is pushed onto B2 and B1 is untouched
      intro hmt2
      have hc1 : containsId c.t1 e.id = false := by
        apply arc_containsId_false_of_disjoint
        intro x hx hxid
        rw [List.map_append] at hids
        exact (List.nodup_append.1 hids).2.2
          (List.mem_map_of_mem (·.id) hx) (hxid ▸ List.mem_map_of_mem (·.id) hmt2)
      have hc2 : containsId c.t2 e.id = true := arc_containsId_of_mem hmt2
      have harm : arcRemove c k =
          { c with t2 := eraseId c.t2 e.id,
                   b2 := arcTrim (k :: c.b2) c.capacity,
                   cache := eraseKey c.cache k } := by
        unfold arcRemove
        rw [hcache]
        dsimp only
        rw [hc1]
        simp only [Bool.false_eq_true, if_false]
        rw [if_pos hc2]
      rw [harm]
      exact ⟨mem_arcTrim_head hcap, rfl⟩

/-- Witness for `c5_lazy_expiration_removes_lru_lfu_arc`: single-entry
expired states for each engine, read at instant 10. -/
theorem c5_lazy_expiration_removes_lru_lfu_arc_witness :
    ((lruGet (⟨2, [⟨"a", 7, some 5⟩]⟩ : LRUCache Nat) "a" 10).1 = (none, false) ∧
      ∀ e' ∈ (lruGet (⟨2, [⟨"a", 7, some 5⟩]⟩ : LRUCache Nat) "a" 10).2.entries,
        e'.key ≠ "a") ∧
    (∃ c', lfuGet (⟨2, [("a", ⟨7, 1, 5, some 1⟩)], [(1, ["a"])], 1⟩ : LFUCache Nat)
        "a" 10 = some ((none, false), c') ∧ lookupKey c'.items "a" = none) ∧
    ((arcGet (⟨1, 0, [⟨0, "a", some 7, 5⟩], [], [], [],
        [("a", ⟨0, "a", some 7, 5⟩)], 1⟩ : ARCCache Nat) "a" 10).1 = (none, false)) :=
  ⟨(c5_lazy_expiration_removes_lru_lfu_arc "a" 10).1 _ ⟨"a", 7, some 5⟩
      (by decide) (by decide) (by decide),
    (c5_lazy_expiration_removes_lru_lfu_arc "a" 10).2.1 _ ⟨7, 1, 5, some 1⟩
      (by decide) (by decide) (by decide) (by decide),
    ((c5_lazy_expiration_removes_lru_lfu_arc "a" 10).2.2 _ ⟨0, "a", some 7, 5⟩
      (by decide) (by decide) (by decide) (by decide) (by decide) (by decide)
      (by decide) (by decide)).1⟩

/-! ## ARC lemmas: list surgery and disjointness bookkeeping -/

section ARC

variable {α : Type} [DecidableEq α]

theorem arc_id_inj {l : List (ArcElem α)} (hnd : (l.map (·.id)).Nodup)
    {a b : ArcElem α} (ha : a ∈ l) (hb : b ∈ l) (hid : a.id = b.id) : a = b := by
  induction l with
  | nil => simp at ha
  | cons x l ih =>
    simp only [List.map_cons, List.nodup_cons] at hnd
    rcases List.mem_cons.1 ha with rfl | ha' <;>
      rcases List.mem_cons.1 hb with rfl | hb'
    · rfl
    · exact absurd (hid ▸ List.mem_map_of_mem (·.id) hb') hnd.1
    · exact absurd (hid ▸ List.mem_map_of_mem (·.id) ha') hnd.1
    · exact ih hnd.2 ha' hb'

theorem arc_eraseId_decomp {l : List (ArcElem α)} (hnd : (l.map (·.id)).Nodup)
    {e : ArcElem α} (he : e ∈ l) :
    ∃ l1 l2, l = l1 ++ e :: l2 ∧ eraseId l e.id = l1 ++ l2 := by
  obtain ⟨a, l1, l2, hnl1, hpa, heq, herase⟩ :=
    List.exists_of_eraseP (p := fun x : ArcElem α => x.id == e.id) he (by simp)
  have hae : a = e := by
    apply arc_id_inj hnd _ he (by simpa using hpa)
    rw [heq]
    exact List.mem_append_right _ (List.mem_cons_self _ _)
  subst hae
  exact ⟨l1, l2, heq, herase⟩

theorem arc_getLast_decomp {β : Type} {l : List β} {x : β}
    (h : l.getLast? = some x) : l = l.dropLast ++ [x] := by
  induction l using List.reverseRecOn with
  | nil => simp at h
  | append_singleton l a ih =>
    rw [List.getLast?_concat] at h
    cases h
    rw [List.dropLast_concat]

theorem arcTrim_sublist (b : List String) (cap : Int) :
    (arcTrim b cap).Sublist b := by
  unfold arcTrim
  split
  · exact List.dropLast_sublist b
  · exact List.Sublist.refl b

theorem arcTrim_nodup {b : List String} (cap : Int) (h : b.Nodup) :
    (arcTrim b cap).Nodup :=
  (arcTrim_sublist b cap).nodup h

theorem mem_of_mem_arcTrim {b : List String} {cap : Int} {x : String}
    (h : x ∈ arcTrim b cap) : x ∈ b :=
  (arcTrim_sublist b cap).mem h

theorem arcKeysDisjoint_iff (c : ARCCache α) : arcKeysDisjoint c ↔
    (((c.t1 ++ c.t2).map (·.key)).Nodup ∧ c.b1.Nodup ∧ c.b2.Nodup ∧
     (∀ x ∈ (c.t1 ++ c.t2).map (·.key), x ∉ c.b1) ∧
     (∀ x ∈ (c.t1 ++ c.t2).map (·.key), x ∉ c.b2) ∧
     (∀ x ∈ c.b1, x ∉ c.b2)) := by
  unfold arcKeysDisjoint
  rw [List.nodup_append, List.nodup_append]
  unfold List.Disjoint
  constructor
  · rintro ⟨⟨h1, h2, h4⟩, h3, h5⟩
    refine ⟨h1, h2, h3, ?_, ?_, ?_⟩
    · intro x hx hb1
      exact h4 hx hb1
    · intro x hx hb2
      exact h5 (List.mem_append_left _ hx) hb2
    · intro x hx hb2
      exact h5 (List.mem_append_right _ hx) hb2
  · rintro ⟨h1, h2, h3, h4, h5, h6⟩
    refine ⟨⟨h1, h2, fun x hx hb1 => h4 x hx hb1⟩, h3, ?_⟩
    intro x hx hb2
    rcases List.mem_append.1 hx with hk | hb1
    · exact h5 x hk hb2
    · exact h6 x hb1 hb2

/-- A key mapped by `cache` is resident, so a key with no resident element
has no mapping; conversely a missing mapping means no resident element. -/
theorem arc_absent_of_cache_none {c : ARCCache α} (hWF : ARCWF c) {k : String}
    (h : lookupKey c.cache k = none) : ∀ e ∈ c.t1 ++ c.t2, e.key ≠ k := by
  intro e he hkey
  have := hWF.memCache e he
  rw [hkey, h] at this
  exact absurd this (by simp)

/-- Evicting a resident element of T1 into ghost list B1 (the shared shape
of `remove`'s T1 branch and `replace`'s T1 branch) preserves the ARC
invariants. -/
theorem arc_evict_t1_wf {c : ARCCache α} (hWF : ARCWF c) {e : ArcElem α}
    {l1 l2 : List (ArcElem α)} (hsplit : c.t1 = l1 ++ e :: l2) :
    ARCWF { c with t1 := l1 ++ l2,
                   b1 := arcTrim (e.key :: c.b1) c.capacity,
                   cache := eraseKey c.cache e.key } := by
  obtain ⟨h1, h2, h3, h4, h5, h6⟩ := (arcKeysDisjoint_iff c).1 hWF.disj
  have he : e ∈ c.t1 := by
    rw [hsplit]
    exact List.mem_append_right _ (List.mem_cons_self _ _)
  have heK : e.key ∈ (c.t1 ++ c.t2).map (·.key) :=
    List.mem_map_of_mem (·.key) (List.mem_append_left _ he)
  -- canonical expansion of the old key list
  have h1' : (e.key ∉ (l1.map (·.key) ++ (l2.map (·.key) ++ c.t2.map (·.key)))) ∧
      ((l1.map (·.key) ++ (l2.map (·.key) ++ c.t2.map (·.key))).Nodup) := by
    have h := h1
    rw [hsplit] at h
    simp only [List.map_append, List.map_cons] at h
    rw [List.append_assoc, List.cons_append, List.nodup_middle, List.nodup_cons] at h
    exact h
  have hids' : (e.id ∉ (l1.map (·.id) ++ (l2.map (·.id) ++ c.t2.map (·.id)))) ∧
      ((l1.map (·.id) ++ (l2.map (·.id) ++ c.t2.map (·.id))).Nodup) := by
    have h := hWF.idsNodup
    rw [hsplit] at h
    simp only [List.map_append, List.map_cons] at h
    rw [List.append_assoc, List.cons_append, List.nodup_middle, List.nodup_cons] at h
    exact h
  have hmemnew : ∀ x, x ∈ ((l1 ++ l2) ++ c.t2) → x ∈ c.t1 ++ c.t2 := by
    intro x hx
    rw [hsplit]
    simp only [List.mem_append, List.mem_cons] at hx ⊢
    tauto
  have hkeynew : ∀ x, x ∈ ((l1 ++ l2) ++ c.t2).map (·.key) →
      x ∈ (c.t1 ++ c.t2).map (·.key) := by
    intro x hx
    simp only [List.mem_map] at hx ⊢
    obtain ⟨y, hy, rfl⟩ := hx
    exact ⟨y, hmemnew y hy, rfl⟩
  have hKnotnew : e.key ∉ ((l1 ++ l2) ++ c.t2).map (·.key) := by
    intro hk
    apply h1'.1
    simpa [List.map_append, List.append_assoc] using hk
  have henotnew : e ∉ (l1 ++ l2) ++ c.t2 := by
    intro hk
    exact hKnotnew (List.mem_map_of_mem (·.key) hk)
  refine ⟨?_, ?_, ?_, ?_, ?_, ?_⟩
  · -- disjointness
    rw [arcKeysDisjoint_iff]
    refine ⟨?_, ?_, h3, ?_, ?_, ?_⟩
    · show (((l1 ++ l2) ++ c.t2).map (·.key)).Nodup
      simp only [List.map_append]
      rw [List.append_assoc]
      exact h1'.2
    · show (arcTrim (e.key :: c.b1) c.capacity).Nodup
      apply arcTrim_nodup
      exact List.nodup_cons.2 ⟨h4 _ heK, h2⟩
    · intro x hx hxb
      have hxb' := mem_of_mem_arcTrim hxb
      rcases List.mem_cons.1 hxb' with rfl | hxb''
      · exact hKnotnew hx
      · exact h4 x (hkeynew x hx) hxb''
    · intro x hx
      exact h5 x (hkeynew x hx)
    · intro x hx
      have hx' := mem_of_mem_arcTrim hx
      rcases List.mem_cons.1 hx' with rfl | hx''
      · exact h5 _ heK
      · exact h6 x hx''
  · -- ids nodup
    show (((l1 ++ l2) ++ c.t2).map (·.id)).Nodup
    simp only [List.map_append]
    rw [List.append_assoc]
    exact hids'.2
  · -- id bound
    intro e2 he2
    exact hWF.idsLt e2 (hmemnew e2 he2)
  · -- cacheKeys
    intro k2 e2 hlk
    by_cases hk2 : e.key = k2
    · rw [← hk2, lookupKey_eraseKey_self] at hlk
      exact absurd hlk (by simp)
    · rw [lookupKey_eraseKey_ne hk2] at hlk
      exact hWF.cacheKeys k2 e2 hlk
  · -- cacheMem
    intro k2 e2 hlk
    by_cases hk2 : e.key = k2
    · rw [← hk2, lookupKey_eraseKey_self] at hlk
      exact absurd hlk (by simp)
    · rw [lookupKey_eraseKey_ne hk2] at hlk
      have hm := hWF.cacheMem k2 e2 hlk
      have hkey2 := hWF.cacheKeys k2 e2 hlk
      have hne : e2 ≠ e := by
        intro h'
        subst h'
        exact hk2 (hkey2 ▸ rfl)
      show e2 ∈ (l1 ++ l2) ++ c.t2
      rw [hsplit] at hm
      simp only [List.mem_append, List.mem_cons] at hm ⊢
      rcases hm with (h' | h' | h') | h'
      · exact Or.inl (Or.inl h')
      · exact absurd h' hne
      · exact Or.inl (Or.inr h')
      · exact Or.inr h'
  · -- memCache
    intro e2 he2
    have hm := hmemnew e2 he2
    have := hWF.memCache e2 hm
    have hne : e2.key ≠ e.key := by
      intro h'
      have : e2 = e := by
        have h1le := hWF.memCache e (List.mem_append_left _ he)
        rw [h'] at this
        rw [this] at h1le
        exact Option.some_inj.1 h1le
      subst this
      exact henotnew he2
    show lookupKey (eraseKey c.cache e.key) e2.key = some e2
    rw [lookupKey_eraseKey_ne hne.symm]
    exact this

/-- Evicting a resident element of T2 into ghost list B2 (the shared shape
of `remove`'s T2 branch and `replace`'s T2 branch) preserves the ARC
invariants. -/
theorem arc_evict_t2_wf {c : ARCCache α} (hWF : ARCWF c) {e : ArcElem α}
    {l1 l2 : List (ArcElem α)} (hsplit : c.t2 = l1 ++ e :: l2) :
    ARCWF { c with t2 := l1 ++ l2,
                   b2 := arcTrim (e.key :: c.b2) c.capacity,
                   cache := eraseKey c.cache e.key } := by
  obtain ⟨h1, h2, h3, h4, h5, h6⟩ := (arcKeysDisjoint_iff c).1 hWF.disj
  have he : e ∈ c.t2 := by
    rw [hsplit]
    exact List.mem_append_right _ (List.mem_cons_self _ _)
  have heK : e.key ∈ (c.t1 ++ c.t2).map (·.key) :=
    List.mem_map_of_mem (·.key) (List.mem_append_right _ he)
  have h1' : (e.key ∉ ((c.t1.map (·.key) ++ l1.map (·.key)) ++ l2.map (·.key))) ∧
      (((c.t1.map (·.key) ++ l1.map (·.key)) ++ l2.map (·.key)).Nodup) := by
    have h := h1
    rw [hsplit] at h
    simp only [List.map_append, List.map_cons] at h
    rw [← List.append_assoc, List.nodup_middle, List.nodup_cons] at h
    exact h
  have hids' : (e.id ∉ ((c.t1.map (·.id) ++ l1.map (·.id)) ++ l2.map (·.id))) ∧
      (((c.t1.map (·.id) ++ l1.map (·.id)) ++ l2.map (·.id)).Nodup) := by
    have h := hWF.idsNodup
    rw [hsplit] at h
    simp only [List.map_append, List.map_cons] at h
    rw [← List.append_assoc, List.nodup_middle, List.nodup_cons] at h
    exact h
  have hmemnew : ∀ x, x ∈ c.t1 ++ (l1 ++ l2) → x ∈ c.t1 ++ c.t2 := by
    intro x hx
    rw [hsplit]
    simp only [List.mem_append, List.mem_cons] at hx ⊢
    tauto
  have hkeynew : ∀ x, x ∈ (c.t1 ++ (l1 ++ l2)).map (·.key) →
      x ∈ (c.t1 ++ c.t2).map (·.key) := by
    intro x hx
    simp only [List.mem_map] at hx ⊢
    obtain ⟨y, hy, rfl⟩ := hx
    exact ⟨y, hmemnew y hy, rfl⟩
  have hKnotnew : e.key ∉ (c.t1 ++ (l1 ++ l2)).map (·.key) := by
    intro hk
    apply h1'.1
    simpa [List.map_append, List.append_assoc] using hk
  have henotnew : e ∉ c.t1 ++ (l1 ++ l2) := by
    intro hk
    exact hKnotnew (List.mem_map_of_mem (·.key) hk)
  refine ⟨?_, ?_, ?_, ?_, ?_, ?_⟩
  · rw [arcKeysDisjoint_iff]
    refine ⟨?_, h2, ?_, ?_, ?_, ?_⟩
    · show ((c.t1 ++ (l1 ++ l2)).map (·.key)).Nodup
      simp only [List.map_append]
      rw [← List.append_assoc]
      exact h1'.2
    · show (arcTrim (e.key :: c.b2) c.capacity).Nodup
      apply arcTrim_nodup
      exact List.nodup_cons.2 ⟨h5 _ heK, h3⟩
    · intro x hx
      exact h4 x (hkeynew x hx)
    · intro x hx hxb
      have hxb' := mem_of_mem_arcTrim hxb
      rcases List.mem_cons.1 hxb' with rfl | hxb''
      · exact hKnotnew hx
      · exact h5 x (hkeynew x hx) hxb''
    · intro x hx hx2
      have hx2' := mem_of_mem_arcTrim hx2
      rcases List.mem_cons.1 hx2' with rfl | hx2''
      · exact h4 _ heK hx
      · exact h6 x hx hx2''
  · show ((c.t1 ++ (l1 ++ l2)).map (·.id)).Nodup
    simp only [List.map_append]
    rw [← List.append_assoc]
    exact hids'.2
  · intro e2 he2
    exact hWF.idsLt e2 (hmemnew e2 he2)
  · intro k2 e2 hlk
    by_cases hk2 : e.key = k2
    · rw [← hk2, lookupKey_eraseKey_self] at hlk
      exact absurd hlk (by simp)
    · rw [lookupKey_eraseKey_ne hk2] at hlk
      exact hWF.cacheKeys k2 e2 hlk
  · intro k2 e2 hlk
    by_cases hk2 : e.key = k2
    · rw [← hk2, lookupKey_eraseKey_self] at hlk
      exact absurd hlk (by simp)
    · rw [lookupKey_eraseKey_ne hk2] at hlk
      have hm := hWF.cacheMem k2 e2 hlk
      have hkey2 := hWF.cacheKeys k2 e2 hlk
      have hne : e2 ≠ e := by
        intro h'
        subst h'
        exact hk2 (hkey2 ▸ rfl)
      show e2 ∈ c.t1 ++ (l1 ++ l2)
      rw [hsplit] at hm
      simp only [List.mem_append, List.mem_cons] at hm ⊢
      rcases hm with h' | (h' | h' | h')
      · exact Or.inl h'
      · exact Or.inr (Or.inl h')
      · exact absurd h' hne
      · exact Or.inr (Or.inr h')
  · intro e2 he2
    have hm := hmemnew e2 he2
    have := hWF.memCache e2 hm
    have hne : e2.key ≠ e.key := by
      intro h'
      have : e2 = e := by
        have h1le := hWF.memCache e (List.mem_append_right _ he)
        rw [h'] at this
        rw [this] at h1le
        exact Option.some_inj.1 h1le
      subst this
      exact henotnew he2
    show lookupKey (eraseKey c.cache e.key) e2.key = some e2
    rw [lookupKey_eraseKey_ne hne.symm]
    exact this

theorem nodup_middle_shift {β : Type} {l0 l1 l2 : List β} {a : β} :
    (l0 ++ (l1 ++ a :: l2)).Nodup ↔ (a :: (l0 ++ (l1 ++ l2))).Nodup := by
  rw [← List.append_assoc, List.nodup_middle, List.append_assoc]

theorem nodup_middle_shift_left {β : Type} {l1 l2 l3 : List β} {a : β} :
    ((l1 ++ a :: l2) ++ l3).Nodup ↔ (a :: (l1 ++ (l2 ++ l3))).Nodup := by
  rw [List.append_assoc, List.cons_append, List.nodup_middle]

/-- Moving a T2 element to the front of T2 (`Get` hit in T2) preserves the
ARC invariants. -/
theorem arc_move_front_t2_wf {c : ARCCache α} (hWF : ARCWF c) {e : ArcElem α}
    {l1 l2 : List (ArcElem α)} (hsplit : c.t2 = l1 ++ e :: l2) :
    ARCWF { c with t2 := e :: (l1 ++ l2) } := by
  obtain ⟨h1, h2, h3, h4, h5, h6⟩ := (arcKeysDisjoint_iff c).1 hWF.disj
  have hmemnew : ∀ x, x ∈ c.t1 ++ (e :: (l1 ++ l2)) ↔ x ∈ c.t1 ++ c.t2 := by
    intro x
    rw [hsplit]
    simp only [List.mem_append, List.mem_cons]
    tauto
  have hkeynew : ∀ x, x ∈ (c.t1 ++ (e :: (l1 ++ l2))).map (·.key) →
      x ∈ (c.t1 ++ c.t2).map (·.key) := by
    intro x hx
    simp only [List.mem_map] at hx ⊢
    obtain ⟨y, hy, rfl⟩ := hx
    exact ⟨y, (hmemnew y).1 hy, rfl⟩
  refine ⟨?_, ?_, ?_, ?_, ?_, ?_⟩
  · rw [arcKeysDisjoint_iff]
    refine ⟨?_, h2, h3, ?_, ?_, h6⟩
    · show ((c.t1 ++ (e :: (l1 ++ l2))).map (·.key)).Nodup
      have h := h1
      rw [hsplit] at h
      simp only [List.map_append, List.map_cons] at h ⊢
      rw [nodup_middle_shift] at h
      rw [List.nodup_middle]
      exact h
    · intro x hx
      exact h4 x (hkeynew x hx)
    · intro x hx
      exact h5 x (hkeynew x hx)
  · show ((c.t1 ++ (e :: (l1 ++ l2))).map (·.id)).Nodup
    have h := hWF.idsNodup
    rw [hsplit] at h
    simp only [List.map_append, List.map_cons] at h ⊢
    rw [nodup_middle_shift] at h
    rw [List.nodup_middle]
    exact h
  · intro e2 he2
    exact hWF.idsLt e2 ((hmemnew e2).1 he2)
  · exact hWF.cacheKeys
  · intro k2 e2 hlk
    exact (hmemnew e2).2 (hWF.cacheMem k2 e2 hlk)
  · intro e2 he2
    exact hWF.memCache e2 ((hmemnew e2).1 he2)

/-- Promoting a T1 element to the front of T2 under a fresh id (`Get` hit in
T1, and `Set` of a key resident in T1) preserves the ARC invariants. -/
theorem arc_promote_wf {c : ARCCache α} (hWF : ARCWF c) {e ne : ArcElem α}
    {l1 l2 : List (ArcElem α)} (hsplit : c.t1 = l1 ++ e :: l2)
    (hneK : ne.key = e.key) (hneI : ne.id = c.nextId) :
    ARCWF { c with t1 := l1 ++ l2, t2 := ne :: c.t2,
                   cache := insertKey c.cache e.key ne,
                   nextId := c.nextId + 1 } := by
  obtain ⟨h1, h2, h3, h4, h5, h6⟩ := (arcKeysDisjoint_iff c).1 hWF.disj
  have he : e ∈ c.t1 := by
    rw [hsplit]
    exact List.mem_append_right _ (List.mem_cons_self _ _)
  have heK : e.key ∈ (c.t1 ++ c.t2).map (·.key) :=
    List.mem_map_of_mem (·.key) (List.mem_append_left _ he)
  -- canonical form of the old key list, with e.key pulled to the front
  have h1' : (e.key ∉ (l1.map (·.key) ++ (l2.map (·.key) ++ c.t2.map (·.key)))) ∧
      ((l1.map (·.key) ++ (l2.map (·.key) ++ c.t2.map (·.key))).Nodup) := by
    have h := h1
    rw [hsplit] at h
    simp only [List.map_append, List.map_cons] at h
    rw [nodup_middle_shift_left, List.nodup_cons] at h
    exact h
  have hids' : (e.id ∉ (l1.map (·.id) ++ (l2.map (·.id) ++ c.t2.map (·.id)))) ∧
      ((l1.map (·.id) ++ (l2.map (·.id) ++ c.t2.map (·.id))).Nodup) := by
    have h := hWF.idsNodup
    rw [hsplit] at h
    simp only [List.map_append, List.map_cons] at h
    rw [nodup_middle_shift_left, List.nodup_cons] at h
    exact h
  have hmemold : ∀ x, x ∈ (l1 ++ l2) ++ c.t2 → x ∈ c.t1 ++ c.t2 := by
    intro x hx
    rw [hsplit]
    simp only [List.mem_append, List.mem_cons] at hx ⊢
    tauto
  have hkeyold : ∀ x, x ∈ ((l1 ++ l2) ++ c.t2).map (·.key) →
      x ∈ (c.t1 ++ c.t2).map (·.key) := by
    intro x hx
    simp only [List.mem_map] at hx ⊢
    obtain ⟨y, hy, rfl⟩ := hx
    exact ⟨y, hmemold y hy, rfl⟩
  have hKnotold : e.key ∉ ((l1 ++ l2) ++ c.t2).map (·.key) := by
    intro hk
    apply h1'.1
    simpa [List.map_append, List.append_assoc] using hk
  refine ⟨?_, ?_, ?_, ?_, ?_, ?_⟩
  · rw [arcKeysDisjoint_iff]
    refine ⟨?_, h2, h3, ?_, ?_, h6⟩
    · show (((l1 ++ l2) ++ (ne :: c.t2)).map (·.key)).Nodup
      simp only [List.map_append, List.map_cons, hneK]
      rw [List.nodup_middle, List.nodup_cons]
      constructor
      · intro hk
        apply h1'.1
        simpa [List.append_assoc] using hk
      · simpa [List.append_assoc] using h1'.2
    · intro x hx
      simp only [List.map_append, List.map_cons, hneK] at hx
      have : x ∈ ((l1 ++ l2) ++ c.t2).map (·.key) ∨ x = e.key := by
        simp only [List.map_append, List.mem_append, List.mem_cons] at hx ⊢
        tauto
      rcases this with h' | rfl
      · exact h4 x (hkeyold x h')
      · exact h4 _ heK
    · intro x hx
      simp only [List.map_append, List.map_cons, hneK] at hx
      have : x ∈ ((l1 ++ l2) ++ c.t2).map (·.key) ∨ x = e.key := by
        simp only [List.map_append, List.mem_append, List.mem_cons] at hx ⊢
        tauto
      rcases this with h' | rfl
      · exact h5 x (hkeyold x h')
      · exact h5 _ heK
  · show (((l1 ++ l2) ++ (ne :: c.t2)).map (·.id)).Nodup
    simp only [List.map_append, List.map_cons, hneI]
    rw [List.nodup_middle, List.nodup_cons]
    constructor
    · intro hk
      simp only [List.mem_append, List.mem_map] at hk
      have : ∃ y, y ∈ c.t1 ++ c.t2 ∧ y.id = c.nextId := by
        rcases hk with (⟨y, hy, hid⟩ | ⟨y, hy, hid⟩) | ⟨y, hy, hid⟩
        · exact ⟨y, hmemold y (List.mem_append_left _ (List.mem_append_left _ hy)), hid⟩
        · exact ⟨y, hmemold y (List.mem_append_left _ (List.mem_append_right _ hy)), hid⟩
        · exact ⟨y, List.mem_append_right _ hy, hid⟩
      obtain ⟨y, hy, hid⟩ := this
      exact absurd hid (Nat.ne_of_lt (hWF.idsLt y hy))
    · simpa [List.append_assoc] using hids'.2
  · intro e2 he2
    simp only [List.mem_append, List.mem_cons] at he2
    rcases he2 with (h' | h') | h' | h'
    · exact Nat.lt_succ_of_lt (hWF.idsLt e2
        (hmemold e2 (List.mem_append_left _ (List.mem_append_left _ h'))))
    · exact Nat.lt_succ_of_lt (hWF.idsLt e2
        (hmemold e2 (List.mem_append_left _ (List.mem_append_right _ h'))))
    · rw [h', hneI]; exact Nat.lt_succ_self _
    · exact Nat.lt_succ_of_lt (hWF.idsLt e2 (hmemold e2 (List.mem_append_right _ h')))
  · intro k2 e2 hlk
    by_cases hk2 : e.key = k2
    · rw [← hk2, lookupKey_insertKey_self] at hlk
      rw [← Option.some_inj.1 hlk, hneK, hk2]
    · rw [lookupKey_insertKey_ne hk2] at hlk
      exact hWF.cacheKeys k2 e2 hlk
  · intro k2 e2 hlk
    by_cases hk2 : e.key = k2
    · rw [← hk2, lookupKey_insertKey_self] at hlk
      rw [← Option.some_inj.1 hlk]
      exact List.mem_append_right _ (List.mem_cons_self _ _)
    · rw [lookupKey_insertKey_ne hk2] at hlk
      have hm := hWF.cacheMem k2 e2 hlk
      have hkey2 := hWF.cacheKeys k2 e2 hlk
      have hne2 : e2 ≠ e := by
        intro h'
        subst h'
        exact hk2 (hkey2 ▸ rfl)
      show e2 ∈ (l1 ++ l2) ++ (ne :: c.t2)
      rw [hsplit] at hm
      simp only [List.mem_append, List.mem_cons] at hm ⊢
      rcases hm with (h' | h' | h') | h'
      · exact Or.inl (Or.inl h')
      · exact absurd h' hne2
      · exact Or.inl (Or.inr h')
      · exact Or.inr (Or.inr h')
  · intro e2 he2
    simp only [List.mem_append, List.mem_cons] at he2
    rcases he2 with (h' | h') | h' | h'
    · have hmem := hmemold e2 (List.mem_append_left _ (List.mem_append_left _ h'))
      have hk2 : e2.key ≠ e.key := by
        intro h''
        apply hKnotold
        rw [← h'']
        exact List.mem_map_of_mem (·.key)
          (List.mem_append_left _ (List.mem_append_left _ h'))
      show lookupKey (insertKey c.cache e.key ne) e2.key = some e2
      rw [lookupKey_insertKey_ne hk2.symm]
      exact hWF.memCache e2 hmem
    · have hmem := hmemold e2 (List.mem_append_left _ (List.mem_append_right _ h'))
      have hk2 : e2.key ≠ e.key := by
        intro h''
        apply hKnotold
        rw [← h'']
        exact List.mem_map_of_mem (·.key)
          (List.mem_append_left _ (List.mem_append_right _ h'))
      show lookupKey (insertKey c.cache e.key ne) e2.key = some e2
      rw [lookupKey_insertKey_ne hk2.symm]
      exact hWF.memCache e2 hmem
    · subst h'
      show lookupKey (insertKey c.cache e.key e2) e2.key = some e2
      rw [hneK, lookupKey_insertKey_self]
    · have hmem : e2 ∈ c.t1 ++ c.t2 := List.mem_append_right _ h'
      have hk2 : e2.key ≠ e.key := by
        intro h''
        apply hKnotold
        rw [← h'']
        exact List.mem_map_of_mem (·.key) (List.mem_append_right _ h')
      show lookupKey (insertKey c.cache e.key ne) e2.key = some e2
      rw [lookupKey_insertKey_ne hk2.symm]
      exact hWF.memCache e2 hmem

/-- Rewrapping a T2 element at the front of T2 with the same id and key
(`Set` of a key resident in T2) preserves the ARC invariants. -/
theorem arc_refresh_t2_wf {c : ARCCache α} (hWF : ARCWF c) {e ne : ArcElem α}
    {l1 l2 : List (ArcElem α)} (hsplit : c.t2 = l1 ++ e :: l2)
    (hneK : ne.key = e.key) (hneI : ne.id = e.id) :
    ARCWF { c with t2 := ne :: (l1 ++ l2),
                   cache := insertKey c.cache e.key ne } := by
  obtain ⟨h1, h2, h3, h4, h5, h6⟩ := (arcKeysDisjoint_iff c).1 hWF.disj
  have he : e ∈ c.t2 := by
    rw [hsplit]
    exact List.mem_append_right _ (List.mem_cons_self _ _)
  have heK : e.key ∈ (c.t1 ++ c.t2).map (·.key) :=
    List.mem_map_of_mem (·.key) (List.mem_append_right _ he)
  have h1' : (e.key ∉ (c.t1.map (·.key) ++ (l1.map (·.key) ++ l2.map (·.key)))) ∧
      ((c.t1.map (·.key) ++ (l1.map (·.key) ++ l2.map (·.key))).Nodup) := by
    have h := h1
    rw [hsplit] at h
    simp only [List.map_append, List.map_cons] at h
    rw [nodup_middle_shift, List.nodup_cons] at h
    exact h
  have hids' : (e.id ∉ (c.t1.map (·.id) ++ (l1.map (·.id) ++ l2.map (·.id)))) ∧
      ((c.t1.map (·.id) ++ (l1.map (·.id) ++ l2.map (·.id))).Nodup) := by
    have h := hWF.idsNodup
    rw [hsplit] at h
    simp only [List.map_append, List.map_cons] at h
    rw [nodup_middle_shift, List.nodup_cons] at h
    exact h
  have hkeynew : ∀ x, x ∈ (c.t1 ++ (ne :: (l1 ++ l2))).map (·.key) →
      x ∈ (c.t1 ++ c.t2).map (·.key) := by
    intro x hx
    rw [hsplit]
    simp only [List.map_append, List.map_cons, hneK, List.mem_append,
      List.mem_cons] at hx ⊢
    tauto
  refine ⟨?_, ?_, ?_, ?_, ?_, ?_⟩
  · rw [arcKeysDisjoint_iff]
    refine ⟨?_, h2, h3, ?_, ?_, h6⟩
    · show ((c.t1 ++ (ne :: (l1 ++ l2))).map (·.key)).Nodup
      simp only [List.map_append, List.map_cons, hneK]
      rw [List.nodup_middle, List.nodup_cons]
      exact h1'
    · intro x hx
      exact h4 x (hkeynew x hx)
    · intro x hx
      exact h5 x (hkeynew x hx)
  · show ((c.t1 ++ (ne :: (l1 ++ l2))).map (·.id)).Nodup
    simp only [List.map_append, List.map_cons, hneI]
    rw [List.nodup_middle, List.nodup_cons]
    exact hids'
  · intro e2 he2
    simp only [List.mem_append, List.mem_cons] at he2
    rcases he2 with h' | h' | h' | h'
    · exact hWF.idsLt e2 (List.mem_append_left _ h')
    · rw [h', hneI]
      exact hWF.idsLt e (List.mem_append_right _ he)
    · apply hWF.idsLt e2
      rw [hsplit]
      exact List.mem_append_right _ (List.mem_append_left _ h')
    · apply hWF.idsLt e2
      rw [hsplit]
      exact List.mem_append_right _ (List.mem_append_right _ (List.mem_cons_of_mem _ h'))
  · intro k2 e2 hlk
    by_cases hk2 : e.key = k2
    · rw [← hk2, lookupKey_insertKey_self] at hlk
      rw [← Option.some_inj.1 hlk, hneK, hk2]
    · rw [lookupKey_insertKey_ne hk2] at hlk
      exact hWF.cacheKeys k2 e2 hlk
  · intro k2 e2 hlk
    by_cases hk2 : e.key = k2
    · rw [← hk2, lookupKey_insertKey_self] at hlk
      rw [← Option.some_inj.1 hlk]
      exact List.mem_append_right _ (List.mem_cons_self _ _)
    · rw [lookupKey_insertKey_ne hk2] at hlk
      have hm := hWF.cacheMem k2 e2 hlk
      have hkey2 := hWF.cacheKeys k2 e2 hlk
      have hne2 : e2 ≠ e := by
        intro h'
        subst h'
        exact hk2 (hkey2 ▸ rfl)
      show e2 ∈ c.t1 ++ (ne :: (l1 ++ l2))
      rw [hsplit] at hm
      simp only [List.mem_append, List.mem_cons] at hm ⊢
      rcases hm with h' | h' | h' | h'
      · exact Or.inl h'
      · exact Or.inr (Or.inr (Or.inl h'))
      · exact absurd h' hne2
      · exact Or.inr (Or.inr (Or.inr h'))
  · intro e2 he2
    simp only [List.mem_append, List.mem_cons] at he2
    have hother : ∀ e3 ∈ c.t1 ++ c.t2, e3.key ≠ e.key →
        lookupKey (insertKey c.cache e.key ne) e3.key = some e3 := by
      intro e3 hm hk3
      rw [lookupKey_insertKey_ne hk3.symm]
      exact hWF.memCache e3 hm
    rcases he2 with h' | h' | h' | h'
    · refine hother e2 (List.mem_append_left _ h') ?_
      intro h''
      apply h1'.1
      rw [← h'']
      exact List.mem_append_left _ (List.mem_map_of_mem (·.key) h')
    · subst h'
      show lookupKey (insertKey c.cache e.key e2) e2.key = some e2
      rw [hneK, lookupKey_insertKey_self]
    · refine hother e2 ?_ ?_
      · rw [hsplit]
        exact List.mem_append_right _ (List.mem_append_left _ h')
      · intro h''
        apply h1'.1
        rw [← h'']
        exact List.mem_append_right _
          (List.mem_append_left _ (List.mem_map_of_mem (·.key) h'))
    · refine hother e2 ?_ ?_
      · rw [hsplit]
        exact List.mem_append_right _ (List.mem_append_right _ (List.mem_cons_of_mem _ h'))
      · intro h''
        apply h1'.1
        rw [← h'']
        exact List.mem_append_right _
          (List.mem_append_right _ (List.mem_map_of_mem (·.key) h'))

/-- Pushing a brand-new element (fresh key, fresh id) onto the front of T1
(`Set` of a fully absent key) preserves the ARC invariants. -/
theorem arc_push_t1_wf {c : ARCCache α} (hWF : ARCWF c) {k : String}
    (hfresh : ∀ e ∈ c.t1 ++ c.t2, e.key ≠ k) (hb1 : k ∉ c.b1) (hb2 : k ∉ c.b2)
    (w : Option α) (x : Int) :
    ARCWF { c with t1 := ⟨c.nextId, k, w, x⟩ :: c.t1,
                   cache := insertKey c.cache k ⟨c.nextId, k, w, x⟩,
                   nextId := c.nextId + 1 } := by
  obtain ⟨h1, h2, h3, h4, h5, h6⟩ := (arcKeysDisjoint_iff c).1 hWF.disj
  have hknot : k ∉ (c.t1 ++ c.t2).map (·.key) := by
    intro hk
    simp only [List.mem_map] at hk
    obtain ⟨y, hy, hyk⟩ := hk
    exact hfresh y hy hyk
  refine ⟨?_, ?_, ?_, ?_, ?_, ?_⟩
  · rw [arcKeysDisjoint_iff]
    refine ⟨?_, h2, h3, ?_, ?_, h6⟩
    · show (((⟨c.nextId, k, w, x⟩ :: c.t1) ++ c.t2).map
        (fun e : ArcElem α => e.key)).Nodup
      rw [List.cons_append, List.map_cons]
      exact List.nodup_cons.2 ⟨hknot, h1⟩
    · intro y hy
      rw [List.cons_append, List.map_cons] at hy
      rcases List.mem_cons.1 hy with rfl | hy'
      · exact hb1
      · exact h4 y hy'
    · intro y hy
      rw [List.cons_append, List.map_cons] at hy
      rcases List.mem_cons.1 hy with rfl | hy'
      · exact hb2
      · exact h5 y hy'
  · show (((⟨c.nextId, k, w, x⟩ :: c.t1) ++ c.t2).map
      (fun e : ArcElem α => e.id)).Nodup
    rw [List.cons_append, List.map_cons]
    refine List.nodup_cons.2 ⟨?_, hWF.idsNodup⟩
    intro hk
    simp only [List.mem_map] at hk
    obtain ⟨y, hy, hyk⟩ := hk
    exact absurd hyk (Nat.ne_of_lt (hWF.idsLt y hy))
  · intro e2 he2
    rw [List.cons_append] at he2
    rcases List.mem_cons.1 he2 with rfl | he2'
    · exact Nat.lt_succ_self _
    · exact Nat.lt_succ_of_lt (hWF.idsLt e2 he2')
  · intro k2 e2 hlk
    by_cases hk2 : k = k2
    · rw [← hk2, lookupKey_insertKey_self] at hlk
      rw [← Option.some_inj.1 hlk, hk2]
    · rw [lookupKey_insertKey_ne hk2] at hlk
      exact hWF.cacheKeys k2 e2 hlk
  · intro k2 e2 hlk
    by_cases hk2 : k = k2
    · rw [← hk2, lookupKey_insertKey_self] at hlk
      rw [← Option.some_inj.1 hlk, List.cons_append]
      exact List.mem_cons_self _ _
    · rw [lookupKey_insertKey_ne hk2] at hlk
      rw [List.cons_append]
      exact List.mem_cons_of_mem _ (hWF.cacheMem k2 e2 hlk)
  · intro e2 he2
    rw [List.cons_append] at he2
    rcases List.mem_cons.1 he2 with rfl | he2'
    · show lookupKey (insertKey c.cache k _) k = some _
      rw [lookupKey_insertKey_self]
    · have hk2 := hfresh e2 he2'
      show lookupKey (insertKey c.cache k _) e2.key = some e2
      rw [lookupKey_insertKey_ne (Ne.symm hk2)]
      exact hWF.memCache e2 he2'

/-- Pushing a brand-new element (fresh key, fresh id) onto the front of T2
(the ghost-hit placeholder installed by `request`) preserves the ARC
invariants. -/
theorem arc_push_t2_wf {c : ARCCache α} (hWF : ARCWF c) {k : String}
    (hfresh : ∀ e ∈ c.t1 ++ c.t2, e.key ≠ k) (hb1 : k ∉ c.b1) (hb2 : k ∉ c.b2)
    (w : Option α) (x : Int) :
    ARCWF { c with t2 := ⟨c.nextId, k, w, x⟩ :: c.t2,
                   cache := insertKey c.cache k ⟨c.nextId, k, w, x⟩,
                   nextId := c.nextId + 1 } := by
  obtain ⟨h1, h2, h3, h4, h5, h6⟩ := (arcKeysDisjoint_iff c).1 hWF.disj
  have hknot : k ∉ (c.t1 ++ c.t2).map (·.key) := by
    intro hk
    simp only [List.mem_map] at hk
    obtain ⟨y, hy, hyk⟩ := hk
    exact hfresh y hy hyk
  have hkeysplit : ∀ y, y ∈ (c.t1 ++ ((⟨c.nextId, k, w, x⟩ : ArcElem α) :: c.t2)).map
      (fun e : ArcElem α => e.key) ↔ y = k ∨ y ∈ (c.t1 ++ c.t2).map (·.key) := by
    intro y
    simp only [List.map_append, List.map_cons, List.mem_append, List.mem_cons]
    tauto
  refine ⟨?_, ?_, ?_, ?_, ?_, ?_⟩
  · rw [arcKeysDisjoint_iff]
    refine ⟨?_, h2, h3, ?_, ?_, h6⟩
    · show ((c.t1 ++ ((⟨c.nextId, k, w, x⟩ : ArcElem α) :: c.t2)).map
        (fun e : ArcElem α => e.key)).Nodup
      simp only [List.map_append, List.map_cons]
      rw [List.nodup_middle]
      refine List.nodup_cons.2 ⟨?_, ?_⟩
      · intro hk
        apply hknot
        simpa [List.map_append] using hk
      · simpa [List.map_append] using h1
    · intro y hy
      rcases (hkeysplit y).1 hy with rfl | hy'
      · exact hb1
      · exact h4 y hy'
    · intro y hy
      rcases (hkeysplit y).1 hy with rfl | hy'
      · exact hb2
      · exact h5 y hy'
  · show ((c.t1 ++ ((⟨c.nextId, k, w, x⟩ : ArcElem α) :: c.t2)).map
      (fun e : ArcElem α => e.id)).Nodup
    simp only [List.map_append, List.map_cons]
    rw [List.nodup_middle]
    refine List.nodup_cons.2 ⟨?_, ?_⟩
    · intro hk
      simp only [List.mem_append, List.mem_map] at hk
      have : ∃ y, y ∈ c.t1 ++ c.t2 ∧ y.id = c.nextId := by
        rcases hk with ⟨y, hy, hid⟩ | ⟨y, hy, hid⟩
        · exact ⟨y, List.mem_append_left _ hy, hid⟩
        · exact ⟨y, List.mem_append_right _ hy, hid⟩
      obtain ⟨y, hy, hid⟩ := this
      exact absurd hid (Nat.ne_of_lt (hWF.idsLt y hy))
    · have h := hWF.idsNodup
      simpa [List.map_append] using h
  · intro e2 he2
    simp only [List.mem_append, List.mem_cons] at he2
    rcases he2 with h' | h' | h'
    · exact Nat.lt_succ_of_lt (hWF.idsLt e2 (List.mem_append_left _ h'))
    · rw [h']
      exact Nat.lt_succ_self _
    · exact Nat.lt_succ_of_lt (hWF.idsLt e2 (List.mem_append_right _ h'))
  · intro k2 e2 hlk
    by_cases hk2 : k = k2
    · rw [← hk2, lookupKey_insertKey_self] at hlk
      rw [← Option.some_inj.1 hlk, hk2]
    · rw [lookupKey_insertKey_ne hk2] at hlk
      exact hWF.cacheKeys k2 e2 hlk
  · intro k2 e2 hlk
    by_cases hk2 : k = k2
    · rw [← hk2, lookupKey_insertKey_self] at hlk
      rw [← Option.some_inj.1 hlk]
      exact List.mem_append_right _ (List.mem_cons_self _ _)
    · rw [lookupKey_insertKey_ne hk2] at hlk
      have hm := hWF.cacheMem k2 e2 hlk
      simp only [List.mem_append, List.mem_cons] at hm ⊢
      tauto
  · intro e2 he2
    simp only [List.mem_append, List.mem_cons] at he2
    rcases he2 with h' | h' | h'
    · have hk2 := hfresh e2 (List.mem_append_left _ h')
      show lookupKey (insertKey c.cache k _) e2.key = some e2
      rw [lookupKey_insertKey_ne (Ne.symm hk2)]
      exact hWF.memCache e2 (List.mem_append_left _ h')
    · rw [h']
      show lookupKey (insertKey c.cache k _) k = some _
      rw [lookupKey_insertKey_self]
    · have hk2 := hfresh e2 (List.mem_append_right _ h')
      show lookupKey (insertKey c.cache k _) e2.key = some e2
      rw [lookupKey_insertKey_ne (Ne.symm hk2)]
      exact hWF.memCache e2 (List.mem_append_right _ h')

/-- The resident lists of a well-formed state carry no duplicate ids
(restriction of `idsNodup` to `t1`, `t2`, and the cross-disjointness). -/
theorem arc_ids_split {c : ARCCache α} (hWF : ARCWF c) :
    (c.t1.map (·.id)).Nodup ∧ (c.t2.map (·.id)).Nodup ∧
      ∀ i ∈ c.t1.map (·.id), i ∉ c.t2.map (·.id) := by
  have h := hWF.idsNodup
  rw [List.map_append, List.nodup_append] at h
  exact ⟨h.1, h.2.1, h.2.2⟩

/-- A `t2`-resident element's id never occurs in `t1`. -/
theorem arc_t1_not_contains_t2_id {c : ARCCache α} (hWF : ARCWF c)
    {e : ArcElem α} (he : e ∈ c.t2) : containsId c.t1 e.id = false := by
  apply arc_containsId_false_of_disjoint
  intro x hx hxe
  exact (arc_ids_split hWF).2.2 e.id (hxe ▸ List.mem_map_of_mem (·.id) hx)
    (List.mem_map_of_mem (·.id) he)

/-- `remove` preserves the ARC invariants. -/
theorem arcRemove_wf {c : ARCCache α} (hWF : ARCWF c) (k : String) :
    ARCWF (arcRemove c k) := by
  unfold arcRemove
  cases hlk : lookupKey c.cache k with
  | none => exact hWF
  | some e =>
    have hkey := hWF.cacheKeys k e hlk
    have hm := hWF.cacheMem k e hlk
    dsimp only
    rcases List.mem_append.1 hm with h1m | h2m
    · have hc1 : containsId c.t1 e.id = true := arc_containsId_of_mem h1m
      rw [if_pos hc1]
      obtain ⟨l1, l2, hsp, her⟩ := arc_eraseId_decomp (arc_ids_split hWF).1 h1m
      rw [her, ← hkey]
      exact arc_evict_t1_wf hWF hsp
    · have hc1 := arc_t1_not_contains_t2_id hWF h2m
      have hc2 : containsId c.t2 e.id = true := arc_containsId_of_mem h2m
      rw [if_neg (by simp [hc1]), if_pos hc2]
      obtain ⟨l1, l2, hsp, her⟩ :=
        arc_eraseId_decomp (arc_ids_split hWF).2.1 h2m
      rw [her, ← hkey]
      exact arc_evict_t2_wf hWF hsp

/-- When the requested key is on neither ghost list, `request` is the
identity. -/
theorem arcRequest_id_of_not_ghost {c : ARCCache α} {k : String}
    (hb1 : ¬ c.b1.contains k = true) (hb2 : ¬ c.b2.contains k = true) :
    arcRequest c k = c := by
  unfold arcRequest
  rw [if_neg hb1, if_neg hb2]

/-- `request` (as performed by a `Get` miss, with no guard on the ghost
lists) preserves the ARC invariants. -/
theorem arcRequest_wf {c : ARCCache α} (hWF : ARCWF c) {k : String}
    (hmiss : lookupKey c.cache k = none) : ARCWF (arcRequest c k) := by
  have hfresh := arc_absent_of_cache_none hWF hmiss
  obtain ⟨h1, h2, h3, h4, h5, h6⟩ := (arcKeysDisjoint_iff c).1 hWF.disj
  unfold arcRequest arcMoveToT2
  by_cases hcb1 : c.b1.contains k = true
  · rw [if_pos hcb1]
    dsimp only
    rw [if_pos hcb1]
    have hkb1 : k ∈ c.b1 := by simpa using hcb1
    have hc1wf : ARCWF { c with
        p := min c.capacity (c.p + max ((c.b2.length : Int) / (c.b1.length : Int)) 1),
        b1 := c.b1.erase k } := by
      refine ⟨?_, hWF.idsNodup, hWF.idsLt, hWF.cacheKeys, hWF.cacheMem,
        hWF.memCache⟩
      rw [arcKeysDisjoint_iff]
      refine ⟨h1, h2.erase k, h3, ?_, h5, ?_⟩
      · intro x hx hxe
        exact h4 x hx (List.mem_of_mem_erase hxe)
      · intro x hx
        exact h6 x (List.mem_of_mem_erase hx)
    exact arc_push_t2_wf hc1wf hfresh
      (fun hk => absurd ((h2.mem_erase_iff).1 hk).1 (by simp))
      (h6 k hkb1) none 0
  · rw [if_neg hcb1]
    by_cases hcb2 : c.b2.contains k = true
    · rw [if_pos hcb2]
      dsimp only
      rw [if_neg hcb1, if_pos hcb2]
      have hkb2 : k ∈ c.b2 := by simpa using hcb2
      have hc1wf : ARCWF { c with
          p := max 0 (c.p - max ((c.b1.length : Int) / (c.b2.length : Int)) 1),
          b2 := c.b2.erase k } := by
        refine ⟨?_, hWF.idsNodup, hWF.idsLt, hWF.cacheKeys, hWF.cacheMem,
          hWF.memCache⟩
        rw [arcKeysDisjoint_iff]
        refine ⟨h1, h2, h3.erase k, h4, ?_, ?_⟩
        · intro x hx hxe
          exact h5 x hx (List.mem_of_mem_erase hxe)
        · intro x hx hxe
          exact h6 x hx (List.mem_of_mem_erase hxe)
      exact arc_push_t2_wf hc1wf hfresh (by simpa using hcb1)
        (fun hk => absurd ((h3.mem_erase_iff).1 hk).1 (by simp)) none 0
    · rw [if_neg hcb2]
      exact hWF

/-- `replace` (when it completes without panicking) preserves the ARC
invariants, and a key absent from every resident and ghost list stays
absent. -/
theorem arcReplace_wf {c : ARCCache α} (hWF : ARCWF c) (k : String)
    {c' : ARCCache α} (h : arcReplace c k = some c') :
    ARCWF c' ∧ ∀ k2, (∀ e ∈ c.t1 ++ c.t2, e.key ≠ k2) → k2 ∉ c.b1 → k2 ∉ c.b2 →
      ((∀ e ∈ c'.t1 ++ c'.t2, e.key ≠ k2) ∧ k2 ∉ c'.b1 ∧ k2 ∉ c'.b2) := by
  unfold arcReplace at h
  split at h
  · cases hgl : c.t1.getLast? with
    | none => rw [hgl] at h; exact absurd h (by simp)
    | some lru =>
      rw [hgl] at h
      dsimp only at h
      have hsp : c.t1 = c.t1.dropLast ++ lru :: [] := arc_getLast_decomp hgl
      have hlru : lru ∈ c.t1 := by
        rw [hsp]
        exact List.mem_append_right _ (List.mem_cons_self _ _)
      have hwf' := arc_evict_t1_wf hWF hsp
      rw [List.append_nil] at hwf'
      rw [← Option.some_inj.1 h]
      constructor
      · exact hwf'
      · intro k2 hkf hb1 hb2
        refine ⟨?_, ?_, hb2⟩
        · intro e he
          apply hkf e
          simp only [List.mem_append] at he ⊢
          rcases he with h' | h'
          · exact Or.inl ((List.dropLast_sublist c.t1).mem h')
          · exact Or.inr h'
        · intro hk
          rcases List.mem_cons.1 (mem_of_mem_arcTrim hk) with rfl | hk'
          · exact hkf lru (List.mem_append_left _ hlru) rfl
          · exact hb1 hk'
  · cases hgl : c.t2.getLast? with
    | none => rw [hgl] at h; exact absurd h (by simp)
    | some lru =>
      rw [hgl] at h
      dsimp only at h
      have hsp : c.t2 = c.t2.dropLast ++ lru :: [] := arc_getLast_decomp hgl
      have hlru : lru ∈ c.t2 := by
        rw [hsp]
        exact List.mem_append_right _ (List.mem_cons_self _ _)
      have hwf' := arc_evict_t2_wf hWF hsp
      rw [List.append_nil] at hwf'
      rw [← Option.some_inj.1 h]
      constructor
      · exact hwf'
      · intro k2 hkf hb1 hb2
        refine ⟨?_, hb1, ?_⟩
        · intro e he
          apply hkf e
          simp only [List.mem_append] at he ⊢
          rcases he with h' | h'
          · exact Or.inl h'
          · exact Or.inr ((List.dropLast_sublist c.t2).mem h')
        · intro hk
          rcases List.mem_cons.1 (mem_of_mem_arcTrim hk) with rfl | hk'
          · exact hkf lru (List.mem_append_right _ hlru) rfl
          · exact hb2 hk'

/-- `Flush` yields a well-formed (empty) state. -/
theorem arcFlush_wf (c : ARCCache α) : ARCWF (arcFlush c) := by
  refine ⟨?_, ?_, ?_, ?_, ?_, ?_⟩ <;> simp [arcFlush, arcKeysDisjoint]

/-- `Get` preserves the ARC invariants (with no side condition: a miss may
freely hit a ghost list). -/
theorem arcGet_wf {c : ARCCache α} (hWF : ARCWF c) (k : String) (now : Int) :
    ARCWF (arcGet c k now).2 := by
  unfold arcGet
  cases hlk : lookupKey c.cache k with
  | none =>
    dsimp only
    exact arcRequest_wf hWF hlk
  | some e =>
    have hkey := hWF.cacheKeys k e hlk
    have hm := hWF.cacheMem k e hlk
    dsimp only
    by_cases hexp : e.expiration > 0 ∧ e.expiration < now
    · rw [if_pos hexp]
      exact arcRemove_wf hWF k
    · rw [if_neg hexp]
      rcases List.mem_append.1 hm with h1m | h2m
      · have hc1 : containsId c.t1 e.id = true := arc_containsId_of_mem h1m
        rw [if_pos hc1]
        obtain ⟨l1, l2, hsp, her⟩ :=
          arc_eraseId_decomp (arc_ids_split hWF).1 h1m
        dsimp only
        rw [her, ← hkey]
        exact arc_promote_wf hWF hsp rfl rfl
      · have hc1 := arc_t1_not_contains_t2_id hWF h2m
        have hc2 : containsId c.t2 e.id = true := arc_containsId_of_mem h2m
        rw [if_neg (by simp [hc1]), if_pos hc2]
        obtain ⟨l1, l2, hsp, her⟩ :=
          arc_eraseId_decomp (arc_ids_split hWF).2.1 h2m
        dsimp only
        rw [her]
        exact arc_move_front_t2_wf hWF hsp

/-- `Set` of a key on neither ghost list preserves the ARC invariants
whenever it completes without panicking. -/
theorem arcSet_wf_of_guard {c : ARCCache α} (hWF : ARCWF c) {k : String}
    {v : α} {ttl now : Int} (hb1 : ¬ c.b1.contains k = true)
    (hb2 : ¬ c.b2.contains k = true) {c' : ARCCache α}
    (h : arcSet c k v ttl now = some c') : ARCWF c' := by
  unfold arcSet at h
  cases hlk : lookupKey c.cache k with
  | some e =>
    rw [hlk] at h
    dsimp only at h
    have hkey := hWF.cacheKeys k e hlk
    have hm := hWF.cacheMem k e hlk
    rcases List.mem_append.1 hm with h1m | h2m
    · have hc1 : containsId c.t1 e.id = true := arc_containsId_of_mem h1m
      rw [if_pos hc1] at h
      obtain ⟨l1, l2, hsp, her⟩ := arc_eraseId_decomp (arc_ids_split hWF).1 h1m
      rw [her, ← hkey] at h
      rw [← Option.some_inj.1 h]
      exact arc_promote_wf hWF hsp rfl rfl
    · have hc1 := arc_t1_not_contains_t2_id hWF h2m
      have hc2 : containsId c.t2 e.id = true := arc_containsId_of_mem h2m
      rw [if_neg (by simp [hc1]), if_pos hc2] at h
      obtain ⟨l1, l2, hsp, her⟩ :=
        arc_eraseId_decomp (arc_ids_split hWF).2.1 h2m
      rw [her, ← hkey] at h
      rw [← Option.some_inj.1 h]
      exact arc_refresh_t2_wf hWF hsp rfl rfl
  | none =>
    rw [hlk] at h
    dsimp only at h
    rw [arcRequest_id_of_not_ghost hb1 hb2] at h
    have hfresh := arc_absent_of_cache_none hWF hlk
    have hkb1 : k ∉ c.b1 := by simpa using hb1
    have hkb2 : k ∉ c.b2 := by simpa using hb2
    by_cases hcap : ((c.t1.length : Int) + (c.t2.length : Int)) ≥ c.capacity
    · rw [if_pos hcap] at h
      cases hrep : arcReplace c k with
      | none => rw [hrep] at h; exact absurd h (by simp)
      | some c2 =>
        rw [hrep] at h
        simp only [Option.bind_eq_bind, Option.some_bind] at h
        obtain ⟨hwf2, htrans⟩ := arcReplace_wf hWF k hrep
        obtain ⟨hf2, hb12, hb22⟩ := htrans k hfresh hkb1 hkb2
        rw [← Option.some_inj.1 h]
        exact arc_push_t1_wf hwf2 hf2 hb12 hb22 (some v) _
    · rw [if_neg hcap] at h
      simp only [Option.bind_eq_bind, Option.some_bind] at h
      rw [← Option.some_inj.1 h]
      exact arc_push_t1_wf hWF hfresh hkb1 hkb2 (some v) _

/-- Every guarded step preserves the ARC invariants. -/
theorem arcStepNoGhostSet_wf {c : ARCCache α} (hWF : ARCWF c)
    (op : CacheOp α) {c' : ARCCache α}
    (h : arcStepNoGhostSet c op = some c') : ARCWF c' := by
  cases op with
  | set k v ttl now =>
    unfold arcStepNoGhostSet at h
    dsimp only at h
    by_cases hg : c.b1.contains k = true ∨ c.b2.contains k = true
    · rw [if_pos hg] at h
      exact absurd h (by simp)
    · rw [if_neg hg] at h
      exact arcSet_wf_of_guard hWF (not_or.1 hg).1 (not_or.1 hg).2 h
  | get k now =>
    unfold arcStepNoGhostSet arcStep at h
    rw [← Option.some_inj.1 h]
    exact arcGet_wf hWF k now
  | del k =>
    unfold arcStepNoGhostSet arcStep arcDelete at h
    rw [← Option.some_inj.1 h]
    exact arcRemove_wf hWF k
  | flush =>
    unfold arcStepNoGhostSet arcStep at h
    rw [← Option.some_inj.1 h]
    exact arcFlush_wf c

/-- The ARC invariants hold after any completed guarded trace from a
well-formed start state. -/
theorem arcRunNoGhostSet_wf {c : ARCCache α} (hWF : ARCWF c)
    (ops : List (CacheOp α)) :
    ∀ c', arcRunNoGhostSet c ops = some c' → ARCWF c' := by
  induction ops generalizing c with
  | nil =>
    intro c' hc'
    cases hc'
    exact hWF
  | cons op ops ih =>
    intro c' hc'
    simp only [arcRunNoGhostSet, List.foldlM_cons] at hc'
    cases hstep : arcStepNoGhostSet c op with
    | none => rw [hstep] at hc'; exact absurd hc' (by simp)
    | some c1 =>
      rw [hstep] at hc'
      simp only [Option.bind_eq_bind, Option.some_bind] at hc'
      exact ih (arcStepNoGhostSet_wf hWF op hstep) c' hc'

/-- A freshly constructed ARC cache is well-formed. -/
theorem arcInit_wf (capacity : Int) : ARCWF (NewARCCache α capacity) := by
  refine ⟨?_, ?_, ?_, ?_, ?_, ?_⟩ <;> simp [NewARCCache, arcKeysDisjoint]

/-- C4 (amended): for `ARCCache`, along any trace of `Set`/`Get`/`Delete`/
`Flush` operations in which no `Set` ever targets a key currently on a
ghost list, every completed run leaves each key in at most one of T1, T2,
B1 and B2, with no duplicates inside any single list. -/
theorem c4_arc_disjoint_no_ghost_set (capacity : Int) (ops : List (CacheOp α))
    (c' : ARCCache α)
    (h : arcRunNoGhostSet (NewARCCache α capacity) ops = some c') :
    arcKeysDisjoint c' :=
  (arcRunNoGhostSet_wf (arcInit_wf capacity) ops c' h).disj

/-- Concrete instantiation of the amended C4 theorem: a guarded four-step
trace on a capacity-1 ARC cache ends in a state whose four lists are
key-disjoint. -/
theorem c4_arc_disjoint_no_ghost_set_witness :
    arcRunNoGhostSet (NewARCCache Nat 1)
      [.set "a" 1 0 0, .set "b" 2 0 0, .get "b" 0, .del "a"] =
      some ⟨1, 0, [], [⟨2, "b", some 2, 0⟩], ["a"], [],
        [("b", ⟨2, "b", some 2, 0⟩)], 3⟩ ∧
    arcKeysDisjoint (⟨1, 0, [], [⟨2, "b", some 2, 0⟩], ["a"], [],
        [("b", ⟨2, "b", some 2, 0⟩)], 3⟩ : ARCCache Nat) :=
  ⟨by decide, c4_arc_disjoint_no_ghost_set 1
    [.set "a" 1 0 0, .set "b" 2 0 0, .get "b" 0, .del "a"]
    ⟨1, 0, [], [⟨2, "b", some 2, 0⟩], ["a"], [],
      [("b", ⟨2, "b", some 2, 0⟩)], 3⟩ (by decide)⟩

end ARC

end Zwis
